import Mathlib

/-!
# stubmmio: regions, page ranges and element collections

A shallow embedding of the value types of the stubmmio library
(`include/stubmmio/stubmmio.h`, `src/pagerange.h`, `src/stubmmio.cxx`).

Machine integers are natural numbers reduced explicitly:
`std::uintptr_t` and `std::size_t` are 64 bits wide, `pageid_type`
(`std::uint32_t`) is 32 bits wide.
-/

set_option autoImplicit false

namespace stubmmio

/-! ## Machine words -/

/-- Number of values of `std::uintptr_t` / `std::size_t` (64-bit target). -/
def word_modulus : Nat := 2 ^ 64

/-- Number of values of `pageid_type` (`std::uint32_t`). -/
def pageid_modulus : Nat := 2 ^ 32

/-- The constant `detail::page_size` of `src/pagerange.h`. -/
def page_size : Nat := 4096

/-- A `std::source_location`: file name and line of a declaration site. -/
structure source_location where
  file_name : String
  line : Nat
deriving DecidableEq

/-! ## Exceptions (`namespace exceptions`) -/

/-- The exception types thrown by the modelled functions; each value carries the
arguments that the source formats into the message. -/
inductive exception where
  | duplicate_address (addr : Nat) (duplicate collection original : source_location)
  | overlapping_elements (collection : source_location)
      (first_addr first_size : Nat) (first_location : source_location)
      (second_addr second_size : Nat) (second_location : source_location)
  | region_reversed (begin_ end_ : Nat) (location : source_location)
  | conflicting_allocation (requested_pointer requested_size_bytes : Nat)
      (previous_pointer previous_size_bytes : Nat)
      (requestor : source_location) (previous_owner : Option source_location)
  | system_error (pointer size_bytes : Nat)
  | page_is_not_allocated (location : source_location)
  | page_size_mismatch (actual : Int)
  | arena_is_not_fully_available (arena_boundary executable_start : Nat)
deriving DecidableEq

/-! ## region (`include/stubmmio/stubmmio.h`) -/

/-- The class `region`: the members `address_` and `size_`. -/
structure region where
  address_ : Nat
  size_ : Nat
deriving DecidableEq

namespace region

/-- The accessor `region::addr()`. -/
def addr (r : region) : Nat := r.address_

/-- The accessor `region::size()`. -/
def size (r : region) : Nat := r.size_

/-- The pointer `region::end()`, computed as `address_ + size_` in `std::uintptr_t`. -/
def end_ (r : region) : Nat := (r.address_ + r.size_) % word_modulus

/-- A region value representable in the class: both members are 64-bit words. -/
def representable (r : region) : Prop :=
  r.address_ < word_modulus ∧ r.size_ < word_modulus

instance (r : region) : Decidable r.representable := by
  unfold representable; infer_instance

/-- The member `region::operator==`. -/
def op_eq (self that : region) : Bool :=
  decide (self.addr = that.addr) && decide (self.size = that.size)

/-- The free `operator<=>` on regions; `Ordering.lt` stands for `std::strong_ordering::less`. -/
def op_cmp (lhs rhs : region) : Ordering :=
  if lhs.addr = rhs.addr then compare lhs.size rhs.size else compare lhs.addr rhs.addr

/-- The byte `x` lies in the half-open interval `[addr, addr + size)` of the region. -/
def has_byte (r : region) (x : Nat) : Prop :=
  r.addr ≤ x ∧ x < r.addr + r.size

/-- The half-open byte intervals of two regions have a byte in common. -/
def share_byte (a b : region) : Prop :=
  ∃ x, a.has_byte x ∧ b.has_byte x

end region

/-- The free function `overlapping(const region&, const region&)`; the sums
`addr() + size()` are taken in `std::uintptr_t`. -/
def overlapping (a b : region) : Bool :=
  (decide (a.addr ≤ b.addr) && decide (b.addr < (a.addr + a.size) % word_modulus)) ||
  (decide (b.addr ≤ a.addr) && decide (a.addr < (b.addr + b.size) % word_modulus))

/-! ## pagerange (`src/pagerange.h`) -/

/-- The class `detail::pagerange`: the members `begin_` and `size_`. -/
structure pagerange where
  begin_ : Nat
  size_ : Nat
deriving DecidableEq

/-- The template `pagerange::ptr2page<rounding>`; `up = true` is `round::up`.
The increment is done in `std::uintptr_t`, the result is cast to `pageid_type`. -/
def ptr2page (up : Bool) (ptr : Nat) : Nat :=
  let address := if up then (ptr + (page_size - 1)) % word_modulus else ptr
  (address / page_size) % pageid_modulus

/-- The function `pagerange::ptrs2size`: a subtraction in `pageid_type`. -/
def ptrs2size (from_ to_ : Nat) : Nat :=
  (ptr2page true to_ + pageid_modulus - ptr2page false from_) % pageid_modulus

namespace pagerange

/-- The constructor `pagerange(pointer_type from, pointer_type to)`. -/
def of_pointers (from_ to_ : Nat) : pagerange :=
  { begin_ := ptr2page false from_, size_ := ptrs2size from_ to_ }

/-- The accessor `pagerange::begin()`. -/
def begin (p : pagerange) : Nat := p.begin_

/-- The accessor `pagerange::end()`: `begin_ + size_` in `pageid_type`. -/
def end_ (p : pagerange) : Nat := (p.begin_ + p.size_) % pageid_modulus

/-- The accessor `pagerange::size()`. -/
def size (p : pagerange) : Nat := p.size_

/-- The accessor `pagerange::empty()`. -/
def empty (p : pagerange) : Bool := decide (p.size_ = 0)

/-- The accessor `pagerange::size_bytes()`, a product in `std::size_t`. -/
def size_bytes (p : pagerange) : Nat := (p.size_ * page_size) % word_modulus

/-- The member `pagerange::overlapping`. -/
def overlapping (p r : pagerange) : Bool :=
  (decide (p.begin ≤ r.begin) && decide (r.begin ≤ p.end_)) ||
  (decide (r.begin ≤ p.begin) && decide (p.begin ≤ r.end_))

/-- The member `pagerange::operator==`. -/
def op_eq (p r : pagerange) : Bool :=
  decide (p.begin = r.begin) && decide (p.size = r.size)

/-- The member `pagerange::contains`. -/
def contains (p r : pagerange) : Bool :=
  decide (p.begin ≤ r.begin) && decide (r.end_ ≤ p.end_)

/-- The member `pagerange::join`: the returned flag paired with the receiver
after the call. -/
def join (self that : pagerange) : Bool × pagerange :=
  if !(self.overlapping that) then (false, self)
  else
    let maxend := max self.end_ that.end_
    let begin_ := min self.begin_ that.begin_
    (true, { begin_ := begin_, size_ := (maxend + pageid_modulus - begin_) % pageid_modulus })

/-- A page range value representable in the class: both members are 32-bit words. -/
def representable (p : pagerange) : Prop :=
  p.begin_ < pageid_modulus ∧ p.size_ < pageid_modulus

instance (p : pagerange) : Decidable p.representable := by
  unfold representable; infer_instance

/-- The page `x` belongs to the range: `begin_ ≤ x < begin_ + size_`. -/
def has_page (p : pagerange) (x : Nat) : Prop :=
  p.begin_ ≤ x ∧ x < p.begin_ + p.size_

/-- The page intervals `[begin, end)` of two ranges have a page in common. -/
def share_page (p q : pagerange) : Prop :=
  ∃ x, p.has_page x ∧ q.has_page x

/-- The pages of `r` form a subset of the pages of `p`. -/
def pages_subset (r p : pagerange) : Prop :=
  ∀ x, r.has_page x → p.has_page x

/-- The pages of `r` form a proper subset of the pages of `p`. -/
def pages_proper_subset (r p : pagerange) : Prop :=
  pages_subset r p ∧ ∃ x, p.has_page x ∧ ¬ r.has_page x

end pagerange

/-! ## Regions from pointer pairs (`region(T* begin, T* end)`, `src/stubmmio.cxx`) -/

/-- The value of a 64-bit word read as `std::ptrdiff_t` (two's complement). -/
def to_ptrdiff (w : Nat) : Int :=
  if w % word_modulus < 2 ^ 63 then ((w % word_modulus : Nat) : Int)
  else ((w % word_modulus : Nat) : Int) - (word_modulus : Int)

/-- The cast `static_cast<size_type>` of a `std::ptrdiff_t`. -/
def to_size_type (d : Int) : Nat := (d % (word_modulus : Int)).toNat

/-- The difference `end - begin` of two byte pointers as `std::ptrdiff_t`. -/
def byte_difference (end_ begin_ : Nat) : Int :=
  to_ptrdiff ((end_ % word_modulus + word_modulus - begin_ % word_modulus) % word_modulus)

/-- The function `detail::ensure_region_is_not_reversed`. -/
def ensure_region_is_not_reversed (r_begin r_end : Nat) (l : source_location) :
    Except exception Unit :=
  if byte_difference r_end r_begin < 0 then
    Except.error (exception.region_reversed r_begin r_end l)
  else Except.ok ()

/-- The constructor `region(T* begin, T* end, location)` for an element type of
`sizeof_T` bytes: the member initialisers compute
`static_cast<size_type>(end - begin) * sizeof(T)`, then the body runs the
reversal check. -/
def region.of_range (sizeof_T begin_ end_ : Nat) (location : source_location) :
    Except exception region :=
  let size_ := (to_size_type (Int.tdiv (byte_difference end_ begin_) (sizeof_T : Int)) * sizeof_T)
    % word_modulus
  match ensure_region_is_not_reversed begin_ end_ location with
  | Except.error e => Except.error e
  | Except.ok () => Except.ok { address_ := begin_, size_ := size_ }

/-! ## Rounding to pages, in the words of the specification -/

/-- The page holding byte address `a`: the address floored to a page index. -/
def page_floor (a : Nat) : Nat := a / 4096

/-- The first page index at or above byte address `a`: the address ceiled to a
page index. -/
def page_ceil (a : Nat) : Nat := if a % 4096 = 0 then a / 4096 else a / 4096 + 1

/-! ## element, stub and verify (`include/stubmmio/stubmmio.h`, `src/stubmmio.cxx`) -/

/-- The class template `element<Operator>`; `Op` is the closure type
`Operator::operator_type`. -/
structure element (Op : Type) where
  region_ : region
  operator_ : Op
  location_ : source_location

namespace element

variable {Op : Type}

/-- The accessor `element::addr()`. -/
def addr (e : element Op) : Nat := e.region_.addr

/-- The accessor `element::size()`. -/
def size (e : element Op) : Nat := e.region_.size

/-- The accessor `element::location()`. -/
def location (e : element Op) : source_location := e.location_

/-- The friend function `overlapping(const element&, const element&)`. -/
def overlapping (a b : element Op) : Bool := stubmmio.overlapping a.region_ b.region_

end element

/-- The type `elements_type = std::map<region::address_type, element_type>`: the
entries in ascending key order. -/
abbrev elements_type (Op : Type) : Type := List (Nat × element Op)

/-- The keys of an element map, in iteration order. -/
def elements_type.keys {Op : Type} (m : elements_type Op) : List Nat := m.map Prod.fst

/-- The member `std::map::try_emplace(key, value)`: the map after the call and,
when the key was already present (the returned flag is false), the element found
under it; the map is then left as it was. -/
def try_emplace {Op : Type} :
    elements_type Op → Nat → element Op → elements_type Op × Option (element Op)
  | [], key, value => ([(key, value)], none)
  | (k, v) :: rest, key, value =>
    if key < k then ((key, value) :: (k, v) :: rest, none)
    else if key = k then ((k, v) :: rest, some v)
    else
      match try_emplace rest key value with
      | (rest_, found) => ((k, v) :: rest_, found)

/-- The function `detail::report_duplicate`: the exception it throws. -/
def report_duplicate {Op : Type} (duplicate original : element Op)
    (location : source_location) : exception :=
  exception.duplicate_address duplicate.addr duplicate.location location original.location

/-- The function `detail::append` over a range of elements (the branch that is
not `is_pair`): the destination map after the loop, and the exception that
ended the loop, if any. -/
def append {Op : Type} (dst : elements_type Op) :
    List (element Op) → source_location → elements_type Op × Option exception
  | [], _ => (dst, none)
  | i :: rest, location =>
    match try_emplace dst i.addr i with
    | (dst_, none) => append dst_ rest location
    | (dst_, some original) => (dst_, some (report_duplicate i original location))

/-- The loop `for (const auto& elements : lists) detail::append(...)` of the
list-of-lists constructors. -/
def append_lists {Op : Type} (dst : elements_type Op) :
    List (List (element Op)) → source_location → elements_type Op × Option exception
  | [], _ => (dst, none)
  | elements :: rest, location =>
    match append dst elements location with
    | (dst_, none) => append_lists dst_ rest location
    | (dst_, some e) => (dst_, some e)

/-- The algorithm `std::adjacent_find` with a binary predicate: the first pair
of neighbours satisfying it. -/
def adjacent_find {α : Type} (p : α → α → Bool) : List α → Option (α × α)
  | a :: b :: rest => if p a b then some (a, b) else adjacent_find p (b :: rest)
  | _ => none

/-- The function `detail::check_overlapping`: the exception it throws, if any. -/
def check_overlapping {Op : Type} (elements : elements_type Op)
    (location : source_location) : Option exception :=
  match adjacent_find (fun lhs rhs => element.overlapping lhs.2 rhs.2) elements with
  | some (overlaps, overlape) =>
    some (exception.overlapping_elements location
      overlaps.2.addr overlaps.2.size overlaps.2.location
      overlape.2.addr overlape.2.size overlape.2.location)
  | none => none

/-- The class `stub`: the members `elements_` and `location_`; `Op` is
`generator::operator_type`. -/
structure stub (Op : Type) where
  elements_ : elements_type Op
  location_ : source_location

/-- The class `verify`: the members `elements_` and `location_`; `Op` is
`comparator::operator_type`. -/
structure verify (Op : Type) where
  elements_ : elements_type Op
  location_ : source_location

/-- The accessor `stub::element_count()`. -/
def stub.element_count {Op : Type} (s : stub Op) : Nat := s.elements_.length

/-- The accessor `verify::element_count()`. -/
def verify.element_count {Op : Type} (v : verify Op) : Nat := v.elements_.length

/-- The constructor `stub::stub(initializer_list elements, location)`. -/
def stub.of_list {Op : Type} (elements : List (element Op)) (location : source_location) :
    Except exception (stub Op) :=
  match append [] elements location with
  | (_, some e) => Except.error e
  | (elements_, none) =>
    match check_overlapping elements_ location with
    | some e => Except.error e
    | none => Except.ok { elements_ := elements_, location_ := location }

/-- The constructor `stub::stub(std::initializer_list<initializer_list> lists, location)`. -/
def stub.of_lists {Op : Type} (lists : List (List (element Op))) (location : source_location) :
    Except exception (stub Op) :=
  match append_lists [] lists location with
  | (_, some e) => Except.error e
  | (elements_, none) =>
    match check_overlapping elements_ location with
    | some e => Except.error e
    | none => Except.ok { elements_ := elements_, location_ := location }

/-- The constructor `verify::verify(initializer_list elements, location)`. -/
def verify.of_list {Op : Type} (elements : List (element Op)) (location : source_location) :
    Except exception (verify Op) :=
  match append [] elements location with
  | (_, some e) => Except.error e
  | (elements_, none) => Except.ok { elements_ := elements_, location_ := location }

/-- The constructor `verify::verify(std::initializer_list<initializer_list> lists, location)`. -/
def verify.of_lists {Op : Type} (lists : List (List (element Op)))
    (location : source_location) : Except exception (verify Op) :=
  match append_lists [] lists location with
  | (_, some e) => Except.error e
  | (elements_, none) => Except.ok { elements_ := elements_, location_ := location }

/-- The exception is a `duplicate_address`. -/
def exception.is_duplicate_address : exception → Bool
  | exception.duplicate_address _ _ _ _ => true
  | _ => false

/-- The exception is an `overlapping_elements`. -/
def exception.is_overlapping_elements : exception → Bool
  | exception.overlapping_elements _ _ _ _ _ _ _ => true
  | _ => false

/-- The call threw `duplicate_address`. -/
def throws_duplicate_address {α : Type} : Except exception α → Bool
  | Except.error e => e.is_duplicate_address
  | Except.ok _ => false

/-- The call threw `overlapping_elements`. -/
def throws_overlapping_elements {α : Type} : Except exception α → Bool
  | Except.error e => e.is_overlapping_elements
  | Except.ok _ => false

/-- Two of the listed elements have the same base address. -/
def has_duplicate_address {Op : Type} (elements : List (element Op)) : Prop :=
  ¬ (elements.map element.addr).Nodup

instance {Op : Type} (elements : List (element Op)) :
    Decidable (has_duplicate_address elements) := by
  unfold has_duplicate_address; infer_instance

/-- Some two of the listed elements, at different base addresses, have
overlapping regions (as decided by `overlapping`). -/
def some_two_overlap {Op : Type} (elements : List (element Op)) : Prop :=
  ∃ a ∈ elements, ∃ b ∈ elements, a.addr ≠ b.addr ∧ element.overlapping a b = true

/-! ## Union of stubs (`stub::operator|=`, `operator|`) -/

/-- The function `detail::append` over the entries of another element map (the
branch that is `is_pair`): every entry is emplaced under its own key. -/
def append_pairs {Op : Type} (dst : elements_type Op) :
    List (Nat × element Op) → source_location → elements_type Op × Option exception
  | [], _ => (dst, none)
  | i :: rest, location =>
    match try_emplace dst i.1 i.2 with
    | (dst_, none) => append_pairs dst_ rest location
    | (dst_, some original) => (dst_, some (report_duplicate i.2 original location))

/-- The constructor `stub::stub(location)` of an empty stub. -/
def stub.empty {Op : Type} (location : source_location) : stub Op :=
  { elements_ := [], location_ := location }

/-- The member `stub::operator|=(const stub& that)`: the receiver after the call
and the exception thrown, if any. The receiver keeps whatever was appended
before the exception. -/
def stub.or_assign {Op : Type} (self that : stub Op) : stub Op × Option exception :=
  match append_pairs self.elements_ that.elements_ self.location_ with
  | (elements_, some e) => ({ elements_ := elements_, location_ := self.location_ }, some e)
  | (elements_, none) =>
    ({ elements_ := elements_, location_ := self.location_ },
      check_overlapping elements_ self.location_)

/-- The free function `operator|(const stub& lhs, const stub& rhs)`: `result` is
copy-constructed from `lhs`, `result |= rhs` runs, and `result` is returned. -/
def stub.op_or {Op : Type} (lhs rhs : stub Op) : Except exception (stub Op) :=
  match stub.or_assign lhs rhs with
  | (_, some e) => Except.error e
  | (result, none) => Except.ok result

/-! ## The arena (`src/mmio.h`) -/

/-- The accessor `pagerange::pointer()`: `std::uintptr_t{begin_} * page_size`. -/
def pagerange.pointer (p : pagerange) : Nat := (p.begin_ * page_size) % word_modulus

/-- The struct `mmio::allocation`; `owner` holds a `stub::identity_type` value. -/
structure allocation where
  range : pagerange
  owner : Nat
  location : source_location
deriving DecidableEq

/-- The calls that the arena makes into the operating system and into its
listeners, recorded in the order they are made. -/
inductive event where
  | mmap (range : pagerange)
  | fill (range : pagerange) (value : Nat)
  | unmapping (listener : Nat) (pointer size_bytes : Nat) (location : source_location)
  | munmap (range : pagerange)
deriving DecidableEq

/-- The class `detail::mmio`: the members `allocations_` (entries in ascending
key order), `listeners_` and `fill_`. -/
structure mmio where
  allocations_ : List (Nat × allocation)
  listeners_ : List Nat
  fill_ : Option Nat

/-- The member `std::map::emplace(key, value)` on the allocation map: the entry is
inserted at its place in key order unless the key is present. -/
def map_emplace {α : Type} : List (Nat × α) → Nat → α → List (Nat × α)
  | [], key, value => [(key, value)]
  | (k, v) :: rest, key, value =>
    if key < k then (key, value) :: (k, v) :: rest
    else if key = k then (k, v) :: rest
    else (k, v) :: map_emplace rest key value

namespace mmio

/-- The arena of a fresh process: no allocation, no listener, no fill value. -/
def initial : mmio := { allocations_ := [], listeners_ := [], fill_ := none }

/-- The lookup `allocations_.contains(key)` / `allocations_.at(key)`. -/
def allocations_at (a : mmio) (key : Nat) : Option allocation :=
  (a.allocations_.find? (fun i => decide (i.1 = key))).map Prod.snd

/-- The member `mmio::notify`: one `unmapping` call per listener, in order. -/
def notify (a : mmio) (pages : pagerange) (location : source_location) : List event :=
  a.listeners_.map (fun l => event.unmapping l pages.pointer pages.size_bytes location)

/-- The member `mmio::validate`: the exception it throws, if any. -/
def validate (a : mmio) (requested : pagerange) (owner_identity : Nat)
    (owner_location : source_location) : Option exception :=
  match a.allocations_at requested.begin with
  | some previous =>
    if previous.owner = owner_identity then
      if previous.range.op_eq requested then none
      else some (exception.conflicting_allocation requested.pointer requested.size_bytes
        previous.range.pointer previous.range.size_bytes owner_location none)
    else some (exception.conflicting_allocation requested.pointer requested.size_bytes
      previous.range.pointer previous.range.size_bytes owner_location (some previous.location))
  | none =>
    match a.allocations_.find? (fun item => requested.overlapping item.2.range) with
    | some found =>
      if found.2.owner ≠ owner_identity then
        some (exception.conflicting_allocation requested.pointer requested.size_bytes
          found.2.range.pointer found.2.range.size_bytes owner_location
          (some found.2.location))
      else none
    | none => none

/-- The member `mmio::allocate`; `mmap_ok` is the answer of the operating system
to the `mmap` call of `map_range`. The result is the arena after the call, the
calls made, and the exception thrown, if any. -/
def allocate (a : mmio) (mmap_ok : Bool) (requested : pagerange) (owner_identity : Nat)
    (owner_location : source_location) : mmio × List event × Option exception :=
  match a.validate requested owner_identity owner_location with
  | some e => (a, [], some e)
  | none =>
    if mmap_ok then
      ({ a with
          allocations_ := map_emplace a.allocations_ requested.begin
            { range := requested, owner := owner_identity, location := owner_location } },
        event.mmap requested ::
          (match a.fill_ with
            | some value => [event.fill requested value]
            | none => []),
        none)
    else (a, [], some (exception.system_error requested.pointer requested.size_bytes))

/-- The loop of `std::erase_if` in `mmio::deallocate`: the entries kept and the
calls made by the predicate, entry by entry. -/
def erase_owned (a : mmio) (identity : Nat) :
    List (Nat × allocation) → List (Nat × allocation) × List event
  | [] => ([], [])
  | i :: rest =>
    match erase_owned a identity rest with
    | (kept, calls) =>
      if i.2.owner = identity then
        (kept, a.notify i.2.range i.2.location ++ event.munmap i.2.range :: calls)
      else (i :: kept, calls)

/-- The member `mmio::deallocate`: the arena after the call and the calls made. -/
def deallocate (a : mmio) (owner_identity : Nat) : mmio × List event :=
  match erase_owned a owner_identity a.allocations_ with
  | (kept, calls) => ({ a with allocations_ := kept }, calls)

/-- The member `mmio::claim`. -/
def claim (a : mmio) (looserid claimerid : Nat) : mmio :=
  { a with
    allocations_ := a.allocations_.map (fun i =>
      if i.2.owner = looserid then
        (i.1, { range := i.2.range, owner := claimerid, location := i.2.location })
      else i) }

/-- The member `mmio::allocation_size`, accumulated in `std::size_t`. -/
def allocation_size (a : mmio) : Nat :=
  ((a.allocations_.foldl (fun result i => (result + i.2.range.size) % word_modulus) 0)
    * page_size) % word_modulus

/-- Some recorded allocation holds page `x` in its range. -/
def records_page (a : mmio) (x : Nat) : Prop :=
  ∃ i ∈ a.allocations_, i.2.range.has_page x

end mmio

/-- The effect of one call on the set of pages backed by the operating system:
`mmap` adds the pages of the range, `munmap` removes them. -/
def os_step (backed : Nat → Bool) : event → Nat → Bool
  | event.mmap r => fun x => backed x || decide (r.begin_ ≤ x ∧ x < r.begin_ + r.size_)
  | event.munmap r => fun x => backed x && !decide (r.begin_ ≤ x ∧ x < r.begin_ + r.size_)
  | _ => backed

/-- The pages backed after a sequence of calls. -/
def os_run (backed : Nat → Bool) (calls : List event) : Nat → Bool :=
  calls.foldl os_step backed

/-! ## Moving stubs (`stub::stub(stub&&)`, `operator=(stub&&)`, `operator|=(stub&&)`) -/

/-- The constructor `stub::stub(stub&& that)`: the new stub, `that` after the
call (a moved-from `std::map` is empty) and the arena after `claim(that, *this)`. -/
def stub.move_construct {Op : Type} (that : stub Op) (that_identity this_identity : Nat)
    (arena : mmio) : stub Op × stub Op × mmio :=
  ({ elements_ := that.elements_, location_ := that.location_ },
    { elements_ := [], location_ := that.location_ },
    arena.claim that_identity this_identity)

/-- The member `stub::operator=(stub&& that)`: the receiver, `that` and the arena
after the call. -/
def stub.move_assign {Op : Type} (_self that : stub Op) (that_identity this_identity : Nat)
    (arena : mmio) : stub Op × stub Op × mmio :=
  ({ elements_ := that.elements_, location_ := that.location_ },
    { elements_ := [], location_ := that.location_ },
    arena.claim that_identity this_identity)

/-- The member `stub::operator|=(stub&& that)`: the receiver, `that` and the arena
after the call, and the exception thrown, if any. `that` is cleared and its
allocations are claimed only when both checks passed. -/
def stub.or_assign_move {Op : Type} (self that : stub Op) (that_identity this_identity : Nat)
    (arena : mmio) : stub Op × stub Op × mmio × Option exception :=
  match append_pairs self.elements_ that.elements_ self.location_ with
  | (elements_, some e) =>
    ({ elements_ := elements_, location_ := self.location_ }, that, arena, some e)
  | (elements_, none) =>
    match check_overlapping elements_ self.location_ with
    | some e => ({ elements_ := elements_, location_ := self.location_ }, that, arena, some e)
    | none =>
      ({ elements_ := elements_, location_ := self.location_ },
        { elements_ := [], location_ := that.location_ },
        arena.claim that_identity this_identity, none)

/-! ## Stubs reachable through the public operations -/

/-- The defaulted copy constructor and copy assignment of `stub`: the copy has
the elements and the location of the source. -/
def stub.copy {Op : Type} (that : stub Op) : stub Op :=
  { elements_ := that.elements_, location_ := that.location_ }

/-- No two elements of the stub have the same base address. -/
def stub.distinct_addresses {Op : Type} (s : stub Op) : Prop :=
  s.elements_.Pairwise (fun p q => p.2.addr ≠ q.2.addr)

/-- No two elements of the stub have the same base address and no two elements
have overlapping regions. -/
def stub.invariant {Op : Type} (s : stub Op) : Prop :=
  s.elements_.Pairwise (fun p q => p.2.addr ≠ q.2.addr ∧ element.overlapping p.2 q.2 = false)

/-- The stub values that a program can hold after calls of the constructors,
copy, move, `operator|=` (copy and move) and `operator|`. With
`after_throw = true` the receiver (and the argument) of an `operator|=` that
threw count as reachable too; with `after_throw = false` only those of calls
that returned. -/
inductive stub.reachable {Op : Type} (after_throw : Bool) : stub Op → Prop where
  | empty (location : source_location) : stub.reachable after_throw (stub.empty location)
  | of_list (elements : List (element Op)) (location : source_location) (s : stub Op) :
      stub.of_list elements location = Except.ok s → stub.reachable after_throw s
  | of_lists (lists : List (List (element Op))) (location : source_location) (s : stub Op) :
      stub.of_lists lists location = Except.ok s → stub.reachable after_throw s
  | copy (that : stub Op) :
      stub.reachable after_throw that → stub.reachable after_throw (stub.copy that)
  | move_construct_this (that : stub Op) (that_identity this_identity : Nat) (arena : mmio) :
      stub.reachable after_throw that →
      stub.reachable after_throw (stub.move_construct that that_identity this_identity arena).1
  | move_construct_that (that : stub Op) (that_identity this_identity : Nat) (arena : mmio) :
      stub.reachable after_throw that →
      stub.reachable after_throw
        (stub.move_construct that that_identity this_identity arena).2.1
  | move_assign_this (self that : stub Op) (that_identity this_identity : Nat) (arena : mmio) :
      stub.reachable after_throw self → stub.reachable after_throw that →
      stub.reachable after_throw
        (stub.move_assign self that that_identity this_identity arena).1
  | move_assign_that (self that : stub Op) (that_identity this_identity : Nat) (arena : mmio) :
      stub.reachable after_throw self → stub.reachable after_throw that →
      stub.reachable after_throw
        (stub.move_assign self that that_identity this_identity arena).2.1
  | or_assign (self that : stub Op) :
      stub.reachable after_throw self → stub.reachable after_throw that →
      (after_throw = true ∨ (stub.or_assign self that).2 = none) →
      stub.reachable after_throw (stub.or_assign self that).1
  | or_assign_move_this (self that : stub Op) (that_identity this_identity : Nat)
      (arena : mmio) :
      stub.reachable after_throw self → stub.reachable after_throw that →
      (after_throw = true ∨
        (stub.or_assign_move self that that_identity this_identity arena).2.2.2 = none) →
      stub.reachable after_throw
        (stub.or_assign_move self that that_identity this_identity arena).1
  | or_assign_move_that (self that : stub Op) (that_identity this_identity : Nat)
      (arena : mmio) :
      stub.reachable after_throw self → stub.reachable after_throw that →
      (after_throw = true ∨
        (stub.or_assign_move self that that_identity this_identity arena).2.2.2 = none) →
      stub.reachable after_throw
        (stub.or_assign_move self that that_identity this_identity arena).2.1
  | op_or (lhs rhs s : stub Op) :
      stub.reachable after_throw lhs → stub.reachable after_throw rhs →
      stub.op_or lhs rhs = Except.ok s → stub.reachable after_throw s

/-- The element map of the stub is a `std::map` filled by the class: its keys are
strictly ascending and every entry is keyed by the address of its element. -/
def stub.well_formed {Op : Type} (s : stub Op) : Prop :=
  s.elements_.keys.Pairwise (· < ·) ∧ ∀ p ∈ s.elements_, p.1 = p.2.addr

/-! ## Predicates on the arena -/

/-- The allocation map is a `std::map`: its keys are strictly ascending. -/
def mmio.well_formed (a : mmio) : Prop :=
  (a.allocations_.map Prod.fst).Pairwise (· < ·)

instance (a : mmio) : Decidable a.well_formed := by
  unfold mmio.well_formed; infer_instance

/-- The exception is a `conflicting_allocation`. -/
def exception.is_conflicting_allocation : exception → Bool
  | exception.conflicting_allocation _ _ _ _ _ _ => true
  | _ => false

/-! ## The arena together with the pages backed by the operating system -/

/-- A call of one of the mutating member functions of the arena. -/
inductive arena_call where
  | allocate (mmap_ok : Bool) (requested : pagerange) (owner_identity : Nat)
      (owner_location : source_location)
  | deallocate (owner_identity : Nat)
  | claim (looserid claimerid : Nat)

/-- The state of the process: the arena and the set of pages that the operating
system backs. -/
structure process where
  arena : mmio
  backed : Nat → Bool

namespace process

/-- The process before the first call: an empty arena and no backed page. -/
def initial : process := { arena := mmio.initial, backed := fun _ => false }

/-- One call that returns: the state after it, or `none` when the call threw. -/
def call (w : process) : arena_call → Option process
  | arena_call.allocate mmap_ok requested owner_identity owner_location =>
    match w.arena.allocate mmap_ok requested owner_identity owner_location with
    | (arena, calls, none) => some { arena := arena, backed := os_run w.backed calls }
    | (_, _, some _) => none
  | arena_call.deallocate owner_identity =>
    match w.arena.deallocate owner_identity with
    | (arena, calls) => some { arena := arena, backed := os_run w.backed calls }
  | arena_call.claim looserid claimerid =>
    some { arena := w.arena.claim looserid claimerid, backed := w.backed }

/-- A sequence of calls that all return: the state after the last one. -/
def run (w : process) : List arena_call → Option process
  | [] => some w
  | c :: rest =>
    match w.call c with
    | some w_ => w_.run rest
    | none => none

/-- The recorded allocations cover exactly the backed pages. -/
def records_eq_backed (w : process) : Prop :=
  ∀ x, w.arena.records_page x ↔ w.backed x = true

end process

/-- The call, if it is an `allocate`, requests a range whose `begin + size` stays
below `2^32` and which overlaps no recorded allocation of another owner. -/
def arena_call.no_foreign_overlap (a : mmio) : arena_call → Prop
  | arena_call.allocate _ requested owner_identity _ =>
    requested.begin_ + requested.size_ < pageid_modulus ∧
    ∀ i ∈ a.allocations_, i.2.owner ≠ owner_identity →
      requested.overlapping i.2.range = false
  | _ => True

/-- Every `allocate` call of the sequence, at the state in which it is made,
requests a range that does not wrap and overlaps no allocation of another owner. -/
def process.no_foreign_overlap (w : process) : List arena_call → Prop
  | [] => True
  | c :: rest =>
    c.no_foreign_overlap w.arena ∧
    match w.call c with
    | some w_ => w_.no_foreign_overlap rest
    | none => True

/-- The invariant of the arena under calls without foreign overlap: the
allocation map has strictly ascending keys, no recorded range wraps, records of
different owners share no page, and the records cover exactly the backed pages. -/
def process.invariant (w : process) : Prop :=
  w.arena.well_formed ∧
  (∀ i ∈ w.arena.allocations_, i.2.range.begin_ + i.2.range.size_ < pageid_modulus) ∧
  (∀ i ∈ w.arena.allocations_, ∀ j ∈ w.arena.allocations_, i.2.owner ≠ j.2.owner →
    ∀ x, ¬ (i.2.range.has_page x ∧ j.2.range.has_page x)) ∧
  w.records_eq_backed

/-! ## Containment in the arena (`mmio::contains`) -/

/-- The member `mmio::contains(pagerange)`: the record keyed by the first page of
the request is asked when there is one, otherwise the first recorded allocation
that overlaps the request. -/
def mmio.contains (a : mmio) (requested : pagerange) : Bool :=
  match a.allocations_at requested.begin with
  | some found => found.range.contains requested
  | none =>
    match a.allocations_.find? (fun item => requested.overlapping item.2.range) with
    | none => false
    | some found => found.2.range.contains requested

/-- Some recorded allocation's page range fully contains `r`
(`alloc.begin <= r.begin` and `r.end <= alloc.end`). -/
def mmio.some_record_contains (a : mmio) (r : pagerange) : Prop :=
  ∃ i ∈ a.allocations_, i.2.range.contains r = true

/-- The records of the arena are keyed by their first page, are non-empty, do not
wrap, and no two of them share a page. -/
def mmio.disjoint_records (a : mmio) : Prop :=
  a.well_formed ∧
  (∀ i ∈ a.allocations_, i.1 = i.2.range.begin_ ∧ 0 < i.2.range.size_ ∧
    i.2.range.begin_ + i.2.range.size_ < pageid_modulus) ∧
  (∀ i ∈ a.allocations_, ∀ j ∈ a.allocations_, i ≠ j →
    ∀ x, ¬ (i.2.range.has_page x ∧ j.2.range.has_page x))

/-! ## Applying a stub (`stub::apply`, `src/stubmmio.cxx`) -/

/-- The pointer `element::begin()`, that is `region::begin()`. -/
def element.begin {Op : Type} (e : element Op) : Nat := e.region_.address_

/-- The pointer `element::end()`, that is `region::end()`. -/
def element.end_ {Op : Type} (e : element Op) : Nat := e.region_.end_

/-- The covering page range `detail::pagerange page {el.second.begin(), el.second.end()}`. -/
def element.pages {Op : Type} (e : element Op) : pagerange :=
  pagerange.of_pointers e.begin e.end_

/-- The first loop of `stub::apply`: the working list `pages` after the loop.
The loop breaks at the first element keyed at or above `arena::size()`; a page
range is joined into `pages.front()` or pushed back. -/
def stub.collect_pages {Op : Type} (arena_size : Nat) :
    List (Nat × element Op) → List pagerange → List pagerange
  | [], pages => pages
  | el :: rest, pages =>
    if arena_size ≤ el.1 then pages
    else
      match pages with
      | [] => stub.collect_pages arena_size rest [el.2.pages]
      | front :: tail =>
        match front.join el.2.pages with
        | (true, joined) => stub.collect_pages arena_size rest (joined :: tail)
        | (false, _) => stub.collect_pages arena_size rest (front :: tail ++ [el.2.pages])

/-- The second loop of `stub::apply`: `allocate` is called for every page range
in order until one call throws; `os` is the answer of the operating system to
the `mmap` call for a range. -/
def mmio.allocate_all (os : pagerange → Bool) (owner_identity : Nat)
    (owner_location : source_location) :
    List pagerange → mmio → mmio × List event × Option exception
  | [], a => (a, [], none)
  | page :: rest, a =>
    match a.allocate (os page) page owner_identity owner_location with
    | (a_, calls, some e) => (a_, calls, some e)
    | (a_, calls, none) =>
      match mmio.allocate_all os owner_identity owner_location rest a_ with
      | (arena, calls_, thrown) => (arena, calls ++ calls_, thrown)

/-- What a call of `stub::apply` leaves behind: the arena, the calls made into
the operating system and listeners, the elements whose operator closures were
invoked (in order), and the exception thrown, if any. -/
structure apply_result (Op : Type) where
  arena : mmio
  calls : List event
  invoked : List (element Op)
  thrown : Option exception

/-- The member `stub::apply` of the stub with identity `identity`, for the cap
`arena_size` (the value of `arena::size()`). The operator closures of all
elements are invoked after all allocations have returned. -/
def stub.apply {Op : Type} (s : stub Op) (identity : Nat) (arena_size : Nat)
    (os : pagerange → Bool) (a : mmio) : apply_result Op :=
  match mmio.allocate_all os identity s.location_
      (stub.collect_pages arena_size s.elements_ []) a with
  | (arena, calls, some e) => { arena := arena, calls := calls, invoked := [], thrown := some e }
  | (arena, calls, none) =>
    { arena := arena, calls := calls, invoked := s.elements_.map Prod.snd, thrown := none }

/-! ## Variants of `stub::apply` in the words of the specification -/

/-- The page scan that skips the elements keyed at or above the cap instead of
stopping at the first of them. -/
def stub.collect_pages_skipping {Op : Type} (arena_size : Nat) :
    List (Nat × element Op) → List pagerange → List pagerange
  | [], pages => pages
  | el :: rest, pages =>
    if arena_size ≤ el.1 then stub.collect_pages_skipping arena_size rest pages
    else
      match pages with
      | [] => stub.collect_pages_skipping arena_size rest [el.2.pages]
      | front :: tail =>
        match front.join el.2.pages with
        | (true, joined) => stub.collect_pages_skipping arena_size rest (joined :: tail)
        | (false, _) =>
          stub.collect_pages_skipping arena_size rest (front :: tail ++ [el.2.pages])

/-- Join at any position: the page range is joined into the first range of the
working list that it overlaps, if there is one. -/
def join_any_position (page : pagerange) : List pagerange → Option (List pagerange)
  | [] => none
  | p :: rest =>
    match p.join page with
    | (true, joined) => some (joined :: rest)
    | (false, _) =>
      match join_any_position page rest with
      | some rest_ => some (p :: rest_)
      | none => none

/-- The first loop of `stub::apply` with join at any position of the working list. -/
def stub.collect_pages_any_position {Op : Type} (arena_size : Nat) :
    List (Nat × element Op) → List pagerange → List pagerange
  | [], pages => pages
  | el :: rest, pages =>
    if arena_size ≤ el.1 then pages
    else
      match join_any_position el.2.pages pages with
      | some pages_ => stub.collect_pages_any_position arena_size rest pages_
      | none => stub.collect_pages_any_position arena_size rest (pages ++ [el.2.pages])

/-- The member `stub::apply` with join at any position of the working list. -/
def stub.apply_any_position {Op : Type} (s : stub Op) (identity : Nat) (arena_size : Nat)
    (os : pagerange → Bool) (a : mmio) : apply_result Op :=
  match mmio.allocate_all os identity s.location_
      (stub.collect_pages_any_position arena_size s.elements_ []) a with
  | (arena, calls, some e) => { arena := arena, calls := calls, invoked := [], thrown := some e }
  | (arena, calls, none) =>
    { arena := arena, calls := calls, invoked := s.elements_.map Prod.snd, thrown := none }

/-! ## Applying a verify (`verify::apply`, `src/stubmmio.cxx`) -/

/-- The enumeration `verify::control`. -/
inductive control where
  | stop
  | run
deriving DecidableEq

/-- The calls that the second loop of `verify::apply` makes, in the order they
are made: the comparator closure of an element with the value it returned, and
the `expect` hook with its arguments and the value it returned. -/
inductive verify_event (Op : Type) where
  | compared (el : element Op) (success : Bool)
  | expected (success : Bool) (location : source_location) (answer : control)

/-- The code that `verify::apply` calls into, over a state `σ` that both may read
and change: `call` is the invocation `el.second()` of the comparator closure of
an element, `expect` is the function behind the pointer `verify::expect`. -/
structure verify_hooks (σ : Type) (Op : Type) where
  call : σ → element Op → Bool × σ
  expect : σ → Bool → source_location → control × σ

/-- The pure comparators evaluated by `eval` together with the hook
`verify::default_expect`, which returns `control::run` (what it logs is not
modelled). -/
def verify_hooks.default_expect {Op : Type} (eval : element Op → Bool) :
    verify_hooks Unit Op :=
  { call := fun w el => (eval el, w), expect := fun w _ _ => (control.run, w) }

/-- The first loop of `verify::apply`: the exception it throws, if any. -/
def verify.check_pages {Op : Type} (arena_size : Nat) (a : mmio) :
    List (Nat × element Op) → Option exception
  | [] => none
  | el :: rest =>
    if arena_size ≤ el.1 then none
    else if !(a.contains el.2.pages) then
      some (exception.page_is_not_allocated el.2.location)
    else verify.check_pages arena_size a rest

/-- The first loop of `verify::apply` in the words of the specification: the
elements keyed at or above the cap are skipped. -/
def verify.check_pages_skipping {Op : Type} (arena_size : Nat) (a : mmio) :
    List (Nat × element Op) → Option exception
  | [] => none
  | el :: rest =>
    if arena_size ≤ el.1 then verify.check_pages_skipping arena_size a rest
    else if !(a.contains el.2.pages) then
      some (exception.page_is_not_allocated el.2.location)
    else verify.check_pages_skipping arena_size a rest

/-- The second loop of `verify::apply`: the flag `fail`, the state and the calls
made when the loop ends. -/
def verify.compare_all {σ Op : Type} (h : verify_hooks σ Op) :
    List (Nat × element Op) → σ → Bool → Bool × σ × List (verify_event Op)
  | [], w, fail => (fail, w, [])
  | el :: rest, w, fail =>
    match h.call w el.2 with
    | (success, w1) =>
      match h.expect w1 success el.2.location with
      | (control.stop, w2) =>
        (fail || !success, w2,
          [verify_event.compared el.2 success,
            verify_event.expected success el.2.location control.stop])
      | (control.run, w2) =>
        match verify.compare_all h rest w2 (fail || !success) with
        | (fail_, w3, calls) =>
          (fail_, w3,
            verify_event.compared el.2 success ::
              verify_event.expected success el.2.location control.run :: calls)

/-- The member `verify::apply`: the value returned or the exception thrown, the
state after the call, and the calls made into comparators and the hook. -/
def verify.apply {σ Op : Type} (v : verify Op) (arena_size : Nat) (a : mmio)
    (h : verify_hooks σ Op) (w : σ) : Except exception Bool × σ × List (verify_event Op) :=
  match verify.check_pages arena_size a v.elements_ with
  | some e => (Except.error e, w, [])
  | none =>
    match verify.compare_all h v.elements_ w false with
    | (fail, w_, calls) => (Except.ok (!fail), w_, calls)

/-- The elements whose comparators were invoked, with the values returned, in
the order of the calls. -/
def verify_event.evaluated {Op : Type} : List (verify_event Op) → List (element Op × Bool)
  | [] => []
  | verify_event.compared el success :: rest => (el, success) :: verify_event.evaluated rest
  | verify_event.expected _ _ _ :: rest => verify_event.evaluated rest

/-- The calls of the `expect` hook: arguments and answer, in the order of the calls. -/
def verify_event.hook_calls {Op : Type} :
    List (verify_event Op) → List (Bool × source_location × control)
  | [] => []
  | verify_event.compared _ _ :: rest => verify_event.hook_calls rest
  | verify_event.expected success location answer :: rest =>
    (success, location, answer) :: verify_event.hook_calls rest

/-- Some page range of the working list holds the page `x`. -/
def pages_cover (pages : List pagerange) (x : Nat) : Prop :=
  ∃ p ∈ pages, p.has_page x

/-- No two different page ranges of the list start at the same page. -/
def pages_distinct_begins (pages : List pagerange) : Prop :=
  pages.Pairwise (fun p q => p.begin_ = q.begin_ → p = q)

instance (pages : List pagerange) : Decidable (pages_distinct_begins pages) := by
  unfold pages_distinct_begins; infer_instance

/-! ## Operators (`include/stubmmio/operators.h`) over a byte-array memory -/

/-- The memory of the process: the byte stored at every address. -/
abbrev memory := Nat → Nat

/-- A store of one byte at the address `addr`. -/
def memory.write_byte (m : memory) (addr byte : Nat) : memory :=
  fun x => if x = addr then byte else m x

/-- The assignment `*static_cast<value_type*>(b) = v` of a trivially copyable
value whose object representation is the byte list `v`: the bytes are stored at
`b`, `b + 1`, ... -/
def memory.assign (m : memory) : Nat → List Nat → memory
  | _, [] => m
  | b, byte :: rest => memory.assign (m.write_byte b byte) (b + 1) rest

/-- The `n` bytes stored at `b`, `b + 1`, ... -/
def memory.load (m : memory) : Nat → Nat → List Nat
  | _, 0 => []
  | b, n + 1 => m b :: memory.load m (b + 1) n

/-- The function `std::memcmp` on two byte sequences of the same length: negative,
zero or positive as the first differing byte of the first sequence is less than,
absent, or greater than the byte of the second. -/
def memcmp : List Nat → List Nat → Int
  | x :: xs, y :: ys => if x < y then -1 else if y < x then 1 else memcmp xs ys
  | _, _ => 0

/-- The closure returned by `generator::one(v)`, called with `(b, e)`; the call
of `ensure_size_match` has an empty body, so `e` is not looked at. -/
def generator.one (v : List Nat) (m : memory) (b _e : Nat) : memory :=
  m.assign b v

/-- The loop of `std::fill(first, last, value)` over pointers to `value_type`:
`for (; first != last; ++first) *first = value`, with `fuel` bounding the number
of turns; the increment is done in `std::uintptr_t`. -/
def std_fill (v : List Nat) : Nat → memory → Nat → Nat → Option memory
  | 0, _, _, _ => none
  | fuel + 1, m, first, last =>
    if first = last then some m
    else std_fill v fuel (m.assign first v) ((first + v.length) % word_modulus) last

/-- The closure returned by `generator::all(v)`, called with `(b, e)`; the call
of `ensure_size_multiplyof` has an empty body. -/
def generator.all (v : List Nat) (fuel : Nat) (m : memory) (b e : Nat) : Option memory :=
  std_fill v fuel m b e

/-- The closure returned by `comparator::one(v)`, called with `(b, e)`. -/
def comparator.one (v : List Nat) (m : memory) (b _e : Nat) : Bool :=
  decide (memcmp (m.load b v.length) v = 0)

/-- The closure returned by `comparator::all(v)`, called with `(i, e)`: the loop
`for (i = b; i != e; ++i)` over pointers to `value_type`, with `fuel` bounding the
number of turns. -/
def comparator.all (v : List Nat) : Nat → memory → Nat → Nat → Option Bool
  | 0, _, _, _ => none
  | fuel + 1, m, i, e =>
    if i = e then some true
    else if memcmp (m.load i v.length) v ≠ 0 then some false
    else comparator.all v fuel m ((i + v.length) % word_modulus) e

/-! ## Literal operators (`include/stubmmio/literals.h`) -/

/-- Number of values of `unsigned` (32-bit). -/
def unsigned_modulus : Nat := 2 ^ 32

/-- The conversion of an `int` to `unsigned long long`. -/
def to_unsigned_long_long (i : Int) : Nat := (i % (word_modulus : Int)).toNat

/-- The loop `while(--exponent != 0) result *= base` of `detail::pow`, for the
number of turns it makes; the product is taken in `unsigned long long`. -/
def pow_loop (base : Nat) : Nat → Nat → Nat
  | 0, result => result
  | turns + 1, result => pow_loop base turns ((result * base) % word_modulus)

/-- The function `detail::pow(unsigned long long base, unsigned exponent)`: the
decrement `--exponent` of an `unsigned` comes before the test, so the loop makes
`exponent - 1` turns, taken modulo `2^32`. -/
def pow (base exponent : Nat) : Nat :=
  pow_loop base ((exponent + unsigned_modulus - 1) % unsigned_modulus) base

/-- The expression `First - '0'` (an `int`) converted to `unsigned long long`. -/
def digit (c : Char) : Nat :=
  to_unsigned_long_long ((c.toNat : Int) - ('0'.toNat : Int))

/-- The variable template `detail::hex_digit<Char>`. -/
def hex_digit (c : Char) : Nat :=
  if 'A'.toNat ≤ c.toNat ∧ c.toNat ≤ 'F'.toNat then
    (to_unsigned_long_long ((c.toNat : Int) - ('A'.toNat : Int)) + 10) % word_modulus
  else if 'a'.toNat ≤ c.toNat ∧ c.toNat ≤ 'f'.toNat then
    (to_unsigned_long_long ((c.toNat : Int) - ('a'.toNat : Int)) + 10) % word_modulus
  else to_unsigned_long_long ((c.toNat : Int) - ('0'.toNat : Int))

/-- The function templates `detail::simple_literal_value<Radix, First, List...>`
and `detail::simple_literal_value<Radix>`; `sizeof...(List)` is converted to the
`unsigned` parameter of `pow`. -/
def simple_literal_value (radix : Nat) : List Char → Nat
  | [] => 0
  | [first] => digit first
  | first :: list =>
    ((digit first * pow radix (list.length % unsigned_modulus)) % word_modulus +
      simple_literal_value radix list) % word_modulus

/-- The function template `detail::hexadecimal_literal_value<First, List...>`;
there is no instance for an empty pack. -/
def hexadecimal_literal_value : List Char → Option Nat
  | [] => none
  | [first] => some (hex_digit first)
  | first :: list =>
    match hexadecimal_literal_value list with
    | some value =>
      some (((hex_digit first * pow 16 (list.length % unsigned_modulus)) % word_modulus +
        value) % word_modulus)
    | none => none

/-- The class template `detail::literal_impl<List...>` with its partial
specialisations for the prefixes `0b`, `0B`, `0x`, `0X` and `0`: the member
`value` of the most specialised one that matches. -/
def literal_impl : List Char → Option Nat
  | [] => some (simple_literal_value 10 [])
  | [first] =>
    if first = '0' then some (simple_literal_value 8 [])
    else some (simple_literal_value 10 [first])
  | first :: second :: list =>
    if first = '0' ∧ (second = 'b' ∨ second = 'B') then some (simple_literal_value 2 list)
    else if first = '0' ∧ (second = 'x' ∨ second = 'X') then hexadecimal_literal_value list
    else if first = '0' then some (simple_literal_value 8 (second :: list))
    else some (simple_literal_value 10 (first :: second :: list))

/-- The body shared by the literal operator templates: the `static_assert`
rejects a result above `max`, the largest value of the return type, and the
result is cast to the return type. -/
def literal_operator (max : Nat) (list : List Char) : Option Nat :=
  match literal_impl list with
  | some result => if result ≤ max then some (result % (max + 1)) else none
  | none => none

/-- The operator template `operator ""_U`, returning `unsigned`. -/
def operator_U (list : List Char) : Option Nat := literal_operator (2 ^ 32 - 1) list

/-- The operator template `operator ""_U8`, returning `std::uint8_t`. -/
def operator_U8 (list : List Char) : Option Nat := literal_operator (2 ^ 8 - 1) list

/-- The operator template `operator ""_U16`, returning `std::uint16_t`. -/
def operator_U16 (list : List Char) : Option Nat := literal_operator (2 ^ 16 - 1) list

/-- The operator template `operator ""_U32`, returning `std::uint32_t`. -/
def operator_U32 (list : List Char) : Option Nat := literal_operator (2 ^ 32 - 1) list

/-! ## Integer literals in the words of the specification -/

/-- The value of a digit character: `0`..`9`, `a`..`f` and `A`..`F` stand for
0..9 and 10..15; another character is not a digit. -/
def spec_digit_value (c : Char) : Option Nat :=
  if 48 ≤ c.toNat ∧ c.toNat ≤ 57 then some (c.toNat - 48)
  else if 97 ≤ c.toNat ∧ c.toNat ≤ 102 then some (c.toNat - 97 + 10)
  else if 65 ≤ c.toNat ∧ c.toNat ≤ 70 then some (c.toNat - 65 + 10)
  else none

/-- The character is a digit of the radix. -/
def spec_is_digit (radix : Nat) (c : Char) : Bool :=
  match spec_digit_value c with
  | some d => decide (d < radix)
  | none => false

/-- The numeric value of a digit sequence in positional notation. -/
def spec_numeric_value (radix : Nat) : List Char → Nat
  | [] => 0
  | c :: rest => (spec_digit_value c).getD 0 * radix ^ rest.length +
      spec_numeric_value radix rest

/-- The numeric value of a character sequence that is a valid integer literal
written without digit separators: decimal (a non-zero digit followed by decimal
digits), hexadecimal (`0x` or `0X` followed by one or more hexadecimal digits of
either case), binary (`0b` or `0B` followed by one or more binary digits), or
octal (`0` followed by octal digits); no value for another sequence. -/
def spec_literal_value : List Char → Option Nat
  | [] => none
  | first :: rest =>
    if first ≠ '0' then
      if (first :: rest).all (spec_is_digit 10) then
        some (spec_numeric_value 10 (first :: rest))
      else none
    else
      match rest with
      | [] => some 0
      | second :: digits =>
        if second = 'x' ∨ second = 'X' then
          if digits ≠ [] ∧ digits.all (spec_is_digit 16) then
            some (spec_numeric_value 16 digits)
          else none
        else if second = 'b' ∨ second = 'B' then
          if digits ≠ [] ∧ digits.all (spec_is_digit 2) then
            some (spec_numeric_value 2 digits)
          else none
        else if rest.all (spec_is_digit 8) then some (spec_numeric_value 8 rest)
        else none

/-! ## Overlapping pairs of an element map -/

/-- Some two neighbours of the element map (entries next to each other in
iteration order) have overlapping regions. -/
def some_neighbours_overlap {Op : Type} (m : elements_type Op) : Prop :=
  ∃ l1 a b l2, m = l1 ++ a :: b :: l2 ∧ element.overlapping a.2 b.2 = true

/-- Some two entries of the element map, neighbours or not, have overlapping
regions. -/
def some_entries_overlap {Op : Type} (m : elements_type Op) : Prop :=
  ∃ a b, List.Sublist [a, b] m ∧ element.overlapping a.2 b.2 = true

/-! ## The arena façade (`class arena`, `src/arena.cxx`) -/

/-- The enumeration `onfail`. -/
inductive onfail where
  | returns
  | throws
  | logs
deriving DecidableEq

/-- The outcome of a call of the arena façade: the value returned or the
exception thrown, and whether a message was logged at level critical. -/
structure check_result where
  outcome : Except exception Bool
  logged : Bool

/-- The function template `failed<Exception>(on_fail, message)` of
`src/arena.cxx`; `e` is the exception built from the message. -/
def failed (on_fail : onfail) (e : exception) : check_result :=
  match on_fail with
  | onfail.throws => { outcome := Except.error e, logged := false }
  | onfail.logs => { outcome := Except.ok false, logged := true }
  | onfail.returns => { outcome := Except.ok false, logged := false }

/-- The class `arena`: its static member `size_`. -/
structure arena where
  size_ : Nat

/-- The constant `arena::max_size`. -/
def arena.max_size : Nat := 0x100000000

/-- The state of `class arena` at program start: `size_ = max_size`. -/
def arena.initial : arena := { size_ := arena.max_size }

/-- The function `arena::check_pagesize(int actual, onfail)`; the comparison is
made after `static_cast<std::size_t>(actual)`. -/
def arena.check_pagesize (actual : Int) (on_fail : onfail) : check_result :=
  if to_size_type actual ≠ page_size then failed on_fail (exception.page_size_mismatch actual)
  else { outcome := Except.ok true, logged := false }

/-- The function `arena::check_boundary(arena_boundary, onfail)`;
`executable_start` is the address of the symbol `__executable_start`. -/
def arena.check_boundary (executable_start arena_boundary : Nat) (on_fail : onfail) :
    check_result :=
  if executable_start < arena_boundary then
    failed on_fail (exception.arena_is_not_fully_available arena_boundary executable_start)
  else { outcome := Except.ok true, logged := false }

/-- The setter `arena::size(requested_size, on_fail)`: the class after the call,
the exception thrown, if any, and whether a message was logged. -/
def arena.size (self : arena) (executable_start requested_size : Nat) (on_fail : onfail) :
    arena × Option exception × Bool :=
  match (arena.check_boundary executable_start requested_size on_fail).outcome with
  | Except.error e =>
    (self, some e, (arena.check_boundary executable_start requested_size on_fail).logged)
  | Except.ok true =>
    ({ size_ := requested_size }, none,
      (arena.check_boundary executable_start requested_size on_fail).logged)
  | Except.ok false =>
    (self, none, (arena.check_boundary executable_start requested_size on_fail).logged)

/-! ## Logging categories (`include/stubmmio/logger.h`) -/

/-- The category structs of namespace `logcategory` that are configurable. -/
inductive logcategory where
  | basic
  | arena
  | sigsegv
  | stimulus
  | mock
  | verify
deriving DecidableEq

/-- The base classes named as second argument of `configurable`: `safe` and `basic`. -/
inductive logbase where
  | safe
  | basic
deriving DecidableEq

/-- The struct `logcategory::configuration`; a writer is a function pointer,
given by its address, and a priority is given by its number. -/
structure configuration where
  writer : Option Nat
  level : Option Nat
deriving DecidableEq

/-- The instance of the class template `configurable<Category, Base>` that the
category struct derives from, as written in the source:
`basic : configurable<basic, safe>`, `arena : configurable<arena, basic>`,
`sigsegv : configurable<sigsegv, basic>`, `stimulus : configurable<stimulus, basic>`,
`mock : configurable<sigsegv, basic>`, `verify : configurable<verify, basic>`. -/
def logcategory.configurable : logcategory → logcategory × logbase
  | logcategory.basic => (logcategory.basic, logbase.safe)
  | logcategory.arena => (logcategory.arena, logbase.basic)
  | logcategory.sigsegv => (logcategory.sigsegv, logbase.basic)
  | logcategory.stimulus => (logcategory.stimulus, logbase.basic)
  | logcategory.mock => (logcategory.sigsegv, logbase.basic)
  | logcategory.verify => (logcategory.verify, logbase.basic)

/-- The static data members `config_`: one per instance of `configurable`. -/
abbrev logconfig := logcategory × logbase → configuration

/-- The state at program start: every `config_` is value-initialised. -/
def logconfig.initial : logconfig := fun _ => { writer := none, level := none }

/-- The static member `config_` of the category is replaced. -/
def logconfig.store (s : logconfig) (c : logcategory) (cfg : configuration) : logconfig :=
  fun k => if k = c.configurable then cfg else s k

/-- The accessor `Category::config()`. -/
def logcategory.config (c : logcategory) (s : logconfig) : configuration :=
  s c.configurable

/-- The setter `Category::config(configuration cfg)`. -/
def logcategory.set_config (c : logcategory) (cfg : configuration) (s : logconfig) :
    logconfig :=
  s.store c cfg

/-- The setter `Category::level(priority value)`. -/
def logcategory.set_level (c : logcategory) (value : Nat) (s : logconfig) : logconfig :=
  s.store c { c.config s with level := some value }

/-- The member `Category::nolevel()`. -/
def logcategory.nolevel (c : logcategory) (s : logconfig) : logconfig :=
  s.store c { c.config s with level := none }

/-- The setter `Category::writer(writer_type value)`. -/
def logcategory.set_writer (c : logcategory) (value : Nat) (s : logconfig) : logconfig :=
  s.store c { c.config s with writer := some value }

/-- The member `Category::nowriter()`. -/
def logcategory.nowriter (c : logcategory) (s : logconfig) : logconfig :=
  s.store c { c.config s with writer := none }

/-- The class template `util::scoped_redirector<Category>`: the category and the
member `config_`. -/
structure scoped_redirector where
  category : logcategory
  config_ : configuration

/-- The constructor `scoped_redirector(writer_type func, priority value)`. -/
def scoped_redirector.of_writer_level (c : logcategory) (func value : Nat) (s : logconfig) :
    scoped_redirector × logconfig :=
  ({ category := c, config_ := c.config s },
    c.set_config { writer := some func, level := some value } s)

/-- The constructor `scoped_redirector(writer_type func)`. -/
def scoped_redirector.of_writer (c : logcategory) (func : Nat) (s : logconfig) :
    scoped_redirector × logconfig :=
  ({ category := c, config_ := c.config s }, c.set_writer func s)

/-- The default constructor `scoped_redirector()`; `null` is the address of the
private writer `null` and `emergency` the number of `priority::emergency`. -/
def scoped_redirector.default (c : logcategory) (null emergency : Nat) (s : logconfig) :
    scoped_redirector × logconfig :=
  ({ category := c, config_ := c.config s },
    c.set_config { writer := some null, level := some emergency } s)

/-- The destructor `~scoped_redirector()`. -/
def scoped_redirector.destroy (r : scoped_redirector) (s : logconfig) : logconfig :=
  r.category.set_config r.config_ s

/-! ## Stimuli (`include/stubmmio/stimulus.h`) -/

/-- The enumeration `istimulus::status_type`. -/
inductive status_type where
  | idle
  | active
  | running
  | done
deriving DecidableEq

/-- The type `detail::volatile_span` (`std::span<const volatile char>`): the
pointer to the first byte and the number of bytes. -/
structure volatile_span where
  data : Nat
  size : Nat
deriving DecidableEq

/-- The iterator `span::begin()`, as an address. -/
def volatile_span.begin (sp : volatile_span) : Nat := sp.data

/-- The iterator `span::end()`, as an address computed in `std::uintptr_t`. -/
def volatile_span.end_ (sp : volatile_span) : Nat := (sp.data + sp.size) % word_modulus

/-- The address `&sp.front()`. -/
def volatile_span.front (sp : volatile_span) : Nat := sp.data

/-- The byte `x` lies in the span. -/
def volatile_span.has_byte (sp : volatile_span) (x : Nat) : Prop :=
  sp.data ≤ x ∧ x < sp.data + sp.size

/-- The two spans have a byte in common. -/
def volatile_span.share_byte (a b : volatile_span) : Prop :=
  ∃ x, a.has_byte x ∧ b.has_byte x

/-- The constructor `pagerange(volatile_span sp)`. -/
def pagerange.of_span (sp : volatile_span) : pagerange :=
  pagerange.of_pointers sp.begin sp.end_

/-- The member `mmio::contains(volatile_span)`. -/
def mmio.contains_span (a : mmio) (requested : volatile_span) : Bool :=
  a.contains (pagerange.of_span requested)

/-- The class `istimulus`: what the virtual `spans()` returns, and the members
`location_` and `status_`. -/
structure istimulus where
  spans : List volatile_span
  location_ : source_location
  status_ : status_type

/-- The member `istimulus::active()`. -/
def istimulus.active (s : istimulus) : istimulus :=
  { s with status_ := status_type.active }

/-- The member `istimulus::inactive()`. -/
def istimulus.inactive (s : istimulus) : istimulus :=
  { s with status_ := if s.status_ = status_type.done then s.status_ else status_type.idle }

/-- What a call of the virtual `istimulus::run()` does: it returns a status or
throws a `std::exception`. -/
inductive run_outcome where
  | returns (status : status_type)
  | throws
deriving DecidableEq

/-- The member `istimulus::running()`, given what the call of `run()` does: the
object after the call. -/
def istimulus.running (s : istimulus) (outcome : run_outcome) : istimulus :=
  match outcome with
  | run_outcome.returns status =>
    { s with status_ := if status = status_type.done then status_type.done
        else status_type.running }
  | run_outcome.throws => { s with status_ := status_type.running }

/-! ## The stimulus engine (`class stimulator`, `src/stimulus.cxx`) -/

/-- The class `stimulator`: the members `stimuli_` (pointers to `istimulus`
objects, as addresses), `current_index_`, `terminate_` and `ready_`. -/
structure stimulator where
  stimuli_ : List Nat
  current_index_ : Nat
  terminate_ : Bool
  ready_ : Bool
deriving DecidableEq

/-- The engine together with the `istimulus` objects of the program, by address. -/
structure stimulus_state where
  engine : stimulator
  objects : Nat → istimulus

/-- The object at the address `stimul` is replaced. -/
def stimulus_state.store (objects : Nat → istimulus) (stimul : Nat) (s : istimulus) :
    Nat → istimulus :=
  fun x => if x = stimul then s else objects x

/-- The engine after its construction: no stimulus, cursor 0, flags false. -/
def stimulator.initial : stimulator :=
  { stimuli_ := [], current_index_ := 0, terminate_ := false, ready_ := false }

/-- The static function `contains(range, addresses)` of `src/stimulus.cxx`. -/
def contains (range addresses : volatile_span) : Bool :=
  (decide (range.begin ≤ addresses.begin) && decide (addresses.begin ≤ range.end_)) ||
  (decide (range.begin ≤ addresses.end_) && decide (addresses.end_ ≤ range.end_))

/-- The member `stimulator::adjust_index`; `index_removed` is never negative, and
the decrement is done in `std::size_t`. -/
def stimulator.adjust_index (e : stimulator) (index_removed : Nat) : stimulator :=
  if !e.stimuli_.isEmpty && decide (index_removed < e.current_index_ % e.stimuli_.length) then
    { e with current_index_ := (e.current_index_ + word_modulus - 1) % word_modulus }
  else e

/-- The algorithm `std::erase(stimuli_, stimul)`: every occurrence is removed. -/
def std_erase (stimuli : List Nat) (stimul : Nat) : List Nat :=
  stimuli.filter (fun x => decide (x ≠ stimul))

/-- The member `stimulator::deactivate`: the state after the call and the value
returned. -/
def stimulator.deactivate (w : stimulus_state) (stimul : Nat) : stimulus_state × Bool :=
  if stimul ∈ w.engine.stimuli_ then
    ({ engine :=
        { w.engine.adjust_index (w.engine.stimuli_.indexOf stimul) with
          stimuli_ := std_erase w.engine.stimuli_ stimul
          ready_ := !(std_erase w.engine.stimuli_ stimul).isEmpty },
       objects := stimulus_state.store w.objects stimul (w.objects stimul).inactive }, true)
  else (w, false)

/-- The static member `stimulator::check_pages`: the exception it throws, if any. -/
def stimulator.check_pages (a : mmio) (arena_size : Nat) :
    List volatile_span → source_location → Option exception
  | [], _ => none
  | el :: rest, location =>
    if decide (el.front < arena_size) && !(a.contains_span el) then
      some (exception.page_is_not_allocated location)
    else stimulator.check_pages a arena_size rest location

/-- The member `stimulator::activate`: the state after the call and the
exception thrown, if any. -/
def stimulator.activate (w : stimulus_state) (a : mmio) (arena_size : Nat) (stimul : Nat) :
    stimulus_state × Option exception :=
  match stimulator.check_pages a arena_size (w.objects stimul).spans
      (w.objects stimul).location_ with
  | some e => (w, some e)
  | none =>
    if stimul ∈ w.engine.stimuli_ then (w, none)
    else
      ({ engine := { w.engine with stimuli_ := w.engine.stimuli_ ++ [stimul], ready_ := true },
         objects := stimulus_state.store w.objects stimul (w.objects stimul).active }, none)

/-- The loop of `stimulator::unmapping` from index `i` on, over the pointers not
yet visited: the pointers kept (those written at `putpos`) and the engine, whose
cursor `adjust_index(i)` may have moved. The vector keeps its size during the
loop, so `adjust_index` sees the size the vector had at the start. -/
def stimulator.unmapping_loop (objects : Nat → istimulus) (range : volatile_span) :
    List Nat → Nat → stimulator → List Nat × stimulator
  | [], _, e => ([], e)
  | stimul :: rest, i, e =>
    if (objects stimul).spans.any (fun sp => contains range sp) then
      stimulator.unmapping_loop objects range rest (i + 1) (e.adjust_index i)
    else
      match stimulator.unmapping_loop objects range rest (i + 1) e with
      | (kept, e_) => (stimul :: kept, e_)

/-- The member `stimulator::unmapping(range, location)`: the pointers kept are
moved to the front and the rest of the vector is erased. -/
def stimulator.unmapping (w : stimulus_state) (range : volatile_span) : stimulus_state :=
  if w.engine.stimuli_.isEmpty then w
  else
    match stimulator.unmapping_loop w.objects range w.engine.stimuli_ 0 w.engine with
    | (kept, e_) => { w with engine := { e_ with stimuli_ := kept } }

/-- One turn of the loop of `stimulator::run`, given what `run()` of each
stimulus does in this turn: the state after the turn and the stimulus evaluated,
if any. While neither `ready_` nor `terminate_` is set the worker waits. -/
def stimulator.tick (w : stimulus_state) (run : Nat → run_outcome) :
    stimulus_state × Option Nat :=
  if !(w.engine.ready_ || w.engine.terminate_) then (w, none)
  else if w.engine.terminate_ || w.engine.stimuli_.isEmpty then (w, none)
  else
    let stimul := w.engine.stimuli_.getD (w.engine.current_index_ % w.engine.stimuli_.length) 0
    let objects := stimulus_state.store w.objects stimul ((w.objects stimul).running (run stimul))
    match run stimul with
    | run_outcome.returns status =>
      if status = status_type.done then
        ({ engine := { w.engine with stimuli_ := std_erase w.engine.stimuli_ stimul },
           objects := objects }, some stimul)
      else
        ({ engine := { w.engine with
              current_index_ := (w.engine.current_index_ + 1) % word_modulus },
           objects := objects }, some stimul)
    | run_outcome.throws =>
      ({ engine := { w.engine with stimuli_ := std_erase w.engine.stimuli_ stimul },
         objects := objects }, some stimul)

/-- Consecutive turns of the loop of `stimulator::run`, one per listed behaviour
of `run()`: the state after the turns and the stimuli evaluated, in order. -/
def stimulator.ticks : List (Nat → run_outcome) → stimulus_state → stimulus_state × List Nat
  | [], w => (w, [])
  | run :: rest, w =>
    match stimulator.tick w run with
    | (w_, evaluated) =>
      match stimulator.ticks rest w_ with
      | (w__, later) => (w__, evaluated.toList ++ later)

/-- The stimulus that the next turn of the loop of `stimulator::run` selects,
if it selects one. -/
def stimulator.selected (e : stimulator) : Option Nat :=
  if e.stimuli_.isEmpty then none
  else some (e.stimuli_.getD (e.current_index_ % e.stimuli_.length) 0)

/-! ## Integer literals with digit separators, in the words of the C++ grammar -/

/-- C1 (as stated, refuted): a zero-sized region whose address lies inside another
region is reported as overlapping although its byte interval is empty, and a
region ending exactly at the top of the address space is not reported as
overlapping itself. -/
theorem region_overlapping_share_byte_counterexample :
    ¬ (overlapping ⟨5, 0⟩ ⟨0, 10⟩ = true ↔ region.share_byte ⟨5, 0⟩ ⟨0, 10⟩) ∧
    ¬ (overlapping ⟨2 ^ 64 - 1, 1⟩ ⟨2 ^ 64 - 1, 1⟩ = true ↔
        region.share_byte ⟨2 ^ 64 - 1, 1⟩ ⟨2 ^ 64 - 1, 1⟩) := by
  constructor
  · intro h
    have h1 : overlapping ⟨5, 0⟩ ⟨0, 10⟩ = true := by decide
    obtain ⟨x, ⟨hx1, hx2⟩, _⟩ := h.mp h1
    simp only [region.addr, region.size] at hx1 hx2
    omega
  · intro h
    have h1 : region.share_byte ⟨2 ^ 64 - 1, 1⟩ ⟨2 ^ 64 - 1, 1⟩ :=
      ⟨2 ^ 64 - 1, ⟨by simp [region.addr], by simp [region.addr, region.size]⟩,
        ⟨by simp [region.addr], by simp [region.addr, region.size]⟩⟩
    have h2 := h.mpr h1
    simp [overlapping, region.addr, region.size, word_modulus] at h2

/-- C1 (amended): for regions of non-zero size whose end `addr + size` is below
`2^64`, `overlapping a b` holds iff the half-open byte intervals share a byte;
the adjacent regions `[0,16)` and `[16,20)` do not overlap. -/
theorem region_overlapping_iff_share_byte (a b : region)
    (ha : 0 < a.size) (hb : 0 < b.size)
    (hea : a.addr + a.size < word_modulus) (heb : b.addr + b.size < word_modulus) :
    (overlapping a b = true ↔ region.share_byte a b) ∧
    overlapping ⟨0, 16⟩ ⟨16, 4⟩ = false ∧ overlapping ⟨16, 4⟩ ⟨0, 16⟩ = false := by
  refine ⟨?_, by decide, by decide⟩
  unfold overlapping region.share_byte region.has_byte
  rw [Nat.mod_eq_of_lt hea, Nat.mod_eq_of_lt heb]
  simp only [Bool.or_eq_true, Bool.and_eq_true, decide_eq_true_eq]
  constructor
  · rintro (⟨h1, h2⟩ | ⟨h1, h2⟩)
    · exact ⟨b.addr, ⟨h1, h2⟩, ⟨le_refl _, by omega⟩⟩
    · exact ⟨a.addr, ⟨le_refl _, by omega⟩, ⟨h1, h2⟩⟩
  · rintro ⟨x, ⟨h1, h2⟩, ⟨h3, h4⟩⟩
    by_cases h : a.addr ≤ b.addr
    · left; exact ⟨h, by omega⟩
    · right; exact ⟨by omega, by omega⟩

/-- Witness of C1 (amended) at the regions `[0x1000, 0x1010)` and `[0x1004, 0x1008)`. -/
theorem region_overlapping_iff_share_byte_witness :
    (overlapping ⟨0x1000, 16⟩ ⟨0x1004, 4⟩ = true ↔
      region.share_byte ⟨0x1000, 16⟩ ⟨0x1004, 4⟩) ∧
    overlapping ⟨0, 16⟩ ⟨16, 4⟩ = false ∧ overlapping ⟨16, 4⟩ ⟨0, 16⟩ = false :=
  region_overlapping_iff_share_byte ⟨0x1000, 16⟩ ⟨0x1004, 4⟩
    (by decide) (by decide) (by decide) (by decide)

/-- C2: `overlapping` is symmetric, both the free function on regions and the
member function on page ranges. -/
theorem overlapping_symmetric :
    (∀ a b : region, overlapping a b = overlapping b a) ∧
    (∀ p q : pagerange, p.overlapping q = q.overlapping p) := by
  constructor
  · intro a b
    unfold overlapping
    exact Bool.or_comm _ _
  · intro p q
    unfold pagerange.overlapping
    exact Bool.or_comm _ _

/-- C3: `operator<=>` on regions is the lexicographic order on `(address, size)`:
it yields `less` exactly for lexicographically smaller pairs, is irreflexive,
transitive and total, and yields `equal` exactly when `operator==` holds. -/
theorem region_cmp_lexicographic (a b c : region) :
    (a.op_cmp b = Ordering.lt ↔
      (a.addr < b.addr ∨ (a.addr = b.addr ∧ a.size < b.size))) ∧
    a.op_cmp a ≠ Ordering.lt ∧
    (a.op_cmp b = Ordering.lt → b.op_cmp c = Ordering.lt → a.op_cmp c = Ordering.lt) ∧
    (a.op_cmp b = Ordering.lt ∨ a = b ∨ b.op_cmp a = Ordering.lt) ∧
    (a.op_cmp b = Ordering.eq ↔ a.op_eq b = true) ∧
    (a.op_eq b = true ↔ a = b) := by
  have key : ∀ x y : region, x.op_cmp y = Ordering.lt ↔
      (x.addr < y.addr ∨ (x.addr = y.addr ∧ x.size < y.size)) := by
    intro x y
    unfold region.op_cmp
    split
    · rename_i h
      rw [compare_lt_iff_lt]
      constructor
      · intro h2; exact Or.inr ⟨h, h2⟩
      · rintro (h2 | ⟨_, h2⟩)
        · omega
        · exact h2
    · rename_i h
      rw [compare_lt_iff_lt]
      constructor
      · intro h2; exact Or.inl h2
      · rintro (h2 | ⟨h2, _⟩)
        · exact h2
        · exact absurd h2 h
  have ext : ∀ x y : region, x.addr = y.addr → x.size = y.size → x = y := by
    intro x y h1 h2
    cases x; cases y
    simp only [region.addr, region.size] at h1 h2
    subst h1; subst h2; rfl
  refine ⟨key a b, ?_, ?_, ?_, ?_, ?_⟩
  · rw [Ne, key]; omega
  · rw [key, key, key]; omega
  · rw [key, key]
    by_cases h1 : a.addr = b.addr
    · by_cases h2 : a.size = b.size
      · right; left; exact ext a b h1 h2
      · omega
    · omega
  · unfold region.op_cmp region.op_eq
    simp only [Bool.and_eq_true, decide_eq_true_eq]
    split
    · rename_i h
      rw [compare_eq_iff_eq]
      constructor
      · intro h2; exact ⟨h, h2⟩
      · intro h2; exact h2.2
    · rename_i h
      rw [compare_eq_iff_eq]
      constructor
      · intro h2; exact absurd h2 h
      · intro h2; exact absurd h2.1 h
  · unfold region.op_eq
    simp only [Bool.and_eq_true, decide_eq_true_eq]
    constructor
    · rintro ⟨h1, h2⟩; exact ext a b h1 h2
    · intro h; subst h; exact ⟨rfl, rfl⟩

/-- Witness of C3 at the regions `(0x1000, 8)`, `(0x1000, 16)` and `(0x1008, 16)`. -/
theorem region_cmp_lexicographic_witness :
    (region.op_cmp ⟨0x1000, 8⟩ ⟨0x1000, 16⟩ = Ordering.lt ∧
      region.op_cmp ⟨0x1000, 16⟩ ⟨0x1008, 16⟩ = Ordering.lt) ∧
    region.op_cmp ⟨0x1000, 8⟩ ⟨0x1008, 16⟩ = Ordering.lt :=
  ⟨⟨by decide, by decide⟩,
    (region_cmp_lexicographic ⟨0x1000, 8⟩ ⟨0x1000, 16⟩ ⟨0x1008, 16⟩).2.2.1
      (by decide) (by decide)⟩

/-- C4: for pointers `begin`, `end` into one array of `T` (their distance is a
multiple of `sizeof(T)` and fits `std::ptrdiff_t`), the pointer-pair constructor
throws `region_reversed` iff `end < begin`, and otherwise yields the region with
`addr = begin` and `size = end - begin` bytes. -/
theorem region_of_range_reversed_iff (sizeof_T begin_ end_ : Nat) (l : source_location)
    (hs : 0 < sizeof_T) (hb : begin_ < word_modulus) (he : end_ < word_modulus)
    (hfwd : end_ - begin_ < 2 ^ 63) (hbwd : begin_ - end_ ≤ 2 ^ 63)
    (hdiv : sizeof_T ∣ end_ - begin_) :
    (region.of_range sizeof_T begin_ end_ l
        = Except.error (exception.region_reversed begin_ end_ l) ↔ end_ < begin_) ∧
    (¬ end_ < begin_ →
      region.of_range sizeof_T begin_ end_ l
        = Except.ok { address_ := begin_, size_ := end_ - begin_ }) := by
  unfold word_modulus at hb he
  by_cases hlt : end_ < begin_
  · have hd : byte_difference end_ begin_ < 0 := by
      unfold byte_difference to_ptrdiff word_modulus
      rw [Nat.mod_eq_of_lt he, Nat.mod_eq_of_lt hb]
      split
      · omega
      · push_cast
        omega
    have : region.of_range sizeof_T begin_ end_ l
        = Except.error (exception.region_reversed begin_ end_ l) := by
      simp [region.of_range, ensure_region_is_not_reversed, hd]
    exact ⟨⟨fun _ => hlt, fun _ => this⟩, fun h => absurd hlt h⟩
  · have hd : byte_difference end_ begin_ = ((end_ - begin_ : Nat) : Int) := by
      unfold byte_difference to_ptrdiff word_modulus
      rw [Nat.mod_eq_of_lt he, Nat.mod_eq_of_lt hb]
      split
      · congr 1; omega
      · omega
    obtain ⟨k, hk⟩ := hdiv
    have hsz : (to_size_type (Int.tdiv (byte_difference end_ begin_) (sizeof_T : Int)) * sizeof_T)
        % word_modulus = end_ - begin_ := by
      rw [hd, hk]
      have h1 : Int.tdiv ((sizeof_T * k : Nat) : Int) (sizeof_T : Int) = (k : Int) := by
        rw [Int.tdiv_eq_ediv (Int.natCast_nonneg _) (Int.natCast_nonneg _)]
        push_cast
        exact Int.mul_ediv_cancel_left _ (by omega)
      have hkle : k ≤ sizeof_T * k := Nat.le_mul_of_pos_left k hs
      have hk64 : k < 2 ^ 64 := by omega
      rw [h1]
      unfold to_size_type word_modulus
      have h2 : ((k : Int) % ((2 ^ 64 : Nat) : Int)).toNat = k := by
        rw [← Int.natCast_mod, Int.toNat_natCast, Nat.mod_eq_of_lt hk64]
      rw [h2, Nat.mul_comm, Nat.mod_eq_of_lt (by omega)]
    have hnot : ¬ byte_difference end_ begin_ < 0 := by
      rw [hd]; exact not_lt.mpr (Int.natCast_nonneg _)
    have hres : region.of_range sizeof_T begin_ end_ l
        = Except.ok { address_ := begin_, size_ := end_ - begin_ } := by
      unfold region.of_range
      rw [hsz]
      simp [ensure_region_is_not_reversed, hnot]
    refine ⟨⟨fun h => ?_, fun h => absurd h hlt⟩, fun _ => hres⟩
    rw [hres] at h
    cases h

/-- Witness of C4 at `&bytes[0]`, `&bytes[64]` of a byte array placed at `0x5000`. -/
theorem region_of_range_reversed_iff_witness :
    (region.of_range 1 0x5000 0x5040 ⟨"test/region.cxx", 24⟩
        = Except.error (exception.region_reversed 0x5000 0x5040 ⟨"test/region.cxx", 24⟩)
        ↔ 0x5040 < 0x5000) ∧
    (¬ 0x5040 < 0x5000 →
      region.of_range 1 0x5000 0x5040 ⟨"test/region.cxx", 24⟩
        = Except.ok { address_ := 0x5000, size_ := 0x5040 - 0x5000 }) :=
  region_of_range_reversed_iff 1 0x5000 0x5040 ⟨"test/region.cxx", 24⟩
    (by decide) (by decide) (by decide) (by decide) (by decide) (by decide)

/-! ## Theorems: pagerange -/

/-- C5 (as stated, refuted): for `from = 0` and `to = 2^44 - 1`, both below
`2^32 * 4096`, the rounded-up end page `2^32` is truncated to `0` by the cast to
`pageid_type`, so the constructed range has size `0` instead of `2^32` pages and
does not hold the page of byte `0`. -/
theorem pagerange_of_pointers_counterexample :
    (0 : Nat) ≤ 2 ^ 44 - 1 ∧ 2 ^ 44 - 1 < 2 ^ 32 * 4096 ∧
    (pagerange.of_pointers 0 (2 ^ 44 - 1)).size ≠ page_ceil (2 ^ 44 - 1) - page_floor 0 ∧
    ¬ (pagerange.of_pointers 0 (2 ^ 44 - 1)).has_page (0 / 4096) := by
  refine ⟨by decide, by decide, by decide, ?_⟩
  have h : pagerange.of_pointers 0 (2 ^ 44 - 1) = { begin_ := 0, size_ := 0 } := by decide
  rw [h]
  simp [pagerange.has_page]

/-- C5 (amended): for byte pointers `from ≤ to < 2^32 * 4096` whose page count
`ceil(to / 4096) - floor(from / 4096)` is below `2^32`, the constructed range has
`begin = floor(from / 4096)` and `size = ceil(to / 4096) - floor(from / 4096)`;
every byte address of `[from, to)` lies in a page of the range, and
`size_bytes()` is a multiple of 4096. -/
theorem pagerange_of_pointers_floor_ceil (from_ to_ : Nat)
    (hle : from_ ≤ to_) (hto : to_ < 2 ^ 32 * 4096)
    (hfit : page_ceil to_ - page_floor from_ < 2 ^ 32) :
    (pagerange.of_pointers from_ to_).begin = page_floor from_ ∧
    (pagerange.of_pointers from_ to_).size = page_ceil to_ - page_floor from_ ∧
    (∀ x, from_ ≤ x → x < to_ → (pagerange.of_pointers from_ to_).has_page (x / 4096)) ∧
    4096 ∣ (pagerange.of_pointers from_ to_).size_bytes := by
  have hup : ptr2page true to_ = page_ceil to_ % 2 ^ 32 := by
    unfold ptr2page page_ceil page_size word_modulus pageid_modulus
    simp only [if_true]
    split <;> omega
  have hdown : ptr2page false from_ = page_floor from_ := by
    unfold ptr2page page_floor page_size pageid_modulus
    simp only [Bool.false_eq_true, if_false]
    omega
  have hcf : page_floor from_ ≤ page_ceil to_ := by
    unfold page_floor page_ceil
    split <;> omega
  have hc : page_ceil to_ ≤ 2 ^ 32 := by
    unfold page_ceil
    split <;> omega
  have hsize : ptrs2size from_ to_ = page_ceil to_ - page_floor from_ := by
    unfold ptrs2size pageid_modulus
    rw [hup, hdown]
    omega
  refine ⟨?_, ?_, ?_, ?_⟩
  · simpa [pagerange.of_pointers, pagerange.begin] using hdown
  · simpa [pagerange.of_pointers, pagerange.size] using hsize
  · intro x hx1 hx2
    unfold pagerange.has_page pagerange.of_pointers
    simp only
    rw [hdown, hsize]
    unfold page_floor page_ceil
    constructor
    · omega
    · split <;> omega
  · unfold pagerange.size_bytes pagerange.of_pointers page_size word_modulus
    simp only
    rw [hsize]
    omega

/-- Witness of C5 (amended) at the pointers `0x10000` and `0x11FFF`. -/
theorem pagerange_of_pointers_floor_ceil_witness :
    (pagerange.of_pointers 0x10000 0x11FFF).begin = page_floor 0x10000 ∧
    (pagerange.of_pointers 0x10000 0x11FFF).size = page_ceil 0x11FFF - page_floor 0x10000 ∧
    (∀ x, 0x10000 ≤ x → x < 0x11FFF →
      (pagerange.of_pointers 0x10000 0x11FFF).has_page (x / 4096)) ∧
    4096 ∣ (pagerange.of_pointers 0x10000 0x11FFF).size_bytes :=
  pagerange_of_pointers_floor_ceil 0x10000 0x11FFF (by decide) (by decide) (by decide)

/-- C6 (as stated, refuted): the empty range at page 5 overlaps the range
`[0, 10)` according to the code, although the two share no page and no endpoint
of one equals the begin of the other. -/
theorem pagerange_overlapping_counterexample :
    ¬ (pagerange.overlapping ⟨5, 0⟩ ⟨0, 10⟩ = true ↔
        (pagerange.share_page ⟨5, 0⟩ ⟨0, 10⟩ ∨
          pagerange.end_ ⟨5, 0⟩ = pagerange.begin ⟨0, 10⟩ ∨
          pagerange.end_ ⟨0, 10⟩ = pagerange.begin ⟨5, 0⟩)) := by
  intro h
  have h1 : pagerange.overlapping ⟨5, 0⟩ ⟨0, 10⟩ = true := by decide
  rcases h.mp h1 with ⟨x, ⟨hx1, hx2⟩, _⟩ | h2 | h2
  · simp only at hx1 hx2
    omega
  · revert h2; decide
  · revert h2; decide

/-- C6 (amended): for non-empty page ranges whose `begin + size` stays below
`2^32`, `p.overlapping(q)` holds iff the page intervals share a page or touch at
an endpoint; adjacent ranges overlap and ranges separated by a gap do not. -/
theorem pagerange_overlapping_iff (p q : pagerange)
    (hp : 0 < p.size) (hq : 0 < q.size)
    (hpe : p.begin + p.size < pageid_modulus) (hqe : q.begin + q.size < pageid_modulus) :
    (p.overlapping q = true ↔
      (pagerange.share_page p q ∨ p.end_ = q.begin ∨ q.end_ = p.begin)) ∧
    (p.end_ = q.begin → p.overlapping q = true ∧ q.overlapping p = true) ∧
    (p.end_ < q.begin → p.overlapping q = false ∧ q.overlapping p = false) := by
  unfold pagerange.begin pagerange.size at *
  have e1 : p.end_ = p.begin_ + p.size_ := Nat.mod_eq_of_lt hpe
  have e2 : q.end_ = q.begin_ + q.size_ := Nat.mod_eq_of_lt hqe
  unfold pagerange.overlapping pagerange.share_page pagerange.has_page pagerange.begin
  rw [e1, e2]
  refine ⟨?_, ?_, ?_⟩
  · simp only [Bool.or_eq_true, Bool.and_eq_true, decide_eq_true_eq]
    constructor
    · rintro (⟨h1, h2⟩ | ⟨h1, h2⟩)
      · by_cases h : q.begin_ = p.begin_ + p.size_
        · right; left; exact h.symm
        · left; exact ⟨q.begin_, ⟨h1, by omega⟩, ⟨le_refl _, by omega⟩⟩
      · by_cases h : p.begin_ = q.begin_ + q.size_
        · right; right; exact h.symm
        · left; exact ⟨p.begin_, ⟨le_refl _, by omega⟩, ⟨h1, by omega⟩⟩
    · rintro (⟨x, ⟨h1, h2⟩, ⟨h3, h4⟩⟩ | h | h)
      · by_cases h : p.begin_ ≤ q.begin_
        · left; exact ⟨h, by omega⟩
        · right; exact ⟨by omega, by omega⟩
      · left; exact ⟨by omega, by omega⟩
      · right; exact ⟨by omega, by omega⟩
  · intro h
    simp only [Bool.or_eq_true, Bool.and_eq_true, decide_eq_true_eq]
    exact ⟨Or.inl ⟨by omega, by omega⟩, Or.inr ⟨by omega, by omega⟩⟩
  · intro h
    simp only [Bool.or_eq_false_iff, Bool.and_eq_false_imp, decide_eq_true_eq,
      decide_eq_false_iff_not]
    exact ⟨⟨fun _ => by omega, fun _ => by omega⟩, ⟨fun _ => by omega, fun _ => by omega⟩⟩

/-- Witness of C6 (amended) at the adjacent ranges `[0x10, 0x11)` and `[0x11, 0x12)`. -/
theorem pagerange_overlapping_iff_witness :
    pagerange.overlapping ⟨0x10, 1⟩ ⟨0x11, 1⟩ = true ∧
    pagerange.overlapping ⟨0x11, 1⟩ ⟨0x10, 1⟩ = true :=
  (pagerange_overlapping_iff ⟨0x10, 1⟩ ⟨0x11, 1⟩
    (by decide) (by decide) (by decide) (by decide)).2.1 (by decide)

/-- C7 (as stated, refuted): joining the last page `2^32 - 1` with the page
before it returns true, yet the receiver afterwards holds only page `2^32 - 2`:
`end()` of the last page wraps to `0` in `pageid_type`. -/
theorem pagerange_join_union_counterexample :
    pagerange.representable ⟨2 ^ 32 - 1, 1⟩ ∧ pagerange.representable ⟨2 ^ 32 - 2, 1⟩ ∧
    (pagerange.join ⟨2 ^ 32 - 1, 1⟩ ⟨2 ^ 32 - 2, 1⟩).1 = true ∧
    ¬ (∀ x, (pagerange.join ⟨2 ^ 32 - 1, 1⟩ ⟨2 ^ 32 - 2, 1⟩).2.has_page x ↔
        (pagerange.has_page ⟨2 ^ 32 - 1, 1⟩ x ∨ pagerange.has_page ⟨2 ^ 32 - 2, 1⟩ x)) := by
  refine ⟨by decide, by decide, by decide, ?_⟩
  intro h
  have hj : pagerange.join ⟨2 ^ 32 - 1, 1⟩ ⟨2 ^ 32 - 2, 1⟩
      = (true, { begin_ := 2 ^ 32 - 2, size_ := 1 }) := by decide
  rw [hj] at h
  have h1 := (h (2 ^ 32 - 1)).mpr (Or.inl ⟨le_refl _, by simp⟩)
  simp [pagerange.has_page] at h1

/-- C7 (amended): for page ranges whose `begin + size` stays below `2^32`, if
`a.join(b)` returns true then afterwards the pages of `a` are exactly the pages
of the original `a` together with the pages of `b`. -/
theorem pagerange_join_union (a b : pagerange)
    (hae : a.begin + a.size < pageid_modulus) (hbe : b.begin + b.size < pageid_modulus)
    (hj : (a.join b).1 = true) :
    ∀ x, (a.join b).2.has_page x ↔ (a.has_page x ∨ b.has_page x) := by
  unfold pagerange.begin pagerange.size at *
  have e1 : a.end_ = a.begin_ + a.size_ := Nat.mod_eq_of_lt hae
  have e2 : b.end_ = b.begin_ + b.size_ := Nat.mod_eq_of_lt hbe
  intro x
  unfold pagerange.join at hj ⊢
  by_cases ho : a.overlapping b = true
  · simp only [ho, Bool.not_true, Bool.false_eq_true, if_false]
    unfold pagerange.overlapping pagerange.begin at ho
    rw [e1, e2] at ho ⊢
    simp only [Bool.or_eq_true, Bool.and_eq_true, decide_eq_true_eq] at ho
    unfold pagerange.has_page pageid_modulus at *
    simp only
    omega
  · simp [ho] at hj

/-- Witness of C7 (amended) at the ranges `[0x10, 0x11)` and `[0x0F, 0x10)` and the
page `0x0F`. -/
theorem pagerange_join_union_witness :
    (pagerange.join ⟨0x10, 1⟩ ⟨0x0F, 1⟩).1 = true ∧
    ((pagerange.join ⟨0x10, 1⟩ ⟨0x0F, 1⟩).2.has_page 0x0F ↔
      (pagerange.has_page ⟨0x10, 1⟩ 0x0F ∨ pagerange.has_page ⟨0x0F, 1⟩ 0x0F)) :=
  ⟨by decide,
    pagerange_join_union ⟨0x10, 1⟩ ⟨0x0F, 1⟩ (by decide) (by decide) (by decide) 0x0F⟩

/-- C8: `a.join(b)` returns true iff `a.overlapping(b)`, and when it returns
false the receiver's `begin` and `size` are unchanged. -/
theorem pagerange_join_true_iff_overlapping (a b : pagerange) :
    ((a.join b).1 = true ↔ a.overlapping b = true) ∧
    ((a.join b).1 = false →
      (a.join b).2.begin = a.begin ∧ (a.join b).2.size = a.size) := by
  unfold pagerange.join
  by_cases ho : a.overlapping b = true
  · simp [ho]
  · simp [ho]

/-- Witness of C8 at the separated ranges `[0x10, 0x11)` and `[0x14, 0x15)`. -/
theorem pagerange_join_true_iff_overlapping_witness :
    (pagerange.join ⟨0x10, 1⟩ ⟨0x14, 1⟩).2.begin = pagerange.begin ⟨0x10, 1⟩ ∧
    (pagerange.join ⟨0x10, 1⟩ ⟨0x14, 1⟩).2.size = pagerange.size ⟨0x10, 1⟩ :=
  (pagerange_join_true_iff_overlapping ⟨0x10, 1⟩ ⟨0x14, 1⟩).2 (by decide)

/-- C9 (as stated, refuted): a range contains itself according to the code,
although its page set is not a proper subset of itself. -/
theorem pagerange_contains_proper_counterexample :
    ¬ (pagerange.contains ⟨0, 1⟩ ⟨0, 1⟩ = true ↔
        pagerange.pages_proper_subset ⟨0, 1⟩ ⟨0, 1⟩) := by
  intro h
  have h1 : pagerange.contains ⟨0, 1⟩ ⟨0, 1⟩ = true := by decide
  obtain ⟨_, x, hx, hnx⟩ := h.mp h1
  exact hnx hx

/-- C9 (amended): `pagerange::contains` is (non-strict) set containment: for page
ranges whose `begin + size` stays below `2^32` and a non-empty `r`,
`a.contains(r)` holds iff every page of `r` is a page of `a`; in particular a
non-empty range contains itself. -/
theorem pagerange_contains_iff_subset (a r : pagerange)
    (hr : 0 < r.size)
    (hae : a.begin + a.size < pageid_modulus) (hre : r.begin + r.size < pageid_modulus) :
    (a.contains r = true ↔ pagerange.pages_subset r a) ∧ r.contains r = true := by
  unfold pagerange.begin pagerange.size at *
  have e1 : a.end_ = a.begin_ + a.size_ := Nat.mod_eq_of_lt hae
  have e2 : r.end_ = r.begin_ + r.size_ := Nat.mod_eq_of_lt hre
  unfold pagerange.contains pagerange.pages_subset pagerange.has_page pagerange.begin
  rw [e1, e2]
  simp only [Bool.and_eq_true, decide_eq_true_eq]
  refine ⟨⟨?_, ?_⟩, le_refl _, le_refl _⟩
  · rintro ⟨h1, h2⟩ x ⟨h3, h4⟩
    exact ⟨by omega, by omega⟩
  · intro h
    have h1 := h r.begin_ ⟨le_refl _, by omega⟩
    have h2 := h (r.begin_ + r.size_ - 1) ⟨by omega, by omega⟩
    exact ⟨h1.1, by omega⟩

/-- Witness of C9 (amended) at the ranges `[0x10, 0x13)` and `[0x11, 0x12)`. -/
theorem pagerange_contains_iff_subset_witness :
    (pagerange.contains ⟨0x10, 3⟩ ⟨0x11, 1⟩ = true ↔
      pagerange.pages_subset ⟨0x11, 1⟩ ⟨0x10, 3⟩) ∧
    pagerange.contains ⟨0x11, 1⟩ ⟨0x11, 1⟩ = true :=
  pagerange_contains_iff_subset ⟨0x10, 3⟩ ⟨0x11, 1⟩ (by decide) (by decide) (by decide)

/-! ## Theorems: element maps -/

/-- On a map with strictly ascending keys, `try_emplace` finds a present key and
leaves the map as it was; an absent key is inserted, the keys stay strictly
ascending and the map grows by one entry. -/
theorem try_emplace_spec {Op : Type} (key : Nat) (value : element Op) :
    ∀ m : elements_type Op, m.keys.Pairwise (· < ·) →
      (key ∈ m.keys → ∃ original, try_emplace m key value = (m, some original)) ∧
      (key ∉ m.keys →
        (try_emplace m key value).2 = none ∧
        (try_emplace m key value).1.keys.Pairwise (· < ·) ∧
        (∀ x, x ∈ (try_emplace m key value).1.keys ↔ (x = key ∨ x ∈ m.keys)) ∧
        (try_emplace m key value).1.length = m.length + 1) := by
  intro m
  induction m with
  | nil =>
    intro _
    refine ⟨fun h => by simp [elements_type.keys] at h, fun _ => ?_⟩
    simp [try_emplace, elements_type.keys]
  | cons head rest ih =>
    obtain ⟨k, v⟩ := head
    intro hs
    have hs2 : (k :: elements_type.keys rest).Pairwise (· < ·) := by
      simpa [elements_type.keys] using hs
    obtain ⟨hk, hrest⟩ := List.pairwise_cons.mp hs2
    obtain ⟨ih1, ih2⟩ := ih hrest
    have hkeys : elements_type.keys ((k, v) :: rest) = k :: elements_type.keys rest := rfl
    by_cases h1 : key < k
    · have hnot : key ∉ elements_type.keys ((k, v) :: rest) := by
        rw [hkeys, List.mem_cons]
        rintro (h | h)
        · omega
        · have := hk key h; omega
      have hte : try_emplace ((k, v) :: rest) key value
          = ((key, value) :: (k, v) :: rest, none) := by
        simp [try_emplace, h1]
      refine ⟨fun h => absurd h hnot, fun _ => ?_⟩
      rw [hte]
      refine ⟨rfl, ?_, ?_, ?_⟩
      · show (key :: k :: elements_type.keys rest).Pairwise (· < ·)
        refine List.pairwise_cons.mpr ⟨?_, hs2⟩
        intro x hx
        rcases List.mem_cons.mp hx with h | h
        · omega
        · have := hk x h; omega
      · intro x
        show x ∈ key :: k :: elements_type.keys rest ↔ _
        rw [hkeys]
        simp
      · simp
    · by_cases h2 : key = k
      · have hte : try_emplace ((k, v) :: rest) key value = ((k, v) :: rest, some v) := by
          simp [try_emplace, h2]
        refine ⟨fun _ => ⟨v, hte⟩, fun h => ?_⟩
        exact absurd (by rw [hkeys, h2]; exact List.mem_cons_self _ _) h
      · have hte : try_emplace ((k, v) :: rest) key value
            = ((k, v) :: (try_emplace rest key value).1, (try_emplace rest key value).2) := by
          simp [try_emplace, h1, h2]
        have hmem : key ∈ elements_type.keys ((k, v) :: rest) ↔ key ∈ elements_type.keys rest := by
          rw [hkeys, List.mem_cons]
          constructor
          · rintro (h | h)
            · exact absurd h h2
            · exact h
          · exact Or.inr
        constructor
        · intro h
          obtain ⟨original, ho⟩ := ih1 (hmem.mp h)
          exact ⟨original, by rw [hte, ho]⟩
        · intro h
          obtain ⟨r1, r2, r3, r4⟩ := ih2 (fun hh => h (hmem.mpr hh))
          rw [hte]
          refine ⟨r1, ?_, ?_, ?_⟩
          · show (k :: elements_type.keys (try_emplace rest key value).1).Pairwise (· < ·)
            refine List.pairwise_cons.mpr ⟨?_, r2⟩
            intro x hx
            rcases (r3 x).mp hx with hx1 | hx1
            · omega
            · exact hk x hx1
          · intro x
            show x ∈ k :: elements_type.keys (try_emplace rest key value).1 ↔ _
            rw [hkeys, List.mem_cons, List.mem_cons, r3 x]
            constructor
            · rintro (h | h | h)
              · exact Or.inr (Or.inl h)
              · exact Or.inl h
              · exact Or.inr (Or.inr h)
            · rintro (h | h | h)
              · exact Or.inr (Or.inl h)
              · exact Or.inl h
              · exact Or.inr (Or.inr h)
          · simp [r4]

/-- The loop of `detail::append` on a map with strictly ascending keys: it ends
without exception exactly when the appended addresses are pairwise distinct and
absent from the map; it then adds one entry per element and keeps the keys
strictly ascending; an exception it ends with is a `duplicate_address`. -/
theorem append_spec {Op : Type} (location : source_location) :
    ∀ (elements : List (element Op)) (dst : elements_type Op),
      dst.keys.Pairwise (· < ·) →
      ((append dst elements location).2 = none ↔
        ((elements.map element.addr).Nodup ∧ ∀ e ∈ elements, e.addr ∉ dst.keys)) ∧
      ((append dst elements location).2 = none →
        (append dst elements location).1.keys.Pairwise (· < ·) ∧
        (∀ x, x ∈ (append dst elements location).1.keys ↔
          (x ∈ dst.keys ∨ x ∈ elements.map element.addr)) ∧
        (append dst elements location).1.length = dst.length + elements.length) ∧
      (∀ e, (append dst elements location).2 = some e → e.is_duplicate_address = true) := by
  intro elements
  induction elements with
  | nil =>
    intro dst hs
    simp [append, hs]
  | cons i rest ih =>
    intro dst hs
    obtain ⟨t1, t2⟩ := try_emplace_spec i.addr i dst hs
    by_cases hmem : i.addr ∈ dst.keys
    · obtain ⟨original, ho⟩ := t1 hmem
      have ha : append dst (i :: rest) location
          = (dst, some (report_duplicate i original location)) := by
        simp [append, ho]
      rw [ha]
      refine ⟨⟨fun h => by simp at h, fun h => ?_⟩, fun h => by simp at h, ?_⟩
      · exact absurd hmem (h.2 i (List.mem_cons_self _ _))
      · intro e he
        simp only [Option.some.injEq] at he
        subst he
        rfl
    · obtain ⟨r1, r2, r3, r4⟩ := t2 hmem
      have ha : append dst (i :: rest) location
          = append (try_emplace dst i.addr i).1 rest location := by
        cases hte : try_emplace dst i.addr i with
        | mk dst_ found =>
          rw [hte] at r1
          simp only at r1
          subst r1
          simp [append, hte]
      obtain ⟨ih1, ih2, ih3⟩ := ih (try_emplace dst i.addr i).1 r2
      rw [ha]
      refine ⟨?_, ?_, ih3⟩
      · rw [ih1, List.map_cons, List.nodup_cons]
        constructor
        · rintro ⟨h1, h2⟩
          refine ⟨⟨?_, h1⟩, ?_⟩
          · intro hin
            obtain ⟨e, he, hea⟩ := List.mem_map.mp hin
            exact h2 e he ((r3 _).mpr (Or.inl hea))
          · intro e he
            rcases List.mem_cons.mp he with h | h
            · subst h; exact hmem
            · exact fun hh => h2 e h ((r3 _).mpr (Or.inr hh))
        · rintro ⟨⟨h1, h2⟩, h3⟩
          refine ⟨h2, ?_⟩
          intro e he hin
          rcases (r3 _).mp hin with h | h
          · exact h1 (List.mem_map.mpr ⟨e, he, h⟩)
          · exact h3 e (List.mem_cons_of_mem _ he) h
      · intro hnone
        obtain ⟨q1, q2, q3⟩ := ih2 hnone
        refine ⟨q1, ?_, ?_⟩
        · intro x
          rw [q2 x, r3 x, List.map_cons, List.mem_cons]
          constructor
          · rintro ((h | h) | h)
            · exact Or.inr (Or.inl h)
            · exact Or.inl h
            · exact Or.inr (Or.inr h)
          · rintro (h | h | h)
            · exact Or.inl (Or.inr h)
            · exact Or.inl (Or.inl h)
            · exact Or.inr h
        · rw [q3, r4, List.length_cons]
          omega

/-- The loop over the lists of a list-of-lists constructor behaves like
`detail::append` on the concatenation of the lists. -/
theorem append_lists_spec {Op : Type} (location : source_location) :
    ∀ (lists : List (List (element Op))) (dst : elements_type Op),
      dst.keys.Pairwise (· < ·) →
      ((append_lists dst lists location).2 = none ↔
        ((lists.flatten.map element.addr).Nodup ∧ ∀ e ∈ lists.flatten, e.addr ∉ dst.keys)) ∧
      ((append_lists dst lists location).2 = none →
        (append_lists dst lists location).1.keys.Pairwise (· < ·) ∧
        (∀ x, x ∈ (append_lists dst lists location).1.keys ↔
          (x ∈ dst.keys ∨ x ∈ lists.flatten.map element.addr)) ∧
        (append_lists dst lists location).1.length = dst.length + lists.flatten.length) ∧
      (∀ e, (append_lists dst lists location).2 = some e →
        e.is_duplicate_address = true) := by
  intro lists
  induction lists with
  | nil =>
    intro dst hs
    simp [append_lists, hs]
  | cons elements rest ih =>
    intro dst hs
    obtain ⟨a1, a2, a3⟩ := append_spec location elements dst hs
    cases hap : append dst elements location with
    | mk dst_ thrown =>
      rw [hap] at a1 a2 a3
      simp only at a1 a2 a3
      cases thrown with
      | some e =>
        have hal : append_lists dst (elements :: rest) location = (dst_, some e) := by
          simp [append_lists, hap]
        rw [hal]
        refine ⟨⟨fun h => by simp at h, fun h => ?_⟩, fun h => by simp at h, ?_⟩
        · exfalso
          have hno : ¬ ((elements.map element.addr).Nodup ∧
              ∀ e ∈ elements, e.addr ∉ dst.keys) := by
            intro hh
            have := a1.mpr hh
            simp at this
          apply hno
          rw [List.flatten_cons, List.map_append] at h
          exact ⟨(List.nodup_append.mp h.1).1,
            fun e he => h.2 e (List.mem_append_left _ he)⟩
        · intro e2 he2
          simp only [Option.some.injEq] at he2
          subst he2
          exact a3 e rfl
      | none =>
        have hal : append_lists dst (elements :: rest) location
            = append_lists dst_ rest location := by
          simp [append_lists, hap]
        obtain ⟨b1, b2, b3⟩ := a2 rfl
        obtain ⟨c1, c2⟩ := a1.mp rfl
        obtain ⟨ih1, ih2, ih3⟩ := ih dst_ b1
        rw [hal]
        refine ⟨?_, ?_, ih3⟩
        · rw [ih1, List.flatten_cons, List.map_append, List.nodup_append]
          constructor
          · rintro ⟨h1, h2⟩
            refine ⟨⟨c1, h1, ?_⟩, ?_⟩
            · intro x hx1 hx2
              obtain ⟨e, he, hea⟩ := List.mem_map.mp hx2
              exact h2 e he ((b2 _).mpr (Or.inr (hea ▸ hx1)))
            · intro e he
              rcases List.mem_append.mp he with h | h
              · exact c2 e h
              · exact fun hh => h2 e h ((b2 _).mpr (Or.inl hh))
          · rintro ⟨⟨_, h1, h2⟩, h3⟩
            refine ⟨h1, ?_⟩
            intro e he hin
            rcases (b2 _).mp hin with h | h
            · exact h3 e (List.mem_append_right _ he) h
            · exact h2 h (List.mem_map.mpr ⟨e, he, rfl⟩)
        · intro hnone
          obtain ⟨q1, q2, q3⟩ := ih2 hnone
          refine ⟨q1, ?_, ?_⟩
          · intro x
            rw [q2 x, b2 x, List.flatten_cons, List.map_append, List.mem_append]
            exact or_assoc
          · rw [q3, b3, List.flatten_cons, List.length_append]
            omega

/-- An exception thrown by `detail::check_overlapping` is an
`overlapping_elements`, not a `duplicate_address`. -/
theorem check_overlapping_throws {Op : Type} (m : elements_type Op)
    (location : source_location) (e : exception)
    (h : check_overlapping m location = some e) :
    e.is_overlapping_elements = true ∧ e.is_duplicate_address = false := by
  unfold check_overlapping at h
  split at h
  · simp only [Option.some.injEq] at h
    subst h
    exact ⟨rfl, rfl⟩
  · simp at h

/-- Outcome of a stub constructor body, given the result `r` of its append
loop: it throws `duplicate_address` exactly when the loop threw, and otherwise
either throws `overlapping_elements` or yields a stub holding the loop's map. -/
theorem stub_constructor_outcome {Op : Type} (location : source_location)
    (r : elements_type Op × Option exception)
    (res : Except exception (stub Op))
    (hres : res =
      match r with
      | (_, some e) => Except.error e
      | (elements_, none) =>
        match check_overlapping elements_ location with
        | some e => Except.error e
        | none => Except.ok { elements_ := elements_, location_ := location })
    (hr : ∀ e, r.2 = some e → e.is_duplicate_address = true) :
    (throws_duplicate_address res = true ↔ r.2 ≠ none) ∧
    (r.2 = none →
      (throws_overlapping_elements res = true ∨
        ∃ s, res = Except.ok s ∧ s.element_count = r.1.length)) := by
  obtain ⟨m, thrown⟩ := r
  cases thrown with
  | some e =>
    simp only at hres
    subst hres
    have := hr e rfl
    simp [throws_duplicate_address, this]
  | none =>
    simp only at hres
    cases hc : check_overlapping m location with
    | some e =>
      rw [hc] at hres
      simp only at hres
      subst hres
      obtain ⟨h1, h2⟩ := check_overlapping_throws m location e hc
      simp [throws_duplicate_address, throws_overlapping_elements, h1, h2]
    | none =>
      rw [hc] at hres
      simp only at hres
      subst hres
      simp [throws_duplicate_address, stub.element_count]

/-- Outcome of a verify constructor body, given the result `r` of its append
loop: it throws `duplicate_address` exactly when the loop threw, and otherwise
yields a verify holding the loop's map. -/
theorem verify_constructor_outcome {Op : Type} (location : source_location)
    (r : elements_type Op × Option exception)
    (res : Except exception (verify Op))
    (hres : res =
      match r with
      | (_, some e) => Except.error e
      | (elements_, none) => Except.ok { elements_ := elements_, location_ := location })
    (hr : ∀ e, r.2 = some e → e.is_duplicate_address = true) :
    (throws_duplicate_address res = true ↔ r.2 ≠ none) ∧
    (r.2 = none → ∃ v, res = Except.ok v ∧ v.element_count = r.1.length) := by
  obtain ⟨m, thrown⟩ := r
  cases thrown with
  | some e =>
    simp only at hres
    subst hres
    have := hr e rfl
    simp [throws_duplicate_address, this]
  | none =>
    simp only at hres
    subst hres
    simp [throws_duplicate_address, verify.element_count]

/-- C10: constructing a stub or a verify from a flat list or from a list of
lists throws `duplicate_address` iff two of the elements, in the same or in
different lists, have the same base address. If none do, the element map built
by the constructor holds exactly one entry per element: a verify is constructed
with `element_count` equal to the number of elements, and a stub is too unless
its overlap check throws `overlapping_elements`. -/
theorem construction_duplicate_address_iff {Op : Type}
    (elements : List (element Op)) (lists : List (List (element Op)))
    (location : source_location) :
    (throws_duplicate_address (stub.of_list elements location) = true ↔
      has_duplicate_address elements) ∧
    (throws_duplicate_address (stub.of_lists lists location) = true ↔
      has_duplicate_address lists.flatten) ∧
    (throws_duplicate_address (verify.of_list elements location) = true ↔
      has_duplicate_address elements) ∧
    (throws_duplicate_address (verify.of_lists lists location) = true ↔
      has_duplicate_address lists.flatten) ∧
    (¬ has_duplicate_address elements →
      (∃ v, verify.of_list elements location = Except.ok v ∧
        v.element_count = elements.length) ∧
      (append [] elements location).1.length = elements.length ∧
      (throws_overlapping_elements (stub.of_list elements location) = true ∨
        ∃ s, stub.of_list elements location = Except.ok s ∧
          s.element_count = elements.length)) ∧
    (¬ has_duplicate_address lists.flatten →
      (∃ v, verify.of_lists lists location = Except.ok v ∧
        v.element_count = lists.flatten.length) ∧
      (append_lists [] lists location).1.length = lists.flatten.length ∧
      (throws_overlapping_elements (stub.of_lists lists location) = true ∨
        ∃ s, stub.of_lists lists location = Except.ok s ∧
          s.element_count = lists.flatten.length)) := by
  have hempty : (elements_type.keys ([] : elements_type Op)).Pairwise (· < ·) :=
    List.Pairwise.nil
  obtain ⟨a1, a2, a3⟩ := append_spec location elements [] hempty
  obtain ⟨l1, l2, l3⟩ := append_lists_spec location lists [] hempty
  have hnone : (append [] elements location).2 = none ↔ ¬ has_duplicate_address elements := by
    rw [a1]
    simp [has_duplicate_address, elements_type.keys]
  have hnonel : (append_lists [] lists location).2 = none ↔
      ¬ has_duplicate_address lists.flatten := by
    rw [l1]
    simp [has_duplicate_address, elements_type.keys]
  have hsome : (append [] elements location).2 ≠ none ↔ has_duplicate_address elements := by
    rw [Ne, hnone, not_not]
  have hsomel : (append_lists [] lists location).2 ≠ none ↔
      has_duplicate_address lists.flatten := by
    rw [Ne, hnonel, not_not]
  obtain ⟨s1, s2⟩ := stub_constructor_outcome location (append [] elements location)
    (stub.of_list elements location) rfl a3
  obtain ⟨s3, s4⟩ := stub_constructor_outcome location (append_lists [] lists location)
    (stub.of_lists lists location) rfl l3
  obtain ⟨v1, v2⟩ := verify_constructor_outcome location (append [] elements location)
    (verify.of_list elements location) rfl a3
  obtain ⟨v3, v4⟩ := verify_constructor_outcome location (append_lists [] lists location)
    (verify.of_lists lists location) rfl l3
  refine ⟨s1.trans hsome, s3.trans hsomel, v1.trans hsome, v3.trans hsomel, ?_, ?_⟩
  · intro hnd
    have hn := hnone.mpr hnd
    have hlen : (append [] elements location).1.length = elements.length := by
      rw [(a2 hn).2.2]; simp
    rw [← hlen]
    exact ⟨v2 hn, rfl, s2 hn⟩
  · intro hnd
    have hn := hnonel.mpr hnd
    have hlen : (append_lists [] lists location).1.length = lists.flatten.length := by
      rw [(l2 hn).2.2]; simp
    rw [← hlen]
    exact ⟨v4 hn, rfl, s4 hn⟩

/-- Witness of C10 at the elements `{0x1000, 8}`, `{0x1010, 16}`, `{0x1020, 32}`
given as one list and as two lists. -/
theorem construction_duplicate_address_iff_witness :
    (∃ v, verify.of_list
        [(⟨⟨0x1000, 8⟩, (), ⟨"test", 36⟩⟩ : element Unit), ⟨⟨0x1010, 16⟩, (), ⟨"test", 37⟩⟩,
          ⟨⟨0x1020, 32⟩, (), ⟨"test", 38⟩⟩] ⟨"test", 35⟩ = Except.ok v ∧
        v.element_count = 3) ∧
    (append []
        [(⟨⟨0x1000, 8⟩, (), ⟨"test", 36⟩⟩ : element Unit), ⟨⟨0x1010, 16⟩, (), ⟨"test", 37⟩⟩,
          ⟨⟨0x1020, 32⟩, (), ⟨"test", 38⟩⟩] ⟨"test", 35⟩).1.length = 3 ∧
    (throws_overlapping_elements (stub.of_list
        [(⟨⟨0x1000, 8⟩, (), ⟨"test", 36⟩⟩ : element Unit), ⟨⟨0x1010, 16⟩, (), ⟨"test", 37⟩⟩,
          ⟨⟨0x1020, 32⟩, (), ⟨"test", 38⟩⟩] ⟨"test", 35⟩) = true ∨
      ∃ s, stub.of_list
        [(⟨⟨0x1000, 8⟩, (), ⟨"test", 36⟩⟩ : element Unit), ⟨⟨0x1010, 16⟩, (), ⟨"test", 37⟩⟩,
          ⟨⟨0x1020, 32⟩, (), ⟨"test", 38⟩⟩] ⟨"test", 35⟩ = Except.ok s ∧
        s.element_count = 3) :=
  (construction_duplicate_address_iff
    [(⟨⟨0x1000, 8⟩, (), ⟨"test", 36⟩⟩ : element Unit), ⟨⟨0x1010, 16⟩, (), ⟨"test", 37⟩⟩,
      ⟨⟨0x1020, 32⟩, (), ⟨"test", 38⟩⟩]
    [[⟨⟨0x1000, 8⟩, (), ⟨"test", 45⟩⟩], [⟨⟨0x1010, 16⟩, (), ⟨"test", 47⟩⟩,
      ⟨⟨0x1020, 32⟩, (), ⟨"test", 48⟩⟩]]
    ⟨"test", 35⟩).2.2.2.2.1 (by decide)

/-! ## Theorems: entries of element maps -/

/-- The entries after `try_emplace`: when the key was absent the new entry is
added to the old ones; when it was present the map is unchanged and the element
reported is the one stored under the key. -/
theorem try_emplace_entries {Op : Type} (key : Nat) (value : element Op) :
    ∀ m : elements_type Op,
      ((try_emplace m key value).2 = none →
        ∀ p, p ∈ (try_emplace m key value).1 ↔ (p = (key, value) ∨ p ∈ m)) ∧
      (∀ original, (try_emplace m key value).2 = some original →
        (try_emplace m key value).1 = m ∧ (key, original) ∈ m) := by
  intro m
  induction m with
  | nil => simp [try_emplace]
  | cons head rest ih =>
    obtain ⟨k, v⟩ := head
    obtain ⟨ih1, ih2⟩ := ih
    by_cases h1 : key < k
    · have hte : try_emplace ((k, v) :: rest) key value
          = ((key, value) :: (k, v) :: rest, none) := by
        simp [try_emplace, h1]
      rw [hte]
      simp
    · by_cases h2 : key = k
      · have hte : try_emplace ((k, v) :: rest) key value = ((k, v) :: rest, some v) := by
          simp [try_emplace, h2]
        rw [hte]
        refine ⟨fun h => by simp at h, ?_⟩
        intro original ho
        simp only [Option.some.injEq] at ho
        subst ho
        exact ⟨rfl, by rw [h2]; exact List.mem_cons_self _ _⟩
      · have hte : try_emplace ((k, v) :: rest) key value
            = ((k, v) :: (try_emplace rest key value).1, (try_emplace rest key value).2) := by
          simp [try_emplace, h1, h2]
        rw [hte]
        constructor
        · intro hn p
          simp only at hn
          have := ih1 hn p
          simp only [List.mem_cons, this]
          constructor
          · rintro (h | h | h)
            · exact Or.inr (Or.inl h)
            · exact Or.inl h
            · exact Or.inr (Or.inr h)
          · rintro (h | h | h)
            · exact Or.inr (Or.inl h)
            · exact Or.inl h
            · exact Or.inr (Or.inr h)
        · intro original ho
          simp only at ho
          obtain ⟨e1, e2⟩ := ih2 original ho
          simp only
          rw [e1]
          exact ⟨rfl, List.mem_cons_of_mem _ e2⟩

/-- The function `detail::append` keeps the keys strictly ascending, keeps every
entry of the destination, adds only entries `(addr, element)` of the appended
elements, and, when it ends without exception, adds all of them. -/
theorem append_entries {Op : Type} (location : source_location) :
    ∀ (elements : List (element Op)) (dst : elements_type Op),
      dst.keys.Pairwise (· < ·) →
      (append dst elements location).1.keys.Pairwise (· < ·) ∧
      (∀ p ∈ dst, p ∈ (append dst elements location).1) ∧
      (∀ p ∈ (append dst elements location).1,
        p ∈ dst ∨ ∃ e ∈ elements, p = (e.addr, e)) ∧
      ((append dst elements location).2 = none →
        ∀ e ∈ elements, (e.addr, e) ∈ (append dst elements location).1) := by
  intro elements
  induction elements with
  | nil =>
    intro dst hs
    simp [append, hs]
  | cons i rest ih =>
    intro dst hs
    obtain ⟨t1, t2⟩ := try_emplace_spec i.addr i dst hs
    obtain ⟨n1, n2⟩ := try_emplace_entries i.addr i dst
    cases hte : try_emplace dst i.addr i with
    | mk dst_ found =>
      rw [hte] at n1 n2
      simp only at n1 n2
      cases found with
      | some original =>
        have ha : append dst (i :: rest) location
            = (dst_, some (report_duplicate i original location)) := by
          simp [append, hte]
        obtain ⟨e1, _⟩ := n2 original rfl
        rw [ha]
        subst e1
        exact ⟨hs, fun p hp => hp, fun p hp => Or.inl hp, fun h => by simp at h⟩
      | none =>
        have ha : append dst (i :: rest) location = append dst_ rest location := by
          simp [append, hte]
        have hmem := n1 rfl
        have hsorted : dst_.keys.Pairwise (· < ·) := by
          by_cases hin : i.addr ∈ dst.keys
          · obtain ⟨original, ho⟩ := t1 hin
            rw [hte] at ho
            simp at ho
          · have := (t2 hin).2.1
            rw [hte] at this
            exact this
        obtain ⟨i1, i2, i3, i4⟩ := ih dst_ hsorted
        rw [ha]
        refine ⟨i1, ?_, ?_, ?_⟩
        · intro p hp
          exact i2 p ((hmem p).mpr (Or.inr hp))
        · intro p hp
          rcases i3 p hp with h | ⟨e, he, hpe⟩
          · rcases (hmem p).mp h with h2 | h2
            · exact Or.inr ⟨i, List.mem_cons_self _ _, h2⟩
            · exact Or.inl h2
          · exact Or.inr ⟨e, List.mem_cons_of_mem _ he, hpe⟩
        · intro hn e he
          rcases List.mem_cons.mp he with h | h
          · subst h
            exact i2 _ ((hmem _).mpr (Or.inl rfl))
          · exact i4 hn e h

/-- The function `detail::append` run on a concatenation is the run on the first
part followed, unless that threw, by the run on the second part. -/
theorem append_concat {Op : Type} (location : source_location) :
    ∀ (first second : List (element Op)) (dst : elements_type Op),
      append dst (first ++ second) location =
        match append dst first location with
        | (dst_, none) => append dst_ second location
        | (dst_, some e) => (dst_, some e) := by
  intro first
  induction first with
  | nil => intro second dst; simp [append]
  | cons i rest ih =>
    intro second dst
    simp only [List.cons_append, append]
    cases hte : try_emplace dst i.addr i with
    | mk dst_ found =>
      cases found with
      | some original => simp
      | none => simp only; exact ih second dst_

/-- The loop of a list-of-lists constructor is `detail::append` run on the
concatenation of the lists. -/
theorem append_lists_eq_append {Op : Type} (location : source_location) :
    ∀ (lists : List (List (element Op))) (dst : elements_type Op),
      append_lists dst lists location = append dst lists.flatten location := by
  intro lists
  induction lists with
  | nil => intro dst; simp [append_lists, append]
  | cons elements rest ih =>
    intro dst
    rw [List.flatten_cons, append_concat]
    simp only [append_lists]
    cases append dst elements location with
    | mk dst_ thrown =>
      cases thrown with
      | some e => simp
      | none => simp only; exact ih dst_

/-- The branch `is_pair` of `detail::append`, run on entries that are keyed by
their element's address, is `detail::append` run on the elements. -/
theorem append_pairs_eq_append {Op : Type} (location : source_location) :
    ∀ (src dst : elements_type Op), (∀ p ∈ src, p.1 = p.2.addr) →
      append_pairs dst src location = append dst (src.map Prod.snd) location := by
  intro src
  induction src with
  | nil => intro dst _; simp [append_pairs, append]
  | cons i rest ih =>
    intro dst hk
    have hi : i.1 = i.2.addr := hk i (List.mem_cons_self _ _)
    simp only [List.map_cons, append_pairs, append]
    rw [hi]
    cases try_emplace dst i.2.addr i.2 with
    | mk dst_ found =>
      cases found with
      | some original => simp
      | none =>
        simp only
        exact ih dst_ (fun p hp => hk p (List.mem_cons_of_mem _ hp))

/-- On a map with strictly ascending keys that are the addresses of the
elements, `std::adjacent_find` with the overlap predicate finds nothing iff no
two entries overlap: an element that overlaps a later one overlaps its right
neighbour. -/
theorem adjacent_find_none_iff_pairwise {Op : Type} :
    ∀ m : elements_type Op, m.keys.Pairwise (· < ·) → (∀ p ∈ m, p.1 = p.2.addr) →
      (adjacent_find (fun lhs rhs => element.overlapping lhs.2 rhs.2) m = none ↔
        m.Pairwise (fun p q => element.overlapping p.2 q.2 = false)) := by
  intro m
  induction m with
  | nil => intro _ _; simp [adjacent_find]
  | cons a t ih =>
    intro hs hk
    have hs2 : (a.1 :: elements_type.keys t).Pairwise (· < ·) := by
      simpa [elements_type.keys] using hs
    obtain ⟨hlt, hst⟩ := List.pairwise_cons.mp hs2
    have hkt : ∀ p ∈ t, p.1 = p.2.addr := fun p hp => hk p (List.mem_cons_of_mem _ hp)
    have iht := ih hst hkt
    cases t with
    | nil => simp [adjacent_find]
    | cons b rest =>
      have hab : a.2.addr < b.2.addr := by
        have h1 := hlt b.1 (by simp [elements_type.keys])
        rw [hk a (List.mem_cons_self _ _), hkt b (List.mem_cons_self _ _)] at h1
        exact h1
      by_cases hp : element.overlapping a.2 b.2 = true
      · have hfind : adjacent_find (fun lhs rhs => element.overlapping lhs.2 rhs.2)
            (a :: b :: rest) = some (a, b) := by
          simp [adjacent_find, hp]
        rw [hfind]
        refine ⟨fun h => by simp at h, fun h => ?_⟩
        have := (List.pairwise_cons.mp h).1 b (List.mem_cons_self _ _)
        rw [hp] at this
        simp at this
      · have hfind : adjacent_find (fun lhs rhs => element.overlapping lhs.2 rhs.2)
            (a :: b :: rest)
            = adjacent_find (fun lhs rhs => element.overlapping lhs.2 rhs.2) (b :: rest) := by
          simp [adjacent_find, hp]
        rw [hfind, iht, List.pairwise_cons (a := a)]
        refine ⟨fun h => ⟨?_, h⟩, fun h => h.2⟩
        intro q hq
        have hbq : b.2.addr ≤ q.2.addr := by
          rcases List.mem_cons.mp hq with h1 | h1
          · subst h1; exact le_refl _
          · have hs3 : (b.1 :: elements_type.keys rest).Pairwise (· < ·) := by
              simpa [elements_type.keys] using hst
            have h2 := (List.pairwise_cons.mp hs3).1 q.1 (by
              simp only [elements_type.keys, List.mem_map]
              exact ⟨q, h1, rfl⟩)
            rw [hkt b (List.mem_cons_self _ _), hkt q (List.mem_cons_of_mem _ h1)] at h2
            omega
        cases hov : element.overlapping a.2 q.2 with
        | false => rfl
        | true =>
          exfalso
          apply hp
          unfold element.overlapping stubmmio.overlapping at hov ⊢
          unfold element.addr at hab hbq
          simp only [Bool.or_eq_true, Bool.and_eq_true, decide_eq_true_eq] at hov ⊢
          rcases hov with ⟨_, h2⟩ | ⟨h1, _⟩
          · left; exact ⟨by omega, by omega⟩
          · omega

/-- The function `element.overlapping` does not depend on the order of its
arguments. -/
theorem element_overlapping_comm {Op : Type} (a b : element Op) :
    element.overlapping a b = element.overlapping b a := by
  unfold element.overlapping stubmmio.overlapping
  exact Bool.or_comm _ _

/-- The function `detail::check_overlapping` throws nothing iff
`std::adjacent_find` finds no overlapping neighbours. -/
theorem check_overlapping_eq_none_iff {Op : Type} (m : elements_type Op)
    (location : source_location) :
    check_overlapping m location = none ↔
      adjacent_find (fun lhs rhs => element.overlapping lhs.2 rhs.2) m = none := by
  unfold check_overlapping
  split
  · rename_i h; simp [h]
  · rename_i h; simp [h]

/-- On a map with strictly ascending keys that are the addresses of the
elements, `detail::check_overlapping` throws nothing iff no two entries overlap. -/
theorem check_overlapping_eq_none_iff_pairwise {Op : Type} (m : elements_type Op)
    (location : source_location)
    (hs : m.keys.Pairwise (· < ·)) (hk : ∀ p ∈ m, p.1 = p.2.addr) :
    check_overlapping m location = none ↔
      m.Pairwise (fun p q => p.2.addr ≠ q.2.addr ∧ element.overlapping p.2 q.2 = false) := by
  rw [check_overlapping_eq_none_iff, adjacent_find_none_iff_pairwise m hs hk]
  have hlt : m.Pairwise (fun p q => p.1 < q.1) := List.pairwise_map.mp hs
  constructor
  · intro h
    have hboth : m.Pairwise (fun p q => p.1 < q.1 ∧ element.overlapping p.2 q.2 = false) :=
      List.Pairwise.and hlt h
    refine List.Pairwise.imp_of_mem ?_ hboth
    intro p q hp hq hpq
    refine ⟨?_, hpq.2⟩
    rw [← hk p hp, ← hk q hq]
    omega
  · intro h
    exact List.Pairwise.imp (fun hpq => hpq.2) h

/-- On a map holding exactly the entries `(addr, element)` of a list of
elements, some two entries overlap iff some two of the elements do. -/
theorem not_pairwise_iff_some_two_overlap {Op : Type} (m : elements_type Op)
    (elements : List (element Op))
    (hs : m.keys.Pairwise (· < ·))
    (hin : ∀ p ∈ m, ∃ e ∈ elements, p = (e.addr, e))
    (hall : ∀ e ∈ elements, (e.addr, e) ∈ m) :
    ¬ m.Pairwise (fun p q => p.2.addr ≠ q.2.addr ∧ element.overlapping p.2 q.2 = false) ↔
      some_two_overlap elements := by
  have hlt : m.Pairwise (fun p q => p.1 < q.1) := List.pairwise_map.mp hs
  have hk : ∀ p ∈ m, p.1 = p.2.addr := by
    intro p hp
    obtain ⟨e, _, he⟩ := hin p hp
    rw [he]
  constructor
  · intro hnot
    by_contra hno
    apply hnot
    refine List.Pairwise.imp_of_mem ?_ hlt
    intro p q hp hq hpq
    have hne : p.2.addr ≠ q.2.addr := by
      rw [← hk p hp, ← hk q hq]; omega
    refine ⟨hne, ?_⟩
    cases hov : element.overlapping p.2 q.2 with
    | false => rfl
    | true =>
      exfalso
      apply hno
      obtain ⟨e1, he1, hp1⟩ := hin p hp
      obtain ⟨e2, he2, hq1⟩ := hin q hq
      subst hp1; subst hq1
      exact ⟨e1, he1, e2, he2, hne, hov⟩
  · rintro ⟨a, ha, b, hb, hne, hov⟩ hpw
    have hsymm : Symmetric (fun p q : Nat × element Op =>
        p.2.addr ≠ q.2.addr ∧ element.overlapping p.2 q.2 = false) := by
      intro p q hpq
      exact ⟨fun h => hpq.1 h.symm, by rw [element_overlapping_comm]; exact hpq.2⟩
    have hab : ((a.addr, a) : Nat × element Op) ≠ (b.addr, b) := by
      intro h
      exact hne (congrArg Prod.fst h)
    have := (List.Pairwise.forall hsymm hpw (hall a ha) (hall b hb) hab).2
    simp only at this
    rw [hov] at this
    cases this

/-- C11: constructing a stub from elements with pairwise distinct base addresses
(given as one list or as a list of lists) throws `overlapping_elements` iff some
two of the elements, neighbours in address order or not, have overlapping
regions; constructing a verify never throws `overlapping_elements`. -/
theorem stub_constructor_overlapping_iff {Op : Type}
    (elements : List (element Op)) (lists : List (List (element Op)))
    (location : source_location) :
    (¬ has_duplicate_address elements →
      (throws_overlapping_elements (stub.of_list elements location) = true ↔
        some_two_overlap elements)) ∧
    (¬ has_duplicate_address lists.flatten →
      (throws_overlapping_elements (stub.of_lists lists location) = true ↔
        some_two_overlap lists.flatten)) ∧
    throws_overlapping_elements (verify.of_list elements location) = false ∧
    throws_overlapping_elements (verify.of_lists lists location) = false := by
  have hempty : (elements_type.keys ([] : elements_type Op)).Pairwise (· < ·) :=
    List.Pairwise.nil
  have hlists_stub : stub.of_lists lists location = stub.of_list lists.flatten location := by
    unfold stub.of_lists stub.of_list
    rw [append_lists_eq_append]
  have hlists_verify :
      verify.of_lists lists location = verify.of_list lists.flatten location := by
    unfold verify.of_lists verify.of_list
    rw [append_lists_eq_append]
  have hstub : ∀ es : List (element Op), ¬ has_duplicate_address es →
      (throws_overlapping_elements (stub.of_list es location) = true ↔
        some_two_overlap es) := by
    intro es hnd
    obtain ⟨a1, _, _⟩ := append_spec location es [] hempty
    obtain ⟨b1, _, b3, b4⟩ := append_entries location es [] hempty
    have hnone : (append [] es location).2 = none := by
      rw [a1]
      unfold has_duplicate_address at hnd
      exact ⟨not_not.mp hnd, fun e _ => by simp [elements_type.keys]⟩
    have hin : ∀ p ∈ (append [] es location).1, ∃ e ∈ es, p = (e.addr, e) := by
      intro p hp
      rcases b3 p hp with h | h
      · simp at h
      · exact h
    have hk : ∀ p ∈ (append [] es location).1, p.1 = p.2.addr := by
      intro p hp
      obtain ⟨e, _, he⟩ := hin p hp
      rw [he]
    rw [← not_pairwise_iff_some_two_overlap _ es b1 hin (b4 hnone),
      ← check_overlapping_eq_none_iff_pairwise _ location b1 hk]
    unfold stub.of_list
    cases hap : append [] es location with
    | mk m thrown =>
      rw [hap] at hnone
      simp only at hnone
      subst hnone
      simp only
      cases hc : check_overlapping m location with
      | none => simp [throws_overlapping_elements]
      | some e =>
        have := (check_overlapping_throws m location e hc).1
        simp [throws_overlapping_elements, this]
  have hverify : ∀ es : List (element Op),
      throws_overlapping_elements (verify.of_list es location) = false := by
    intro es
    obtain ⟨_, _, a3⟩ := append_spec location es [] hempty
    unfold verify.of_list
    cases hap : append [] es location with
    | mk m thrown =>
      rw [hap] at a3
      cases thrown with
      | none => rfl
      | some e =>
        have hd := a3 e rfl
        cases e <;> simp_all [throws_overlapping_elements, exception.is_overlapping_elements,
          exception.is_duplicate_address]
  refine ⟨hstub elements, ?_, hverify elements, ?_⟩
  · rw [hlists_stub]; exact hstub lists.flatten
  · rw [hlists_verify]; exact hverify lists.flatten

/-- Witness of C11 at the elements `{0x1000, 16}`, `{0x1010, 4}`, `{0x1004, 32}`:
the first and the third overlap and the constructor throws. -/
theorem stub_constructor_overlapping_iff_witness :
    throws_overlapping_elements (stub.of_list
      [(⟨⟨0x1000, 16⟩, (), ⟨"test", 70⟩⟩ : element Unit), ⟨⟨0x1010, 4⟩, (), ⟨"test", 71⟩⟩,
        ⟨⟨0x1004, 32⟩, (), ⟨"test", 72⟩⟩] ⟨"test", 69⟩) = true ∧
    some_two_overlap
      [(⟨⟨0x1000, 16⟩, (), ⟨"test", 70⟩⟩ : element Unit), ⟨⟨0x1010, 4⟩, (), ⟨"test", 71⟩⟩,
        ⟨⟨0x1004, 32⟩, (), ⟨"test", 72⟩⟩] :=
  ⟨by decide,
    ((stub_constructor_overlapping_iff
      [(⟨⟨0x1000, 16⟩, (), ⟨"test", 70⟩⟩ : element Unit), ⟨⟨0x1010, 4⟩, (), ⟨"test", 71⟩⟩,
        ⟨⟨0x1004, 32⟩, (), ⟨"test", 72⟩⟩] [] ⟨"test", 69⟩).1 (by decide)).mp (by decide)⟩

/-! ## Theorems: stub invariants -/

/-- A stub returned by the list constructor holds the map left by the append
loop, which ended without exception, and that map passed the overlap check. -/
theorem stub_of_list_ok {Op : Type} (elements : List (element Op))
    (location : source_location) (s : stub Op)
    (h : stub.of_list elements location = Except.ok s) :
    s.elements_ = (append [] elements location).1 ∧
    s.location_ = location ∧
    (append [] elements location).2 = none ∧
    check_overlapping s.elements_ location = none := by
  unfold stub.of_list at h
  cases hap : append [] elements location with
  | mk m thrown =>
    rw [hap] at h
    cases thrown with
    | some e => simp at h
    | none =>
      simp only at h
      cases hc : check_overlapping m location with
      | some e => rw [hc] at h; simp at h
      | none =>
        rw [hc] at h
        simp only [Except.ok.injEq] at h
        subst h
        exact ⟨rfl, rfl, rfl, hc⟩

/-- The list-of-lists constructor of `stub` is the list constructor run on the
concatenation of the lists. -/
theorem stub_of_lists_eq_of_list {Op : Type} (lists : List (List (element Op)))
    (location : source_location) :
    stub.of_lists lists location = stub.of_list lists.flatten location := by
  unfold stub.of_lists stub.of_list
  rw [append_lists_eq_append]

/-- The receiver after `operator|=`: its map is the one left by the append loop,
its location is kept, and when no exception was thrown the loop ended normally
and the overlap check passed. -/
theorem stub_or_assign_spec {Op : Type} (self that : stub Op) :
    (stub.or_assign self that).1.elements_
      = (append_pairs self.elements_ that.elements_ self.location_).1 ∧
    (stub.or_assign self that).1.location_ = self.location_ ∧
    ((stub.or_assign self that).2 = none ↔
      ((append_pairs self.elements_ that.elements_ self.location_).2 = none ∧
        check_overlapping (append_pairs self.elements_ that.elements_ self.location_).1
          self.location_ = none)) ∧
    (∀ e, (append_pairs self.elements_ that.elements_ self.location_).2 = some e →
      (stub.or_assign self that).2 = some e) ∧
    ((append_pairs self.elements_ that.elements_ self.location_).2 = none →
      (stub.or_assign self that).2
        = check_overlapping (append_pairs self.elements_ that.elements_ self.location_).1
            self.location_) := by
  unfold stub.or_assign
  cases append_pairs self.elements_ that.elements_ self.location_ with
  | mk m thrown =>
    cases thrown with
    | some e => simp
    | none => simp

/-- The move form of `operator|=` leaves the receiver and throws exactly as the
copy form does; the argument is emptied when nothing was thrown and is left as
it was otherwise. -/
theorem stub_or_assign_move_spec {Op : Type} (self that : stub Op)
    (that_identity this_identity : Nat) (arena : mmio) :
    (stub.or_assign_move self that that_identity this_identity arena).1
      = (stub.or_assign self that).1 ∧
    (stub.or_assign_move self that that_identity this_identity arena).2.2.2
      = (stub.or_assign self that).2 ∧
    ((stub.or_assign self that).2 = none →
      (stub.or_assign_move self that that_identity this_identity arena).2.1
        = { elements_ := [], location_ := that.location_ } ∧
      (stub.or_assign_move self that that_identity this_identity arena).2.2.1
        = arena.claim that_identity this_identity) ∧
    ((stub.or_assign self that).2 ≠ none →
      (stub.or_assign_move self that that_identity this_identity arena).2.1 = that ∧
      (stub.or_assign_move self that that_identity this_identity arena).2.2.1 = arena) := by
  unfold stub.or_assign_move stub.or_assign
  cases append_pairs self.elements_ that.elements_ self.location_ with
  | mk m thrown =>
    cases thrown with
    | some e => simp
    | none =>
      simp only
      cases check_overlapping m self.location_ with
      | some e => simp
      | none => simp

/-- The result of `operator|` is the receiver of the `operator|=` it runs, which
threw nothing. -/
theorem stub_op_or_ok {Op : Type} (lhs rhs s : stub Op)
    (h : stub.op_or lhs rhs = Except.ok s) :
    s = (stub.or_assign lhs rhs).1 ∧ (stub.or_assign lhs rhs).2 = none := by
  unfold stub.op_or at h
  cases hoa : stub.or_assign lhs rhs with
  | mk result thrown =>
    rw [hoa] at h
    cases thrown with
    | some e => simp at h
    | none =>
      simp only [Except.ok.injEq] at h
      exact ⟨h.symm, rfl⟩

/-- Every stub value reachable through the public operations, exceptions
included, has an element map with strictly ascending keys in which every entry
is keyed by its element's address. -/
theorem stub_reachable_well_formed {Op : Type} (after_throw : Bool) (s : stub Op)
    (h : stub.reachable after_throw s) :
    s.elements_.keys.Pairwise (· < ·) ∧ (∀ p ∈ s.elements_, p.1 = p.2.addr) := by
  have hempty : (elements_type.keys ([] : elements_type Op)).Pairwise (· < ·) :=
    List.Pairwise.nil
  have hlist : ∀ (es : List (element Op)) (location : source_location) (s : stub Op),
      stub.of_list es location = Except.ok s →
      s.elements_.keys.Pairwise (· < ·) ∧ (∀ p ∈ s.elements_, p.1 = p.2.addr) := by
    intro es location s hs
    obtain ⟨e1, _, _, _⟩ := stub_of_list_ok es location s hs
    obtain ⟨b1, _, b3, _⟩ := append_entries location es [] hempty
    rw [e1]
    refine ⟨b1, ?_⟩
    intro p hp
    rcases b3 p hp with h | ⟨e, _, he⟩
    · simp at h
    · rw [he]
  have hor : ∀ self that : stub Op,
      (self.elements_.keys.Pairwise (· < ·) ∧ (∀ p ∈ self.elements_, p.1 = p.2.addr)) →
      (that.elements_.keys.Pairwise (· < ·) ∧ (∀ p ∈ that.elements_, p.1 = p.2.addr)) →
      (stub.or_assign self that).1.elements_.keys.Pairwise (· < ·) ∧
        (∀ p ∈ (stub.or_assign self that).1.elements_, p.1 = p.2.addr) := by
    intro self that hself hthat
    obtain ⟨e1, _, _, _, _⟩ := stub_or_assign_spec self that
    rw [e1, append_pairs_eq_append self.location_ that.elements_ self.elements_ hthat.2]
    obtain ⟨b1, _, b3, _⟩ :=
      append_entries self.location_ (that.elements_.map Prod.snd) self.elements_ hself.1
    refine ⟨b1, ?_⟩
    intro p hp
    rcases b3 p hp with h | ⟨e, _, he⟩
    · exact hself.2 p h
    · rw [he]
  induction h with
  | empty location => simp [stub.empty, elements_type.keys]
  | of_list es location s hs => exact hlist es location s hs
  | of_lists lists location s hs =>
    rw [stub_of_lists_eq_of_list] at hs
    exact hlist _ location s hs
  | copy that _ ih => exact ih
  | move_construct_this that _ _ _ _ ih => exact ih
  | move_construct_that that _ _ _ _ _ => simp [stub.move_construct, elements_type.keys]
  | move_assign_this self that _ _ _ _ _ _ ih => exact ih
  | move_assign_that self that _ _ _ _ _ _ _ => simp [stub.move_assign, elements_type.keys]
  | or_assign self that _ _ _ ih1 ih2 => exact hor self that ih1 ih2
  | or_assign_move_this self that ti si arena _ _ _ ih1 ih2 =>
    rw [(stub_or_assign_move_spec self that ti si arena).1]
    exact hor self that ih1 ih2
  | or_assign_move_that self that ti si arena _ _ _ ih1 ih2 =>
    obtain ⟨_, _, h3, h4⟩ := stub_or_assign_move_spec self that ti si arena
    by_cases hn : (stub.or_assign self that).2 = none
    · rw [(h3 hn).1]
      simp [elements_type.keys]
    · rw [(h4 hn).1]
      exact ih2
  | op_or lhs rhs s _ _ hs ih1 ih2 =>
    rw [(stub_op_or_ok lhs rhs s hs).1]
    exact hor lhs rhs ih1 ih2

/-- C12 (as stated, refuted): after `sut |= that` has thrown
`overlapping_elements` for `sut = {{0x20000, 8}}` and `that = {{0x20004, 4}}`,
the stub `sut` is still alive and holds both elements, which overlap. -/
theorem stub_invariant_after_throw_counterexample :
    stub.reachable true
      (stub.or_assign
        (⟨[(0x20000, ⟨⟨0x20000, 8⟩, (), ⟨"test/stub.cxx", 117⟩⟩)], ⟨"test/stub.cxx", 117⟩⟩ :
          stub Unit)
        ⟨[(0x20004, ⟨⟨0x20004, 4⟩, (), ⟨"test/stub.cxx", 118⟩⟩)], ⟨"test/stub.cxx", 118⟩⟩).1 ∧
    (stub.or_assign
        (⟨[(0x20000, ⟨⟨0x20000, 8⟩, (), ⟨"test/stub.cxx", 117⟩⟩)], ⟨"test/stub.cxx", 117⟩⟩ :
          stub Unit)
        ⟨[(0x20004, ⟨⟨0x20004, 4⟩, (), ⟨"test/stub.cxx", 118⟩⟩)], ⟨"test/stub.cxx", 118⟩⟩).2
      = some (exception.overlapping_elements ⟨"test/stub.cxx", 117⟩
          0x20000 8 ⟨"test/stub.cxx", 117⟩ 0x20004 4 ⟨"test/stub.cxx", 118⟩) ∧
    ¬ (stub.or_assign
        (⟨[(0x20000, ⟨⟨0x20000, 8⟩, (), ⟨"test/stub.cxx", 117⟩⟩)], ⟨"test/stub.cxx", 117⟩⟩ :
          stub Unit)
        ⟨[(0x20004, ⟨⟨0x20004, 4⟩, (), ⟨"test/stub.cxx", 118⟩⟩)], ⟨"test/stub.cxx", 118⟩⟩).1.invariant := by
  refine ⟨?_, rfl, ?_⟩
  · refine stub.reachable.or_assign _ _ ?_ ?_ (Or.inl rfl)
    · exact stub.reachable.of_list [⟨⟨0x20000, 8⟩, (), ⟨"test/stub.cxx", 117⟩⟩]
        ⟨"test/stub.cxx", 117⟩ _ rfl
    · exact stub.reachable.of_list [⟨⟨0x20004, 4⟩, (), ⟨"test/stub.cxx", 118⟩⟩]
        ⟨"test/stub.cxx", 118⟩ _ rfl
  · intro h
    have h2 : (stub.or_assign
        (⟨[(0x20000, ⟨⟨0x20000, 8⟩, (), ⟨"test/stub.cxx", 117⟩⟩)], ⟨"test/stub.cxx", 117⟩⟩ :
          stub Unit)
        ⟨[(0x20004, ⟨⟨0x20004, 4⟩, (), ⟨"test/stub.cxx", 118⟩⟩)],
          ⟨"test/stub.cxx", 118⟩⟩).1.elements_
        = [(0x20000, ⟨⟨0x20000, 8⟩, (), ⟨"test/stub.cxx", 117⟩⟩),
            (0x20004, ⟨⟨0x20004, 4⟩, (), ⟨"test/stub.cxx", 118⟩⟩)] := rfl
    unfold stub.invariant at h
    rw [h2] at h
    have h3 := ((List.pairwise_cons.mp h).1 _ (List.mem_cons_self _ _)).2
    revert h3
    decide

/-- C12 (amended): every stub value reachable through the constructors, copy,
move, `operator|=` (copy and move) and `operator|`, a stub alive after a throwing
`operator|=` included, has no two elements with the same base address; and every
stub value reachable through calls that returned without exception has, in
addition, no two elements with overlapping regions. -/
theorem stub_reachable_invariant {Op : Type} (after_throw : Bool) (s : stub Op)
    (h : stub.reachable after_throw s) :
    s.distinct_addresses ∧ (after_throw = false → s.invariant) := by
  have hwf := stub_reachable_well_formed after_throw s h
  constructor
  · unfold stub.distinct_addresses
    have hlt : s.elements_.Pairwise (fun p q => p.1 < q.1) := List.pairwise_map.mp hwf.1
    refine List.Pairwise.imp_of_mem ?_ hlt
    intro p q hp hq hpq
    rw [← hwf.2 p hp, ← hwf.2 q hq]
    omega
  · intro hf
    subst hf
    have hchecked : ∀ (t : stub Op) (location : source_location),
        stub.reachable false t → check_overlapping t.elements_ location = none →
        t.invariant := by
      intro t location ht hc
      obtain ⟨w1, w2⟩ := stub_reachable_well_formed false t ht
      exact (check_overlapping_eq_none_iff_pairwise t.elements_ location w1 w2).mp hc
    have hor : ∀ self that : stub Op, stub.reachable false self → stub.reachable false that →
        (stub.or_assign self that).2 = none → (stub.or_assign self that).1.invariant := by
      intro self that hs ht hn
      obtain ⟨e1, _, e3, _, _⟩ := stub_or_assign_spec self that
      refine hchecked _ self.location_ (stub.reachable.or_assign self that hs ht (Or.inr hn)) ?_
      rw [e1]
      exact (e3.mp hn).2
    have hnil : ∀ location : source_location,
        stub.invariant ({ elements_ := [], location_ := location } : stub Op) := by
      intro location
      exact List.Pairwise.nil
    induction h with
    | empty location => exact hnil location
    | of_list es location s hs =>
      exact hchecked s location (stub.reachable.of_list es location s hs)
        (stub_of_list_ok es location s hs).2.2.2
    | of_lists lists location s hs =>
      have hs2 := hs
      rw [stub_of_lists_eq_of_list] at hs2
      exact hchecked s location (stub.reachable.of_lists lists location s hs)
        (stub_of_list_ok _ location s hs2).2.2.2
    | copy that hthat ih => exact ih (stub_reachable_well_formed false that hthat)
    | move_construct_this that _ _ _ hthat ih =>
      exact ih (stub_reachable_well_formed false that hthat)
    | move_construct_that that _ _ _ _ _ => exact hnil that.location_
    | move_assign_this self that _ _ _ _ hthat _ ih =>
      exact ih (stub_reachable_well_formed false that hthat)
    | move_assign_that self that _ _ _ _ _ _ _ => exact hnil that.location_
    | or_assign self that hs ht hcond _ _ =>
      rcases hcond with hc | hc
      · cases hc
      · exact hor self that hs ht hc
    | or_assign_move_this self that ti si arena hs ht hcond _ _ =>
      obtain ⟨m1, m2, _, _⟩ := stub_or_assign_move_spec self that ti si arena
      rcases hcond with hc | hc
      · cases hc
      · rw [m1]
        exact hor self that hs ht (m2 ▸ hc)
    | or_assign_move_that self that ti si arena hs ht hcond _ _ =>
      obtain ⟨_, m2, m3, _⟩ := stub_or_assign_move_spec self that ti si arena
      rcases hcond with hc | hc
      · cases hc
      · rw [(m3 (m2 ▸ hc)).1]
        exact hnil that.location_
    | op_or lhs rhs s hl hr hs _ _ =>
      obtain ⟨e1, e2⟩ := stub_op_or_ok lhs rhs s hs
      rw [e1]
      exact hor lhs rhs hl hr e2

/-- Witness of C12 (amended) at the stub constructed from `{0x1000, 8}` and
`{0x1010, 16}`. -/
theorem stub_reachable_invariant_witness :
    stub.distinct_addresses
      (⟨[(0x1000, ⟨⟨0x1000, 8⟩, (), ⟨"test", 36⟩⟩), (0x1010, ⟨⟨0x1010, 16⟩, (), ⟨"test", 37⟩⟩)],
        ⟨"test", 35⟩⟩ : stub Unit) ∧
    (false = false →
      stub.invariant
        (⟨[(0x1000, ⟨⟨0x1000, 8⟩, (), ⟨"test", 36⟩⟩),
            (0x1010, ⟨⟨0x1010, 16⟩, (), ⟨"test", 37⟩⟩)], ⟨"test", 35⟩⟩ : stub Unit)) :=
  stub_reachable_invariant false _
    (stub.reachable.of_list
      [⟨⟨0x1000, 8⟩, (), ⟨"test", 36⟩⟩, ⟨⟨0x1010, 16⟩, (), ⟨"test", 37⟩⟩] ⟨"test", 35⟩ _ rfl)

/-! ## Theorems: union of stubs -/

/-- C13 (as stated, refuted): for `lhs = rhs = {{0x1000, 8}}` an element of one
overlaps an element of the other, yet `lhs | rhs` throws `duplicate_address`
and not `overlapping_elements`: the duplicate check runs first. -/
theorem stub_op_or_overlapping_counterexample :
    element.overlapping
      (⟨⟨0x1000, 8⟩, (), ⟨"test/stub.cxx", 30⟩⟩ : element Unit)
      ⟨⟨0x1000, 8⟩, (), ⟨"test/stub.cxx", 123⟩⟩ = true ∧
    throws_duplicate_address (stub.op_or
      (⟨[(0x1000, ⟨⟨0x1000, 8⟩, (), ⟨"test/stub.cxx", 30⟩⟩)], ⟨"test/stub.cxx", 30⟩⟩ :
        stub Unit)
      ⟨[(0x1000, ⟨⟨0x1000, 8⟩, (), ⟨"test/stub.cxx", 123⟩⟩)], ⟨"test/stub.cxx", 123⟩⟩)
      = true ∧
    throws_overlapping_elements (stub.op_or
      (⟨[(0x1000, ⟨⟨0x1000, 8⟩, (), ⟨"test/stub.cxx", 30⟩⟩)], ⟨"test/stub.cxx", 30⟩⟩ :
        stub Unit)
      ⟨[(0x1000, ⟨⟨0x1000, 8⟩, (), ⟨"test/stub.cxx", 123⟩⟩)], ⟨"test/stub.cxx", 123⟩⟩)
      = false := by
  refine ⟨by decide, by decide, by decide⟩

/-- C13 (amended): for stubs `lhs` and `rhs` whose combined elements have
distinct base addresses and no overlapping regions, `lhs | rhs` does not throw,
its element map is the union of both maps (`element_count` is the sum) and it has
the location of `lhs`; if a base address occurs in both it throws
`duplicate_address`; and if no base address occurs in both and some element of
one overlaps an element of the other it throws `overlapping_elements`. -/
theorem stub_op_or_spec {Op : Type} (lhs rhs : stub Op)
    (hl : lhs.well_formed) (hr : rhs.well_formed) :
    ((lhs.elements_ ++ rhs.elements_).Pairwise
        (fun p q => p.2.addr ≠ q.2.addr ∧ element.overlapping p.2 q.2 = false) →
      ∃ s, stub.op_or lhs rhs = Except.ok s ∧
        (∀ p, p ∈ s.elements_ ↔ (p ∈ lhs.elements_ ∨ p ∈ rhs.elements_)) ∧
        s.element_count = lhs.element_count + rhs.element_count ∧
        s.location_ = lhs.location_) ∧
    ((∃ p ∈ lhs.elements_, ∃ q ∈ rhs.elements_, p.2.addr = q.2.addr) →
      throws_duplicate_address (stub.op_or lhs rhs) = true) ∧
    ((¬ ∃ p ∈ lhs.elements_, ∃ q ∈ rhs.elements_, p.2.addr = q.2.addr) →
      (∃ p ∈ lhs.elements_, ∃ q ∈ rhs.elements_, element.overlapping p.2 q.2 = true) →
      throws_overlapping_elements (stub.op_or lhs rhs) = true) := by
  obtain ⟨hls, hlk⟩ := hl
  obtain ⟨hrs, hrk⟩ := hr
  have hsymm : Symmetric (fun p q : Nat × element Op =>
      p.2.addr ≠ q.2.addr ∧ element.overlapping p.2 q.2 = false) := by
    intro p q hpq
    exact ⟨fun h => hpq.1 h.symm, by rw [element_overlapping_comm]; exact hpq.2⟩
  have happ : append_pairs lhs.elements_ rhs.elements_ lhs.location_
      = append lhs.elements_ (rhs.elements_.map Prod.snd) lhs.location_ :=
    append_pairs_eq_append lhs.location_ rhs.elements_ lhs.elements_ hrk
  obtain ⟨a1, a2, a3⟩ := append_spec lhs.location_ (rhs.elements_.map Prod.snd)
    lhs.elements_ hls
  obtain ⟨b1, b2, b3, b4⟩ := append_entries lhs.location_ (rhs.elements_.map Prod.snd)
    lhs.elements_ hls
  obtain ⟨o1, o2, o3, o4, o5⟩ := stub_or_assign_spec lhs rhs
  rw [happ] at o1 o3 o4 o5
  have hsnd : ∀ q ∈ rhs.elements_, (q.2.addr, q.2) = q := by
    intro q hq
    rw [← hrk q hq]
  have hrnodup : ((rhs.elements_.map Prod.snd).map element.addr).Nodup := by
    have hlt : rhs.elements_.Pairwise (fun p q => p.1 < q.1) := List.pairwise_map.mp hrs
    rw [List.map_map]
    refine List.pairwise_map.mpr (List.Pairwise.imp_of_mem ?_ hlt)
    intro p q hp hq hpq
    show p.2.addr ≠ q.2.addr
    rw [← hrk p hp, ← hrk q hq]
    omega
  have hnone_iff : (append lhs.elements_ (rhs.elements_.map Prod.snd) lhs.location_).2 = none ↔
      ¬ ∃ p ∈ lhs.elements_, ∃ q ∈ rhs.elements_, p.2.addr = q.2.addr := by
    rw [a1]
    constructor
    · rintro ⟨_, h⟩ ⟨p, hp, q, hq, hpq⟩
      apply h q.2 (List.mem_map.mpr ⟨q, hq, rfl⟩)
      rw [← hpq, ← hlk p hp]
      exact List.mem_map.mpr ⟨p, hp, rfl⟩
    · intro h
      refine ⟨hrnodup, ?_⟩
      intro e he hin
      obtain ⟨q, hq, hqe⟩ := List.mem_map.mp he
      obtain ⟨p, hp, hpe⟩ := List.mem_map.mp hin
      apply h
      refine ⟨p, hp, q, hq, ?_⟩
      rw [← hlk p hp, hpe, hqe]
  have hmem : (append lhs.elements_ (rhs.elements_.map Prod.snd) lhs.location_).2 = none →
      ∀ p, p ∈ (append lhs.elements_ (rhs.elements_.map Prod.snd) lhs.location_).1 ↔
        (p ∈ lhs.elements_ ∨ p ∈ rhs.elements_) := by
    intro hn p
    constructor
    · intro hp
      rcases b3 p hp with h | ⟨e, he, hpe⟩
      · exact Or.inl h
      · obtain ⟨q, hq, hqe⟩ := List.mem_map.mp he
        right
        rw [hpe, ← hqe, hsnd q hq]
        exact hq
    · rintro (h | h)
      · exact b2 p h
      · have := b4 hn p.2 (List.mem_map.mpr ⟨p, h, rfl⟩)
        rw [hsnd p h] at this
        exact this
  have hkeyed : ∀ p ∈ (append lhs.elements_ (rhs.elements_.map Prod.snd) lhs.location_).1,
      p.1 = p.2.addr := by
    intro p hp
    rcases b3 p hp with h | ⟨e, _, he⟩
    · exact hlk p h
    · rw [he]
  refine ⟨?_, ?_, ?_⟩
  · intro hpw
    have hnodup : ¬ ∃ p ∈ lhs.elements_, ∃ q ∈ rhs.elements_, p.2.addr = q.2.addr := by
      rintro ⟨p, hp, q, hq, hpq⟩
      exact (List.pairwise_append.mp hpw).2.2 p hp q hq |>.1 hpq
    have hn := hnone_iff.mpr hnodup
    have hcheck : check_overlapping
        (append lhs.elements_ (rhs.elements_.map Prod.snd) lhs.location_).1
        lhs.location_ = none := by
      rw [check_overlapping_eq_none_iff_pairwise _ _ b1 hkeyed]
      have hlt := List.pairwise_map.mp b1
      refine List.Pairwise.imp_of_mem ?_ hlt
      intro p q hp hq hpq
      have hne : p ≠ q := by
        intro h
        rw [h] at hpq
        exact lt_irrefl _ hpq
      exact List.Pairwise.forall hsymm hpw
        (List.mem_append.mpr ((hmem hn p).mp hp))
        (List.mem_append.mpr ((hmem hn q).mp hq)) hne
    have hex : (stub.or_assign lhs rhs).2 = none := o3.mpr ⟨hn, hcheck⟩
    refine ⟨(stub.or_assign lhs rhs).1, ?_, ?_, ?_, o2⟩
    · unfold stub.op_or
      cases hoa : stub.or_assign lhs rhs with
      | mk result thrown =>
        rw [hoa] at hex
        simp only at hex
        subst hex
        rfl
    · rw [o1]
      exact hmem hn
    · unfold stub.element_count
      rw [o1, (a2 hn).2.2, List.length_map]
  · intro hdup
    have hsome : (append lhs.elements_ (rhs.elements_.map Prod.snd) lhs.location_).2 ≠ none :=
      fun h => hnone_iff.mp h hdup
    cases hap : (append lhs.elements_ (rhs.elements_.map Prod.snd) lhs.location_).2 with
    | none => exact absurd hap hsome
    | some e =>
      have hthrown := o4 e hap
      have hd := a3 e hap
      unfold stub.op_or
      cases hoa : stub.or_assign lhs rhs with
      | mk result thrown =>
        rw [hoa] at hthrown
        simp only at hthrown
        subst hthrown
        simpa [throws_duplicate_address] using hd
  · intro hnodup ⟨p, hp, q, hq, hov⟩
    have hn := hnone_iff.mpr hnodup
    have hcheck : check_overlapping
        (append lhs.elements_ (rhs.elements_.map Prod.snd) lhs.location_).1
        lhs.location_ ≠ none := by
      intro hc
      rw [check_overlapping_eq_none_iff_pairwise _ _ b1 hkeyed] at hc
      have hne : p ≠ q := by
        intro h
        apply hnodup
        exact ⟨p, hp, q, hq, by rw [h]⟩
      have := (List.Pairwise.forall hsymm hc ((hmem hn p).mpr (Or.inl hp))
        ((hmem hn q).mpr (Or.inr hq)) hne).2
      simp only at this
      rw [hov] at this
      cases this
    cases hc : check_overlapping
        (append lhs.elements_ (rhs.elements_.map Prod.snd) lhs.location_).1
        lhs.location_ with
    | none => exact absurd hc hcheck
    | some e =>
      have hthrown := o5 hn
      rw [hc] at hthrown
      have he := (check_overlapping_throws _ _ e hc).1
      unfold stub.op_or
      cases hoa : stub.or_assign lhs rhs with
      | mk result thrown =>
        rw [hoa] at hthrown
        simp only at hthrown
        subst hthrown
        simpa [throws_overlapping_elements] using he

/-- Witness of C13 (amended) at `lhs = {{0x20000, 4}}` and `rhs = {{0x20004, 4}}`. -/
theorem stub_op_or_spec_witness :
    ∃ s, stub.op_or
        (⟨[(0x20000, ⟨⟨0x20000, 4⟩, (), ⟨"test/stub.cxx", 128⟩⟩)], ⟨"test/stub.cxx", 128⟩⟩ :
          stub Unit)
        ⟨[(0x20004, ⟨⟨0x20004, 4⟩, (), ⟨"test/stub.cxx", 129⟩⟩)], ⟨"test/stub.cxx", 129⟩⟩
        = Except.ok s ∧
      (∀ p, p ∈ s.elements_ ↔
        (p ∈ [(0x20000, (⟨⟨0x20000, 4⟩, (), ⟨"test/stub.cxx", 128⟩⟩ : element Unit))] ∨
          p ∈ [(0x20004, (⟨⟨0x20004, 4⟩, (), ⟨"test/stub.cxx", 129⟩⟩ : element Unit))])) ∧
      s.element_count = 1 + 1 ∧
      s.location_ = ⟨"test/stub.cxx", 128⟩ :=
  (stub_op_or_spec
    (⟨[(0x20000, ⟨⟨0x20000, 4⟩, (), ⟨"test/stub.cxx", 128⟩⟩)], ⟨"test/stub.cxx", 128⟩⟩ :
      stub Unit)
    ⟨[(0x20004, ⟨⟨0x20004, 4⟩, (), ⟨"test/stub.cxx", 129⟩⟩)], ⟨"test/stub.cxx", 129⟩⟩
    ⟨by decide, by decide⟩ ⟨by decide, by decide⟩).1 (by decide)

/-! ## Theorems: the arena -/

/-- The member `mmio::claim` leaves `allocation_size()` unchanged. -/
theorem mmio_claim_allocation_size (a : mmio) (looserid claimerid : Nat) :
    (a.claim looserid claimerid).allocation_size = a.allocation_size := by
  unfold mmio.allocation_size mmio.claim
  simp only
  rw [List.foldl_map]
  have hfun : (fun (x : Nat) (y : Nat × allocation) =>
      (x + (if y.2.owner = looserid then
          (y.1, ({ range := y.2.range, owner := claimerid, location := y.2.location } :
            allocation))
        else y).2.range.size) % word_modulus)
      = (fun result i => (result + i.2.range.size) % word_modulus) := by
    funext x y
    split <;> rfl
  rw [hfun]

/-- C14: move construction and move assignment leave the source with 0 elements,
give the destination exactly the former elements of the source and leave the
total allocation size of the arena unchanged; the move form of `operator|=`
leaves the allocation size unchanged, and when it returns it has emptied the
source (when it throws, the source and the arena are as before). -/
theorem stub_move_spec {Op : Type} (self that : stub Op) (that_identity this_identity : Nat)
    (arena : mmio) :
    ((stub.move_construct that that_identity this_identity arena).2.1.element_count = 0 ∧
      (stub.move_construct that that_identity this_identity arena).1.elements_
        = that.elements_ ∧
      (stub.move_construct that that_identity this_identity arena).2.2.allocation_size
        = arena.allocation_size) ∧
    ((stub.move_assign self that that_identity this_identity arena).2.1.element_count = 0 ∧
      (stub.move_assign self that that_identity this_identity arena).1.elements_
        = that.elements_ ∧
      (stub.move_assign self that that_identity this_identity arena).2.2.allocation_size
        = arena.allocation_size) ∧
    ((stub.or_assign_move self that that_identity this_identity arena).2.2.1.allocation_size
        = arena.allocation_size ∧
      ((stub.or_assign_move self that that_identity this_identity arena).2.2.2 = none →
        (stub.or_assign_move self that that_identity this_identity arena).2.1.element_count
          = 0) ∧
      ((stub.or_assign_move self that that_identity this_identity arena).2.2.2 ≠ none →
        (stub.or_assign_move self that that_identity this_identity arena).2.1 = that ∧
        (stub.or_assign_move self that that_identity this_identity arena).2.2.1 = arena)) := by
  refine ⟨⟨rfl, rfl, ?_⟩, ⟨rfl, rfl, ?_⟩, ?_⟩
  · exact mmio_claim_allocation_size arena that_identity this_identity
  · exact mmio_claim_allocation_size arena that_identity this_identity
  · obtain ⟨_, m2, m3, m4⟩ := stub_or_assign_move_spec self that that_identity this_identity arena
    rw [m2]
    by_cases hn : (stub.or_assign self that).2 = none
    · obtain ⟨e1, e2⟩ := m3 hn
      rw [e1, e2]
      exact ⟨mmio_claim_allocation_size arena that_identity this_identity,
        fun _ => rfl, fun h => absurd hn h⟩
    · obtain ⟨e1, e2⟩ := m4 hn
      rw [e1, e2]
      exact ⟨rfl, fun h => absurd h hn, fun _ => ⟨rfl, rfl⟩⟩

/-- Witness of C14: `sut |= std::move(src)` for an empty `sut` and
`src = {{0x10004, 16}}`, whose page `0x10` is allocated, returns and empties `src`. -/
theorem stub_move_spec_witness :
    (stub.or_assign_move (stub.empty ⟨"test/stub.cxx", 169⟩ : stub Unit)
      ⟨[(0x10004, ⟨⟨0x10004, 16⟩, (), ⟨"test/stub.cxx", 167⟩⟩)], ⟨"test/stub.cxx", 167⟩⟩
      1 2 ⟨[(0x10, ⟨⟨0x10, 1⟩, 1, ⟨"test/stub.cxx", 167⟩⟩)], [], none⟩).2.1.element_count = 0 :=
  (stub_move_spec (stub.empty ⟨"test/stub.cxx", 169⟩ : stub Unit)
    ⟨[(0x10004, ⟨⟨0x10004, 16⟩, (), ⟨"test/stub.cxx", 167⟩⟩)], ⟨"test/stub.cxx", 167⟩⟩
    1 2 ⟨[(0x10, ⟨⟨0x10, 1⟩, 1, ⟨"test/stub.cxx", 167⟩⟩)], [], none⟩).2.2.2.1 rfl

/-- C15: `mmio::claim(loser, claimer)` keeps the keys, the page range and the
location of every record, sets the owner of the records owned by the loser to
the claimer and keeps every other owner, leaves listeners and fill value alone;
afterwards no record is owned by the loser when loser and claimer differ. -/
theorem mmio_claim_spec (a : mmio) (looserid claimerid : Nat) :
    (a.claim looserid claimerid).allocations_.map Prod.fst = a.allocations_.map Prod.fst ∧
    (a.claim looserid claimerid).allocations_.map (fun i => (i.2.range, i.2.location))
      = a.allocations_.map (fun i => (i.2.range, i.2.location)) ∧
    (a.claim looserid claimerid).allocations_.map (fun i => i.2.owner)
      = a.allocations_.map
          (fun i => if i.2.owner = looserid then claimerid else i.2.owner) ∧
    (a.claim looserid claimerid).listeners_ = a.listeners_ ∧
    (a.claim looserid claimerid).fill_ = a.fill_ ∧
    (looserid ≠ claimerid →
      ∀ i ∈ (a.claim looserid claimerid).allocations_, i.2.owner ≠ looserid) := by
  unfold mmio.claim
  simp only [List.map_map]
  refine ⟨?_, ?_, ?_, trivial, trivial, ?_⟩
  · apply List.map_congr_left
    intro i _
    simp only [Function.comp]
    split <;> rfl
  · apply List.map_congr_left
    intro i _
    simp only [Function.comp]
    split <;> rfl
  · apply List.map_congr_left
    intro i _
    simp only [Function.comp]
    split <;> rfl
  · intro hne i hi
    obtain ⟨j, _, hji⟩ := List.mem_map.mp hi
    by_cases hj : j.2.owner = looserid
    · rw [if_pos hj] at hji
      rw [← hji]
      exact fun h => hne h.symm
    · rw [if_neg hj] at hji
      rw [← hji]
      exact hj

/-- Witness of C15 at an arena with one record of owner 1 and one of owner 2,
claimed from owner 1 by owner 3. -/
theorem mmio_claim_spec_witness :
    ∀ i ∈ (mmio.claim
        ⟨[(0x10, ⟨⟨0x10, 1⟩, 1, ⟨"a", 1⟩⟩), (0x20, ⟨⟨0x20, 2⟩, 2, ⟨"b", 2⟩⟩)], [], none⟩
        1 3).allocations_, i.2.owner ≠ 1 :=
  (mmio_claim_spec
    ⟨[(0x10, ⟨⟨0x10, 1⟩, 1, ⟨"a", 1⟩⟩), (0x20, ⟨⟨0x20, 2⟩, 2, ⟨"b", 2⟩⟩)], [], none⟩
    1 3).2.2.2.2.2 (by decide)

/-- The lookup by key finds an entry of the allocation map stored under that
key, and finds nothing exactly when the key is absent. -/
theorem allocations_at_spec (a : mmio) (key : Nat) :
    (∀ previous, a.allocations_at key = some previous → (key, previous) ∈ a.allocations_) ∧
    (a.allocations_at key = none ↔ key ∉ a.allocations_.map Prod.fst) := by
  unfold mmio.allocations_at
  constructor
  · intro previous h
    cases hf : a.allocations_.find? (fun i => decide (i.1 = key)) with
    | none => rw [hf] at h; simp at h
    | some i =>
      rw [hf] at h
      simp only [Option.map_some', Option.some.injEq] at h
      have h1 := List.find?_some hf
      have h2 := List.mem_of_find?_eq_some hf
      simp only [decide_eq_true_eq] at h1
      rw [← h1, ← h]
      exact h2
  · rw [Option.map_eq_none', List.find?_eq_none]
    simp only [decide_eq_true_eq, List.mem_map, not_exists, not_and]

/-- On a map with strictly ascending keys, `emplace` leaves the map as it is
when the key is present, and otherwise adds the entry and keeps the keys
strictly ascending. -/
theorem map_emplace_spec {α : Type} (key : Nat) (value : α) :
    ∀ m : List (Nat × α), (m.map Prod.fst).Pairwise (· < ·) →
      (key ∈ m.map Prod.fst → map_emplace m key value = m) ∧
      (key ∉ m.map Prod.fst →
        ((map_emplace m key value).map Prod.fst).Pairwise (· < ·) ∧
        ∀ p, p ∈ map_emplace m key value ↔ (p = (key, value) ∨ p ∈ m)) := by
  intro m
  induction m with
  | nil =>
    intro _
    simp [map_emplace]
  | cons head rest ih =>
    obtain ⟨k, v⟩ := head
    intro hs
    have hs2 : (k :: rest.map Prod.fst).Pairwise (· < ·) := by simpa using hs
    obtain ⟨hk, hrest⟩ := List.pairwise_cons.mp hs2
    obtain ⟨ih1, ih2⟩ := ih hrest
    by_cases h1 : key < k
    · have hme : map_emplace ((k, v) :: rest) key value = (key, value) :: (k, v) :: rest := by
        simp [map_emplace, h1]
      rw [hme]
      constructor
      · intro hin
        exfalso
        simp only [List.map_cons, List.mem_cons] at hin
        rcases hin with h | h
        · omega
        · have := hk key h; omega
      · intro _
        refine ⟨?_, fun p => by simp⟩
        show (key :: k :: rest.map Prod.fst).Pairwise (· < ·)
        refine List.pairwise_cons.mpr ⟨?_, hs2⟩
        intro x hx
        rcases List.mem_cons.mp hx with h | h
        · omega
        · have := hk x h; omega
    · by_cases h2 : key = k
      · have hme : map_emplace ((k, v) :: rest) key value = (k, v) :: rest := by
          simp [map_emplace, h2]
        rw [hme]
        refine ⟨fun _ => rfl, fun h => ?_⟩
        exact absurd (by simp [h2]) h
      · have hme : map_emplace ((k, v) :: rest) key value
            = (k, v) :: map_emplace rest key value := by
          simp [map_emplace, h1, h2]
        rw [hme]
        have hmem : key ∈ ((k, v) :: rest).map Prod.fst ↔ key ∈ rest.map Prod.fst := by
          simp only [List.map_cons, List.mem_cons]
          constructor
          · rintro (h | h)
            · exact absurd h h2
            · exact h
          · exact Or.inr
        constructor
        · intro h
          rw [ih1 (hmem.mp h)]
        · intro h
          obtain ⟨r1, r2⟩ := ih2 (fun hh => h (hmem.mpr hh))
          constructor
          · show (k :: (map_emplace rest key value).map Prod.fst).Pairwise (· < ·)
            refine List.pairwise_cons.mpr ⟨?_, r1⟩
            intro x hx
            obtain ⟨p, hp, hpx⟩ := List.mem_map.mp hx
            rcases (r2 p).mp hp with hp1 | hp1
            · rw [← hpx, hp1]
              show k < key
              omega
            · exact hk x (List.mem_map.mpr ⟨p, hp1, hpx⟩)
          · intro p
            simp only [List.mem_cons, r2 p]
            constructor
            · rintro (h | h | h)
              · exact Or.inr (Or.inl h)
              · exact Or.inl h
              · exact Or.inr (Or.inr h)
            · rintro (h | h | h)
              · exact Or.inr (Or.inl h)
              · exact Or.inl h
              · exact Or.inr (Or.inr h)

/-- The member `pagerange::operator==` holds exactly for equal ranges. -/
theorem pagerange_op_eq_iff (p r : pagerange) : p.op_eq r = true ↔ p = r := by
  unfold pagerange.op_eq pagerange.begin pagerange.size
  simp only [Bool.and_eq_true, decide_eq_true_eq]
  constructor
  · rintro ⟨h1, h2⟩
    cases p; cases r
    simp only at h1 h2
    subst h1; subst h2; rfl
  · intro h; subst h; exact ⟨rfl, rfl⟩

/-- C16: when the arena holds a record keyed by the requested first page with
the same owner identity and the same page range, validation passes, `allocate`
does not throw when the `mmap` call succeeds, and the allocation records are
unchanged (whatever the `mmap` call answers). -/
theorem mmio_allocate_idempotent (a : mmio) (requested : pagerange) (owner_identity : Nat)
    (owner_location : source_location) (previous : allocation)
    (hwf : a.well_formed)
    (hat : a.allocations_at requested.begin = some previous)
    (ho : previous.owner = owner_identity) (hr : previous.range = requested) :
    a.validate requested owner_identity owner_location = none ∧
    (a.allocate true requested owner_identity owner_location).2.2 = none ∧
    (∀ mmap_ok,
      (a.allocate mmap_ok requested owner_identity owner_location).1.allocations_
        = a.allocations_) := by
  have hv : a.validate requested owner_identity owner_location = none := by
    unfold mmio.validate
    rw [hat]
    simp only
    rw [if_pos ho, hr, if_pos ((pagerange_op_eq_iff requested requested).mpr rfl)]
  have hin : requested.begin ∈ a.allocations_.map Prod.fst :=
    List.mem_map.mpr ⟨_, (allocations_at_spec a requested.begin).1 previous hat, rfl⟩
  have hme := (map_emplace_spec requested.begin
    ({ range := requested, owner := owner_identity, location := owner_location } : allocation)
    a.allocations_ hwf).1 hin
  refine ⟨hv, ?_, ?_⟩
  · unfold mmio.allocate
    rw [hv]
    rfl
  · intro mmap_ok
    unfold mmio.allocate
    rw [hv]
    cases mmap_ok with
    | true => simp only [if_true]; exact hme
    | false => rfl

/-- Witness of C16: page `0x10` allocated by owner 1 is requested again by owner 1. -/
theorem mmio_allocate_idempotent_witness :
    mmio.validate ⟨[(0x10, ⟨⟨0x10, 1⟩, 1, ⟨"test/stub.cxx", 94⟩⟩)], [], none⟩
      ⟨0x10, 1⟩ 1 ⟨"test/stub.cxx", 94⟩ = none ∧
    (mmio.allocate ⟨[(0x10, ⟨⟨0x10, 1⟩, 1, ⟨"test/stub.cxx", 94⟩⟩)], [], none⟩ true
      ⟨0x10, 1⟩ 1 ⟨"test/stub.cxx", 94⟩).2.2 = none ∧
    (∀ mmap_ok,
      (mmio.allocate ⟨[(0x10, ⟨⟨0x10, 1⟩, 1, ⟨"test/stub.cxx", 94⟩⟩)], [], none⟩ mmap_ok
        ⟨0x10, 1⟩ 1 ⟨"test/stub.cxx", 94⟩).1.allocations_
        = [(0x10, ⟨⟨0x10, 1⟩, 1, ⟨"test/stub.cxx", 94⟩⟩)]) :=
  mmio_allocate_idempotent ⟨[(0x10, ⟨⟨0x10, 1⟩, 1, ⟨"test/stub.cxx", 94⟩⟩)], [], none⟩
    ⟨0x10, 1⟩ 1 ⟨"test/stub.cxx", 94⟩ ⟨⟨0x10, 1⟩, 1, ⟨"test/stub.cxx", 94⟩⟩
    (by decide) rfl rfl rfl

/-- C17: when the arena holds a record keyed by the requested first page that
differs from the request in page range or in owner identity, `allocate` throws
`conflicting_allocation`, makes no call to the operating system or to listeners,
and leaves the arena unchanged. -/
theorem mmio_allocate_conflicting_key (a : mmio) (mmap_ok : Bool) (requested : pagerange)
    (owner_identity : Nat) (owner_location : source_location) (previous : allocation)
    (hat : a.allocations_at requested.begin = some previous)
    (hdiff : previous.range ≠ requested ∨ previous.owner ≠ owner_identity) :
    (∃ e, (a.allocate mmap_ok requested owner_identity owner_location).2.2 = some e ∧
      e.is_conflicting_allocation = true) ∧
    (a.allocate mmap_ok requested owner_identity owner_location).2.1 = [] ∧
    (a.allocate mmap_ok requested owner_identity owner_location).1.allocations_
      = a.allocations_ ∧
    (a.allocate mmap_ok requested owner_identity owner_location).1.listeners_ = a.listeners_ ∧
    (a.allocate mmap_ok requested owner_identity owner_location).1.fill_ = a.fill_ := by
  have hv : ∃ e, a.validate requested owner_identity owner_location = some e ∧
      e.is_conflicting_allocation = true := by
    unfold mmio.validate
    rw [hat]
    simp only
    by_cases ho : previous.owner = owner_identity
    · rw [if_pos ho]
      have hne : previous.range ≠ requested := by
        rcases hdiff with h | h
        · exact h
        · exact absurd ho h
      have hop : ¬ previous.range.op_eq requested = true :=
        fun h => hne ((pagerange_op_eq_iff _ _).mp h)
      rw [if_neg hop]
      exact ⟨_, rfl, rfl⟩
    · rw [if_neg ho]
      exact ⟨_, rfl, rfl⟩
  obtain ⟨e, he, hce⟩ := hv
  unfold mmio.allocate
  rw [he]
  exact ⟨⟨e, rfl, hce⟩, rfl, rfl, rfl, rfl⟩

/-- Witness of C17: pages `[1, 2)` are recorded for owner 1 (a stub declaring
`{0x1000, 16}`) and owner 2 (a stub declaring `{0x1004, 32}`) requests the same
page. -/
theorem mmio_allocate_conflicting_key_witness :
    (∃ e, (mmio.allocate ⟨[(1, ⟨⟨1, 1⟩, 1, ⟨"first", 1⟩⟩)], [], none⟩ true
        ⟨1, 1⟩ 2 ⟨"second", 2⟩).2.2 = some e ∧
      e.is_conflicting_allocation = true) ∧
    (mmio.allocate ⟨[(1, ⟨⟨1, 1⟩, 1, ⟨"first", 1⟩⟩)], [], none⟩ true
        ⟨1, 1⟩ 2 ⟨"second", 2⟩).2.1 = [] ∧
    (mmio.allocate ⟨[(1, ⟨⟨1, 1⟩, 1, ⟨"first", 1⟩⟩)], [], none⟩ true
        ⟨1, 1⟩ 2 ⟨"second", 2⟩).1.allocations_ = [(1, ⟨⟨1, 1⟩, 1, ⟨"first", 1⟩⟩)] ∧
    (mmio.allocate ⟨[(1, ⟨⟨1, 1⟩, 1, ⟨"first", 1⟩⟩)], [], none⟩ true
        ⟨1, 1⟩ 2 ⟨"second", 2⟩).1.listeners_ = [] ∧
    (mmio.allocate ⟨[(1, ⟨⟨1, 1⟩, 1, ⟨"first", 1⟩⟩)], [], none⟩ true
        ⟨1, 1⟩ 2 ⟨"second", 2⟩).1.fill_ = none :=
  mmio_allocate_conflicting_key ⟨[(1, ⟨⟨1, 1⟩, 1, ⟨"first", 1⟩⟩)], [], none⟩ true
    ⟨1, 1⟩ 2 ⟨"second", 2⟩ ⟨⟨1, 1⟩, 1, ⟨"first", 1⟩⟩ rfl (Or.inr (by decide))

/-- C18 (the code at the failing input): owner 1 holds pages `[10, 12)`, owner 2
holds pages `[20, 22)`, both allocated from the empty arena; owner 1 requests
pages `[11, 21)`. The record of owner 2 overlaps the request, yet `allocate`
throws nothing: the scan stops at the first overlapping record, which belongs
to the requester. -/
theorem mmio_allocate_misses_other_owner :
    ((mmio.initial.allocate true ⟨10, 2⟩ 1 ⟨"first", 1⟩).1.allocate true
        ⟨20, 2⟩ 2 ⟨"second", 2⟩).1.allocations_
      = [(10, ⟨⟨10, 2⟩, 1, ⟨"first", 1⟩⟩), (20, ⟨⟨20, 2⟩, 2, ⟨"second", 2⟩⟩)] ∧
    (∃ i ∈ ((mmio.initial.allocate true ⟨10, 2⟩ 1 ⟨"first", 1⟩).1.allocate true
        ⟨20, 2⟩ 2 ⟨"second", 2⟩).1.allocations_,
      i.2.owner ≠ 1 ∧ pagerange.overlapping ⟨11, 10⟩ i.2.range = true) ∧
    (((mmio.initial.allocate true ⟨10, 2⟩ 1 ⟨"first", 1⟩).1.allocate true
        ⟨20, 2⟩ 2 ⟨"second", 2⟩).1.allocate true ⟨11, 10⟩ 1 ⟨"first", 1⟩).2.2 = none := by
  refine ⟨rfl, ?_, rfl⟩
  exact ⟨(20, ⟨⟨20, 2⟩, 2, ⟨"second", 2⟩⟩), by decide, by decide, by decide⟩

/-- The loop of `std::erase_if` in `mmio::deallocate` keeps exactly the entries
of other owners, in order, and makes for every entry of the owner, in order, the
listener calls followed by the `munmap` call. -/
theorem erase_owned_spec (a : mmio) (identity : Nat) :
    ∀ m : List (Nat × allocation),
      (a.erase_owned identity m).1 = m.filter (fun i => decide (i.2.owner ≠ identity)) ∧
      (a.erase_owned identity m).2
        = (m.filter (fun i => decide (i.2.owner = identity))).flatMap
            (fun i => a.notify i.2.range i.2.location ++ [event.munmap i.2.range]) := by
  intro m
  induction m with
  | nil => simp [mmio.erase_owned]
  | cons i rest ih =>
    obtain ⟨ih1, ih2⟩ := ih
    unfold mmio.erase_owned
    cases hrec : a.erase_owned identity rest with
    | mk kept calls =>
      rw [hrec] at ih1 ih2
      simp only at ih1 ih2
      by_cases ho : i.2.owner = identity
      · simp only [if_pos ho]
        rw [List.filter_cons_of_neg (by simp [ho]), List.filter_cons_of_pos (by simp [ho]),
          List.flatMap_cons, ← ih1, ← ih2]
        simp
      · simp only [if_neg ho]
        rw [List.filter_cons_of_pos (by simp [ho]), List.filter_cons_of_neg (by simp [ho]),
          ← ih1, ← ih2]
        simp

/-- In the calls made by the loop of `mmio::deallocate`, the call of every
listener for an erased entry is followed by the `munmap` call of that entry. -/
theorem erase_owned_order (a : mmio) (identity : Nat) :
    ∀ m : List (Nat × allocation), ∀ i ∈ m, i.2.owner = identity → ∀ l ∈ a.listeners_,
      [event.unmapping l i.2.range.pointer i.2.range.size_bytes i.2.location,
        event.munmap i.2.range].Sublist (a.erase_owned identity m).2 := by
  intro m
  induction m with
  | nil => intro i hi; simp at hi
  | cons j rest ih =>
    intro i hi ho l hl
    unfold mmio.erase_owned
    cases hrec : a.erase_owned identity rest with
    | mk kept calls =>
      have ih2 := ih
      rw [hrec] at ih2
      simp only at ih2
      rcases List.mem_cons.mp hi with h | h
      · subst h
        simp only [if_pos ho]
        have h1 : [event.unmapping l i.2.range.pointer i.2.range.size_bytes i.2.location].Sublist
            (a.notify i.2.range i.2.location) := by
          rw [List.singleton_sublist]
          unfold mmio.notify
          exact List.mem_map.mpr ⟨l, hl, rfl⟩
        have h2 : [event.munmap i.2.range].Sublist (event.munmap i.2.range :: calls) := by
          rw [List.singleton_sublist]
          exact List.mem_cons_self _ _
        exact List.Sublist.append h1 h2
      · have hsub := ih2 i h ho l hl
        by_cases hj : j.2.owner = identity
        · simp only [if_pos hj]
          exact List.sublist_append_of_sublist_right (List.Sublist.cons _ hsub)
        · simp only [if_neg hj]
          exact hsub

/-- C20: `deallocate(owner)` erases exactly the allocation records whose owner is
the identity of `owner` and leaves every other record, the listeners and the
fill value unchanged; the calls it makes are, record by record, one `unmapping`
call per listener followed by the `munmap` of the record, so every listener
receives the event for a record's byte range before that record is unmapped. -/
theorem mmio_deallocate_spec (a : mmio) (owner_identity : Nat) :
    (a.deallocate owner_identity).1.allocations_
      = a.allocations_.filter (fun i => decide (i.2.owner ≠ owner_identity)) ∧
    (a.deallocate owner_identity).1.listeners_ = a.listeners_ ∧
    (a.deallocate owner_identity).1.fill_ = a.fill_ ∧
    (a.deallocate owner_identity).2
      = (a.allocations_.filter (fun i => decide (i.2.owner = owner_identity))).flatMap
          (fun i => a.listeners_.map
              (fun l => event.unmapping l i.2.range.pointer i.2.range.size_bytes i.2.location)
            ++ [event.munmap i.2.range]) ∧
    (∀ i ∈ a.allocations_, i.2.owner = owner_identity → ∀ l ∈ a.listeners_,
      [event.unmapping l i.2.range.pointer i.2.range.size_bytes i.2.location,
        event.munmap i.2.range].Sublist (a.deallocate owner_identity).2) := by
  obtain ⟨e1, e2⟩ := erase_owned_spec a owner_identity a.allocations_
  have ho := erase_owned_order a owner_identity a.allocations_
  unfold mmio.deallocate
  cases hrec : a.erase_owned owner_identity a.allocations_ with
  | mk kept calls =>
    rw [hrec] at e1 e2 ho
    simp only at e1 e2 ho
    exact ⟨e1, rfl, rfl, e2, ho⟩

/-- Witness of C20: owner 1 holds pages `[0x10, 0x11)`, owner 2 holds pages
`[0x20, 0x22)`, the listener 7 is subscribed, and owner 1 is deallocated. -/
theorem mmio_deallocate_spec_witness :
    [event.unmapping 7 0x10000 0x1000 ⟨"a", 1⟩, event.munmap ⟨0x10, 1⟩].Sublist
      (mmio.deallocate
        ⟨[(0x10, ⟨⟨0x10, 1⟩, 1, ⟨"a", 1⟩⟩), (0x20, ⟨⟨0x20, 2⟩, 2, ⟨"b", 2⟩⟩)], [7], none⟩ 1).2 :=
  (mmio_deallocate_spec
    ⟨[(0x10, ⟨⟨0x10, 1⟩, 1, ⟨"a", 1⟩⟩), (0x20, ⟨⟨0x20, 2⟩, 2, ⟨"b", 2⟩⟩)], [7], none⟩
    1).2.2.2.2 (0x10, ⟨⟨0x10, 1⟩, 1, ⟨"a", 1⟩⟩) (by decide) rfl 7 (by decide)

/-! ## Theorems: recorded allocations and backed pages -/

/-- C19 (as stated, refuted): two sequences of successful calls from the empty
arena after which a recorded allocation holds a page that is no longer backed.
In the first, owner 1 holds the last page `2^32 - 1`; the request of owner 2 for
pages `2^32 - 2` and `2^32 - 1` is not seen as overlapping because `end()` wraps
to 0, and deallocating owner 2 unmaps the page of owner 1. In the second, owner
1 requests pages `[11, 21)` across the allocation `[20, 22)` of owner 2, the scan
stops at owner 1's own record `[10, 12)`, and deallocating owner 1 unmaps page 20. -/
theorem process_records_eq_backed_counterexample :
    (∃ w, process.initial.run
        [arena_call.allocate true ⟨2 ^ 32 - 1, 1⟩ 1 ⟨"first", 1⟩,
          arena_call.allocate true ⟨2 ^ 32 - 2, 2⟩ 2 ⟨"second", 2⟩,
          arena_call.deallocate 2] = some w ∧
      w.arena.records_page (2 ^ 32 - 1) ∧ w.backed (2 ^ 32 - 1) = false) ∧
    (∃ w, process.initial.run
        [arena_call.allocate true ⟨10, 2⟩ 1 ⟨"first", 1⟩,
          arena_call.allocate true ⟨20, 2⟩ 2 ⟨"second", 2⟩,
          arena_call.allocate true ⟨11, 10⟩ 1 ⟨"first", 1⟩,
          arena_call.deallocate 1] = some w ∧
      w.arena.records_page 20 ∧ w.backed 20 = false) := by
  constructor
  · refine ⟨_, rfl, ?_, by decide⟩
    exact ⟨(2 ^ 32 - 1, ⟨⟨2 ^ 32 - 1, 1⟩, 1, ⟨"first", 1⟩⟩), by decide, by decide, by decide⟩
  · refine ⟨_, rfl, ?_, by decide⟩
    exact ⟨(20, ⟨⟨20, 2⟩, 2, ⟨"second", 2⟩⟩), by decide, by decide, by decide⟩

/-- The listener calls of `mmio::notify` do not change the backed pages. -/
theorem os_run_unmapping (pointer size_bytes : Nat) (location : source_location) :
    ∀ (listeners : List Nat) (backed : Nat → Bool),
      os_run backed
        (listeners.map (fun l => event.unmapping l pointer size_bytes location)) = backed := by
  intro listeners
  induction listeners with
  | nil => intro backed; rfl
  | cons l rest ih =>
    intro backed
    simp only [List.map_cons, os_run, List.foldl_cons]
    exact ih (os_step backed (event.unmapping l pointer size_bytes location))

/-- The backed pages after one sequence of calls followed by another. -/
theorem os_run_append (backed : Nat → Bool) (first second : List event) :
    os_run backed (first ++ second) = os_run (os_run backed first) second := by
  unfold os_run
  exact List.foldl_append _ _ _ _

/-- After the calls of the loop of `mmio::deallocate`, a page is backed iff it
was backed before and lies in no erased record. -/
theorem os_run_erase_owned (a : mmio) (identity : Nat) (x : Nat) :
    ∀ (m : List (Nat × allocation)) (backed : Nat → Bool),
      os_run backed (a.erase_owned identity m).2 x = true ↔
        (backed x = true ∧ ∀ i ∈ m, i.2.owner = identity → ¬ i.2.range.has_page x) := by
  intro m
  induction m with
  | nil =>
    intro backed
    simp [mmio.erase_owned, os_run]
  | cons i rest ih =>
    intro backed
    unfold mmio.erase_owned
    cases hrec : a.erase_owned identity rest with
    | mk kept calls =>
      have ih2 := ih
      rw [hrec] at ih2
      simp only at ih2
      by_cases ho : i.2.owner = identity
      · simp only [if_pos ho]
        rw [os_run_append]
        have hn : os_run backed (a.notify i.2.range i.2.location) = backed :=
          os_run_unmapping _ _ _ a.listeners_ backed
        rw [hn]
        have hstep : os_run backed (event.munmap i.2.range :: calls)
            = os_run (os_step backed (event.munmap i.2.range)) calls := rfl
        rw [hstep, ih2]
        simp only [os_step, Bool.and_eq_true, Bool.not_eq_true', decide_eq_false_iff_not,
          List.mem_cons, forall_eq_or_imp, pagerange.has_page]
        constructor
        · rintro ⟨⟨h1, h2⟩, h3⟩
          exact ⟨h1, fun _ => h2, h3⟩
        · rintro ⟨h1, h2, h3⟩
          exact ⟨⟨h1, h2 ho⟩, h3⟩
      · simp only [if_neg ho]
        rw [ih2]
        simp only [List.mem_cons, forall_eq_or_imp]
        constructor
        · rintro ⟨h1, h3⟩
          exact ⟨h1, fun h => absurd h ho, h3⟩
        · rintro ⟨h1, _, h3⟩
          exact ⟨h1, h3⟩

/-- Two page ranges whose `begin + size` stays below `2^32` and which
`pagerange::overlapping` reports as not overlapping share no page. -/
theorem pagerange_disjoint_of_not_overlapping (p q : pagerange)
    (hp : p.begin_ + p.size_ < pageid_modulus) (hq : q.begin_ + q.size_ < pageid_modulus)
    (h : p.overlapping q = false) : ∀ x, ¬ (p.has_page x ∧ q.has_page x) := by
  have e1 : p.end_ = p.begin_ + p.size_ := Nat.mod_eq_of_lt hp
  have e2 : q.end_ = q.begin_ + q.size_ := Nat.mod_eq_of_lt hq
  unfold pagerange.overlapping pagerange.begin at h
  rw [e1, e2] at h
  simp only [Bool.or_eq_false_iff, Bool.and_eq_false_imp, decide_eq_true_eq,
    decide_eq_false_iff_not] at h
  intro x ⟨⟨h1, h2⟩, ⟨h3, h4⟩⟩
  obtain ⟨ha, hb⟩ := h
  by_cases hc : p.begin_ ≤ q.begin_
  · have := ha hc; omega
  · have := hb (by omega); omega

/-- The entries after `mmio::claim`: the keys are those before, and every entry
corresponds to an entry before with the same key, range and location whose
owner was mapped from the loser to the claimer. -/
theorem mmio_claim_entries (a : mmio) (looserid claimerid : Nat) :
    (a.claim looserid claimerid).allocations_.map Prod.fst = a.allocations_.map Prod.fst ∧
    (∀ j ∈ (a.claim looserid claimerid).allocations_, ∃ i ∈ a.allocations_,
      j.2.range = i.2.range ∧
      j.2.owner = (if i.2.owner = looserid then claimerid else i.2.owner)) ∧
    (∀ i ∈ a.allocations_, ∃ j ∈ (a.claim looserid claimerid).allocations_,
      j.2.range = i.2.range) := by
  unfold mmio.claim
  simp only [List.map_map]
  refine ⟨?_, ?_, ?_⟩
  · apply List.map_congr_left
    intro i _
    simp only [Function.comp]
    split <;> rfl
  · intro j hj
    obtain ⟨i, hi, hij⟩ := List.mem_map.mp hj
    refine ⟨i, hi, ?_⟩
    rw [← hij]
    split <;> simp_all
  · intro i hi
    refine ⟨_, List.mem_map.mpr ⟨i, hi, rfl⟩, ?_⟩
    split <;> rfl

/-- When validation passes although the requested first page is keyed, the
record under it has the owner and the range of the request. -/
theorem validate_none_key_present (a : mmio) (requested : pagerange) (owner_identity : Nat)
    (owner_location : source_location) (previous : allocation)
    (hat : a.allocations_at requested.begin = some previous)
    (hv : a.validate requested owner_identity owner_location = none) :
    previous.owner = owner_identity ∧ previous.range = requested := by
  unfold mmio.validate at hv
  rw [hat] at hv
  simp only at hv
  by_cases ho : previous.owner = owner_identity
  · rw [if_pos ho] at hv
    by_cases hr : previous.range.op_eq requested = true
    · exact ⟨ho, (pagerange_op_eq_iff _ _).mp hr⟩
    · rw [if_neg hr] at hv
      simp at hv
  · rw [if_neg ho] at hv
    simp at hv

/-- An `allocate` call that returns passed validation, emplaced the record and
added the pages of the request to the backed pages. -/
theorem process_call_allocate (w w_ : process) (mmap_ok : Bool) (requested : pagerange)
    (owner_identity : Nat) (owner_location : source_location)
    (hcall : w.call (arena_call.allocate mmap_ok requested owner_identity owner_location)
      = some w_) :
    w.arena.validate requested owner_identity owner_location = none ∧
    w_.arena.allocations_ = map_emplace w.arena.allocations_ requested.begin
      { range := requested, owner := owner_identity, location := owner_location } ∧
    (∀ x, w_.backed x = true ↔ (w.backed x = true ∨ requested.has_page x)) := by
  simp only [process.call, mmio.allocate] at hcall
  cases hv : w.arena.validate requested owner_identity owner_location with
  | some e => rw [hv] at hcall; simp at hcall
  | none =>
    rw [hv] at hcall
    cases mmap_ok with
    | false => simp at hcall
    | true =>
      simp only [if_true, Option.some.injEq] at hcall
      subst hcall
      refine ⟨rfl, rfl, ?_⟩
      intro x
      cases hf : w.arena.fill_ with
      | none => simp [os_run, os_step, pagerange.has_page]
      | some v => simp [os_run, os_step, pagerange.has_page]

/-- An `allocate` call that returns and requests no foreign overlap keeps the
invariant of the process. -/
theorem process_invariant_allocate (w w_ : process) (mmap_ok : Bool)
    (requested : pagerange) (owner_identity : Nat) (owner_location : source_location)
    (hinv : w.invariant)
    (hadm : (arena_call.allocate mmap_ok requested owner_identity
      owner_location).no_foreign_overlap w.arena)
    (hcall : w.call (arena_call.allocate mmap_ok requested owner_identity owner_location)
      = some w_) :
    w_.invariant := by
  obtain ⟨i1, i2, i3, i4⟩ := hinv
  have hadm2 : requested.begin_ + requested.size_ < pageid_modulus ∧
      ∀ i ∈ w.arena.allocations_, i.2.owner ≠ owner_identity →
        requested.overlapping i.2.range = false := hadm
  obtain ⟨hwrap, hforeign⟩ := hadm2
  obtain ⟨hv, halloc, hbacked⟩ :=
    process_call_allocate w w_ mmap_ok requested owner_identity owner_location hcall
  obtain ⟨m1, m2⟩ := map_emplace_spec requested.begin
    ({ range := requested, owner := owner_identity, location := owner_location } : allocation)
    w.arena.allocations_ i1
  by_cases hin : requested.begin ∈ w.arena.allocations_.map Prod.fst
  · rw [m1 hin] at halloc
    cases hat : w.arena.allocations_at requested.begin with
    | none => exact absurd hin ((allocations_at_spec _ _).2.mp hat)
    | some previous =>
      obtain ⟨_, pr⟩ := validate_none_key_present w.arena requested owner_identity
        owner_location previous hat hv
      have hmem := (allocations_at_spec _ _).1 previous hat
      refine ⟨?_, ?_, ?_, ?_⟩
      · unfold mmio.well_formed; rw [halloc]; exact i1
      · rw [halloc]; exact i2
      · rw [halloc]; exact i3
      · intro x
        unfold mmio.records_page
        rw [halloc, hbacked x]
        constructor
        · intro h
          exact Or.inl ((i4 x).mp h)
        · rintro (h | h)
          · exact (i4 x).mpr h
          · refine ⟨_, hmem, ?_⟩
            show previous.range.has_page x
            rw [pr]
            exact h
  · obtain ⟨s1, s2⟩ := m2 hin
    rw [← halloc] at s1 s2
    refine ⟨s1, ?_, ?_, ?_⟩
    · intro i hi
      rcases (s2 i).mp hi with h | h
      · subst h; exact hwrap
      · exact i2 i h
    · intro i hi j hj hne x
      rcases (s2 i).mp hi with h | h <;> rcases (s2 j).mp hj with h2 | h2
      · subst h; subst h2; exact absurd rfl hne
      · subst h
        exact pagerange_disjoint_of_not_overlapping requested j.2.range hwrap (i2 j h2)
          (hforeign j h2 (fun e => hne e.symm)) x
      · subst h2
        intro hx
        exact pagerange_disjoint_of_not_overlapping requested i.2.range hwrap (i2 i h)
          (hforeign i h hne) x ⟨hx.2, hx.1⟩
      · exact i3 i h j h2 hne x
    · intro x
      unfold mmio.records_page
      rw [hbacked x]
      constructor
      · rintro ⟨i, hi, hx⟩
        rcases (s2 i).mp hi with h | h
        · subst h; exact Or.inr hx
        · exact Or.inl ((i4 x).mp ⟨i, h, hx⟩)
      · rintro (h | h)
        · obtain ⟨i, hi, hx⟩ := (i4 x).mpr h
          exact ⟨i, (s2 i).mpr (Or.inr hi), hx⟩
        · exact ⟨_, (s2 _).mpr (Or.inl rfl), h⟩

/-- A `deallocate` call keeps the invariant of the process. -/
theorem process_invariant_deallocate (w w_ : process) (owner_identity : Nat)
    (hinv : w.invariant)
    (hcall : w.call (arena_call.deallocate owner_identity) = some w_) :
    w_.invariant := by
  obtain ⟨i1, i2, i3, i4⟩ := hinv
  obtain ⟨e1, _⟩ := erase_owned_spec w.arena owner_identity w.arena.allocations_
  have hrun := fun x => os_run_erase_owned w.arena owner_identity x w.arena.allocations_ w.backed
  simp only [process.call, mmio.deallocate] at hcall
  cases hrec : w.arena.erase_owned owner_identity w.arena.allocations_ with
  | mk kept calls =>
    rw [hrec] at hcall e1 hrun
    simp only [Option.some.injEq] at hcall e1 hrun
    subst hcall
    have hmem : ∀ i, i ∈ kept ↔ (i ∈ w.arena.allocations_ ∧ i.2.owner ≠ owner_identity) := by
      intro i
      rw [e1, List.mem_filter]
      simp
    refine ⟨?_, ?_, ?_, ?_⟩
    · unfold mmio.well_formed
      show (kept.map Prod.fst).Pairwise (· < ·)
      rw [e1]
      exact List.Pairwise.sublist (List.Sublist.map _ (List.filter_sublist _)) i1
    · intro i hi
      exact i2 i ((hmem i).mp hi).1
    · intro i hi j hj hne x
      exact i3 i ((hmem i).mp hi).1 j ((hmem j).mp hj).1 hne x
    · intro x
      show (∃ i ∈ kept, i.2.range.has_page x) ↔ os_run w.backed calls x = true
      rw [hrun x]
      constructor
      · rintro ⟨i, hi, hx⟩
        obtain ⟨hi1, hi2⟩ := (hmem i).mp hi
        refine ⟨(i4 x).mp ⟨i, hi1, hx⟩, ?_⟩
        intro j hj hjo hjx
        exact i3 i hi1 j hj (fun e => hi2 (e.trans hjo)) x ⟨hx, hjx⟩
      · rintro ⟨hb, hno⟩
        obtain ⟨i, hi, hx⟩ := (i4 x).mpr hb
        exact ⟨i, (hmem i).mpr ⟨hi, fun ho => hno i hi ho hx⟩, hx⟩

/-- A `claim` call keeps the invariant of the process. -/
theorem process_invariant_claim (w w_ : process) (looserid claimerid : Nat)
    (hinv : w.invariant)
    (hcall : w.call (arena_call.claim looserid claimerid) = some w_) :
    w_.invariant := by
  obtain ⟨i1, i2, i3, i4⟩ := hinv
  obtain ⟨c1, c2, c3⟩ := mmio_claim_entries w.arena looserid claimerid
  unfold process.call at hcall
  simp only [Option.some.injEq] at hcall
  subst hcall
  refine ⟨?_, ?_, ?_, ?_⟩
  · unfold mmio.well_formed
    show ((w.arena.claim looserid claimerid).allocations_.map Prod.fst).Pairwise (· < ·)
    rw [c1]
    exact i1
  · intro j hj
    obtain ⟨i, hi, hr, _⟩ := c2 j hj
    show j.2.range.begin_ + j.2.range.size_ < pageid_modulus
    rw [hr]
    exact i2 i hi
  · intro j hj k hk hne x
    obtain ⟨i, hi, hri, hoi⟩ := c2 j hj
    obtain ⟨i', hi', hri', hoi'⟩ := c2 k hk
    rw [hri, hri']
    refine i3 i hi i' hi' ?_ x
    intro heq
    apply hne
    rw [hoi, hoi', heq]
  · intro x
    show (∃ j ∈ (w.arena.claim looserid claimerid).allocations_, j.2.range.has_page x) ↔
      w.backed x = true
    rw [← i4 x]
    constructor
    · rintro ⟨j, hj, hx⟩
      obtain ⟨i, hi, hr, _⟩ := c2 j hj
      exact ⟨i, hi, hr ▸ hx⟩
    · rintro ⟨i, hi, hx⟩
      obtain ⟨j, hj, hr⟩ := c3 i hi
      exact ⟨j, hj, hr ▸ hx⟩

/-- Sequences of returning calls without foreign overlap keep the invariant of
the process. -/
theorem process_invariant_run :
    ∀ (calls : List arena_call) (w w_ : process), w.invariant →
      w.no_foreign_overlap calls → w.run calls = some w_ → w_.invariant := by
  intro calls
  induction calls with
  | nil =>
    intro w w_ hinv _ hrun
    simp only [process.run, Option.some.injEq] at hrun
    subst hrun
    exact hinv
  | cons c rest ih =>
    intro w w_ hinv hadm hrun
    have hadm2 : c.no_foreign_overlap w.arena ∧
        (match w.call c with
          | some w1 => w1.no_foreign_overlap rest
          | none => True) := hadm
    obtain ⟨hc, hrest⟩ := hadm2
    unfold process.run at hrun
    cases hcall : w.call c with
    | none => rw [hcall] at hrun; simp at hrun
    | some w1 =>
      rw [hcall] at hrun hrest
      simp only at hrun hrest
      refine ih w1 w_ ?_ hrest hrun
      cases c with
      | allocate mmap_ok requested owner_identity owner_location =>
        exact process_invariant_allocate w w1 mmap_ok requested owner_identity
          owner_location hinv hc hcall
      | deallocate owner_identity =>
        exact process_invariant_deallocate w w1 owner_identity hinv hcall
      | claim looserid claimerid =>
        exact process_invariant_claim w w1 looserid claimerid hinv hcall

/-- C19 (amended): with the set of backed pages modelled explicitly, after any
sequence of successful `allocate`, `deallocate` and `claim` calls starting from
the empty arena, in which every allocated range has `begin + size` below `2^32`
and no `allocate` requests a range overlapping a recorded allocation of another
owner, the page ranges of the recorded allocations cover exactly the backed
pages. -/
theorem process_records_eq_backed (calls : List arena_call) (w : process)
    (hadm : process.initial.no_foreign_overlap calls)
    (hrun : process.initial.run calls = some w) :
    w.records_eq_backed := by
  have hinit : process.initial.invariant := by
    refine ⟨List.Pairwise.nil, ?_, ?_, ?_⟩
    · intro i hi; simp [process.initial, mmio.initial] at hi
    · intro i hi; simp [process.initial, mmio.initial] at hi
    · intro x
      simp [process.initial, mmio.initial, mmio.records_page]
  exact (process_invariant_run calls process.initial w hinit hadm hrun).2.2.2

/-- Witness of C19 (amended): owner 1 allocates page `0x10`, owner 2 allocates
pages `[0x20, 0x22)`, owner 3 claims the allocations of owner 1, and owner 2 is
deallocated. -/
theorem process_records_eq_backed_witness :
    ∃ w, process.initial.run
        [arena_call.allocate true ⟨0x10, 1⟩ 1 ⟨"first", 1⟩,
          arena_call.allocate true ⟨0x20, 2⟩ 2 ⟨"second", 2⟩,
          arena_call.claim 1 3,
          arena_call.deallocate 2] = some w ∧
      w.records_eq_backed :=
  ⟨_, rfl,
    process_records_eq_backed
      [arena_call.allocate true ⟨0x10, 1⟩ 1 ⟨"first", 1⟩,
        arena_call.allocate true ⟨0x20, 2⟩ 2 ⟨"second", 2⟩,
        arena_call.claim 1 3,
        arena_call.deallocate 2] _
      (by
        show _ ∧ _
        refine ⟨⟨by decide, by decide⟩, ?_⟩
        show _ ∧ _
        refine ⟨⟨by decide, by decide⟩, ?_⟩
        show _ ∧ _
        refine ⟨trivial, ?_⟩
        show _ ∧ _
        exact ⟨trivial, trivial⟩)
      rfl⟩

/-! ## Theorems: containment in the arena -/

/-- C21 (as stated, refuted): owner 1 allocates page `[4, 5)` and then pages
`[3, 6)` from the empty arena. The record `[3, 6)` fully contains `[4, 6)`, yet
`contains([4, 6))` is false: the lookup by first page finds the record `[4, 5)`
and asks only that one. -/
theorem mmio_contains_counterexample :
    ((mmio.initial.allocate true ⟨4, 1⟩ 1 ⟨"first", 1⟩).1.allocate true
        ⟨3, 3⟩ 1 ⟨"first", 1⟩).1.allocations_
      = [(3, ⟨⟨3, 3⟩, 1, ⟨"first", 1⟩⟩), (4, ⟨⟨4, 1⟩, 1, ⟨"first", 1⟩⟩)] ∧
    ((mmio.initial.allocate true ⟨4, 1⟩ 1 ⟨"first", 1⟩).1.allocate true
        ⟨3, 3⟩ 1 ⟨"first", 1⟩).2.2 = none ∧
    mmio.contains ((mmio.initial.allocate true ⟨4, 1⟩ 1 ⟨"first", 1⟩).1.allocate true
        ⟨3, 3⟩ 1 ⟨"first", 1⟩).1 ⟨4, 2⟩ = false ∧
    mmio.some_record_contains
      ((mmio.initial.allocate true ⟨4, 1⟩ 1 ⟨"first", 1⟩).1.allocate true
        ⟨3, 3⟩ 1 ⟨"first", 1⟩).1 ⟨4, 2⟩ := by
  refine ⟨rfl, rfl, by decide, ?_⟩
  exact ⟨(3, ⟨⟨3, 3⟩, 1, ⟨"first", 1⟩⟩), by decide, by decide⟩

/-- C21 (amended): for every arena state whose records are keyed by their first
page, are non-empty, do not wrap and pairwise share no page, and every page range
`r` with `begin + size` below `2^32`, `mmio::contains(r)` is true iff some
recorded allocation's page range fully contains `r`. -/
theorem mmio_contains_iff (a : mmio) (r : pagerange)
    (hd : a.disjoint_records) (hr : r.begin_ + r.size_ < pageid_modulus) :
    a.contains r = true ↔ a.some_record_contains r := by
  obtain ⟨hwf, hrec, hdis⟩ := hd
  have er : r.end_ = r.begin_ + r.size_ := Nat.mod_eq_of_lt hr
  have hcont : ∀ i ∈ a.allocations_, (i.2.range.contains r = true ↔
      (i.2.range.begin_ ≤ r.begin_ ∧ r.begin_ + r.size_ ≤ i.2.range.begin_ + i.2.range.size_)) := by
    intro i hi
    have ei : i.2.range.end_ = i.2.range.begin_ + i.2.range.size_ :=
      Nat.mod_eq_of_lt (hrec i hi).2.2
    unfold pagerange.contains pagerange.begin
    rw [er, ei]
    simp only [Bool.and_eq_true, decide_eq_true_eq]
  have hover : ∀ i ∈ a.allocations_, (r.overlapping i.2.range = true ↔
      ((r.begin_ ≤ i.2.range.begin_ ∧ i.2.range.begin_ ≤ r.begin_ + r.size_) ∨
        (i.2.range.begin_ ≤ r.begin_ ∧ r.begin_ ≤ i.2.range.begin_ + i.2.range.size_))) := by
    intro i hi
    have ei : i.2.range.end_ = i.2.range.begin_ + i.2.range.size_ :=
      Nat.mod_eq_of_lt (hrec i hi).2.2
    unfold pagerange.overlapping pagerange.begin
    rw [er, ei]
    simp only [Bool.or_eq_true, Bool.and_eq_true, decide_eq_true_eq]
  unfold mmio.contains mmio.some_record_contains
  cases hat : a.allocations_at r.begin with
  | some found =>
    simp only
    have hmem := (allocations_at_spec a r.begin).1 found hat
    have hkey : r.begin_ = found.range.begin_ := (hrec _ hmem).1
    constructor
    · intro h
      exact ⟨(r.begin, found), hmem, h⟩
    · rintro ⟨i, hi, hic⟩
      have hic2 := (hcont i hi).mp hic
      have hgoal := hcont (r.begin, found) hmem
      simp only at hgoal
      rw [hgoal]
      refine ⟨by omega, ?_⟩
      by_contra hlt
      have hne : i ≠ (r.begin, found) := by
        intro heq
        rw [heq] at hic2
        simp only at hic2
        omega
      have hfs := (hrec _ hmem).2.1
      simp only at hfs
      apply hdis i hi (r.begin, found) hmem hne found.range.begin_
      unfold pagerange.has_page
      simp only
      refine ⟨⟨by omega, by omega⟩, ⟨le_refl _, by omega⟩⟩
  | none =>
    simp only
    have habsent := (allocations_at_spec a r.begin).2.mp hat
    cases hf : a.allocations_.find? (fun item => r.overlapping item.2.range) with
    | none =>
      simp only
      refine ⟨fun h => by simp at h, ?_⟩
      rintro ⟨i, hi, hic⟩
      exfalso
      have hno := List.find?_eq_none.mp hf i hi
      apply hno
      have hic2 := (hcont i hi).mp hic
      exact (hover i hi).mpr (Or.inr ⟨hic2.1, by omega⟩)
    | some found =>
      simp only
      obtain ⟨hp, l1, l2, hsplit, hl1⟩ := List.find?_eq_some.mp hf
      have hfm : found ∈ a.allocations_ := by rw [hsplit]; simp
      constructor
      · intro h
        exact ⟨found, hfm, h⟩
      · rintro ⟨i, hi, hic⟩
        have hic2 := (hcont i hi).mp hic
        have hpi : r.overlapping i.2.range = true :=
          (hover i hi).mpr (Or.inr ⟨hic2.1, by omega⟩)
        by_cases hif : i = found
        · rw [← hif]; exact hic
        · exfalso
          have hi2 : i ∈ l1 ++ found :: l2 := hsplit ▸ hi
          rcases List.mem_append.mp hi2 with h1 | h1
          · have := hl1 i h1
            rw [hpi] at this
            simp at this
          · rcases List.mem_cons.mp h1 with h2 | h2
            · exact hif h2
            · have hsorted : ((l1 ++ found :: l2).map Prod.fst).Pairwise (· < ·) := by
                rw [← hsplit]; exact hwf
              rw [List.map_append, List.map_cons] at hsorted
              have h3 := (List.pairwise_cons.mp (List.pairwise_append.mp hsorted).2.1).1 i.1
                (List.mem_map.mpr ⟨i, h2, rfl⟩)
              rw [(hrec i hi).1, (hrec found hfm).1] at h3
              have hov := (hover found hfm).mp hp
              have his := (hrec i hi).2.1
              by_cases htouch : i.2.range.begin_ < found.2.range.begin_ + found.2.range.size_
              · apply hdis i hi found hfm hif i.2.range.begin_
                unfold pagerange.has_page
                exact ⟨⟨le_refl _, by omega⟩, ⟨by omega, htouch⟩⟩
              · apply habsent
                refine List.mem_map.mpr ⟨i, hi, ?_⟩
                rw [(hrec i hi).1]
                show i.2.range.begin_ = r.begin_
                rcases hov with h | h <;> omega

/-- Witness of C21 (amended): owner 1 holds pages `[3, 6)`, owner 2 holds pages
`[8, 9)`, and pages `[4, 6)` are asked for. -/
theorem mmio_contains_iff_witness :
    mmio.contains
        ⟨[(3, ⟨⟨3, 3⟩, 1, ⟨"first", 1⟩⟩), (8, ⟨⟨8, 1⟩, 2, ⟨"second", 2⟩⟩)], [], none⟩
        ⟨4, 2⟩ = true ↔
      mmio.some_record_contains
        ⟨[(3, ⟨⟨3, 3⟩, 1, ⟨"first", 1⟩⟩), (8, ⟨⟨8, 1⟩, 2, ⟨"second", 2⟩⟩)], [], none⟩
        ⟨4, 2⟩ :=
  mmio_contains_iff
    ⟨[(3, ⟨⟨3, 3⟩, 1, ⟨"first", 1⟩⟩), (8, ⟨⟨8, 1⟩, 2, ⟨"second", 2⟩⟩)], [], none⟩ ⟨4, 2⟩
    ⟨by decide, by decide, by
      intro i hi j hj hne x hx
      simp only [List.mem_cons, List.mem_singleton, List.not_mem_nil, or_false] at hi hj
      unfold pagerange.has_page at hx
      rcases hi with h | h <;> rcases hj with h2 | h2 <;> subst h <;> subst h2 <;>
        first
          | exact hne rfl
          | (simp only at hx; omega)⟩
    (by decide)


/-! ## Theorems: the page scan of `apply` -/

/-- The skipping scan leaves the working list as it is when every element is
keyed at or above the cap. -/
theorem collect_pages_skipping_above {Op : Type} (cap : Nat) :
    ∀ (m : List (Nat × element Op)) (acc : List pagerange),
      (∀ el ∈ m, cap ≤ el.1) → stub.collect_pages_skipping cap m acc = acc := by
  intro m
  induction m with
  | nil => intro acc _; rfl
  | cons el rest ih =>
    intro acc h
    have hcap := h el (List.mem_cons_self _ _)
    simp only [stub.collect_pages_skipping, if_pos hcap]
    exact ih acc (fun x hx => h x (List.mem_cons_of_mem _ hx))

/-- On a map in ascending key order, breaking at the first key at or above the
cap gives the working list of the scan that skips such keys. -/
theorem collect_pages_eq_skipping {Op : Type} (cap : Nat) :
    ∀ (m : List (Nat × element Op)) (acc : List pagerange),
      (elements_type.keys m).Pairwise (· < ·) →
      stub.collect_pages cap m acc = stub.collect_pages_skipping cap m acc := by
  intro m
  induction m with
  | nil => intro acc _; rfl
  | cons el rest ih =>
    intro acc hs
    have hs2 : (el.1 :: elements_type.keys rest).Pairwise (· < ·) := by
      simpa [elements_type.keys] using hs
    have hrest := (List.pairwise_cons.mp hs2).2
    have hlt := (List.pairwise_cons.mp hs2).1
    by_cases hcap : cap ≤ el.1
    · simp only [stub.collect_pages, stub.collect_pages_skipping, if_pos hcap]
      symm
      apply collect_pages_skipping_above
      intro x hx
      have := hlt x.1 (List.mem_map_of_mem Prod.fst hx)
      omega
    · cases acc with
      | nil =>
        simp only [stub.collect_pages, stub.collect_pages_skipping, if_neg hcap]
        exact ih _ hrest
      | cons front tail =>
        simp only [stub.collect_pages, stub.collect_pages_skipping, if_neg hcap]
        cases hj : front.join el.2.pages with
        | mk flag joined =>
          cases flag with
          | true => exact ih _ hrest
          | false => exact ih _ hrest

/-- The skipping scan is the scan of the elements keyed below the cap. -/
theorem collect_pages_skipping_filter {Op : Type} (cap : Nat) :
    ∀ (m : List (Nat × element Op)) (acc : List pagerange),
      stub.collect_pages_skipping cap m acc =
        stub.collect_pages cap (m.filter (fun el => decide (el.1 < cap))) acc := by
  intro m
  induction m with
  | nil => intro acc; rfl
  | cons el rest ih =>
    intro acc
    by_cases hcap : cap ≤ el.1
    · have hf : ¬ (decide (el.1 < cap) = true) := by simp; omega
      have hfil : (el :: rest).filter (fun el => decide (el.1 < cap)) =
          rest.filter (fun el => decide (el.1 < cap)) := List.filter_cons_of_neg hf
      rw [hfil]
      simp only [stub.collect_pages_skipping, if_pos hcap]
      exact ih acc
    · have hf : decide (el.1 < cap) = true := by simp; omega
      have hfil : (el :: rest).filter (fun el => decide (el.1 < cap)) =
          el :: rest.filter (fun el => decide (el.1 < cap)) := List.filter_cons_of_pos hf
      rw [hfil]
      cases acc with
      | nil =>
        simp only [stub.collect_pages_skipping, if_neg hcap, stub.collect_pages]
        exact ih _
      | cons front tail =>
        simp only [stub.collect_pages_skipping, if_neg hcap, stub.collect_pages]
        cases hj : front.join el.2.pages with
        | mk flag joined =>
          cases flag with
          | true => exact ih _
          | false => exact ih _

/-- The skipping page check passes over a map whose keys are all at or above the cap. -/
theorem check_pages_skipping_above {Op : Type} (cap : Nat) (a : mmio) :
    ∀ (m : List (Nat × element Op)),
      (∀ el ∈ m, cap ≤ el.1) → verify.check_pages_skipping cap a m = none := by
  intro m
  induction m with
  | nil => intro _; rfl
  | cons el rest ih =>
    intro h
    simp only [verify.check_pages_skipping, if_pos (h el (List.mem_cons_self _ _))]
    exact ih (fun x hx => h x (List.mem_cons_of_mem _ hx))

/-- On a map in ascending key order, the page check of `verify::apply` that
breaks at the cap is the page check that skips the keys at or above the cap. -/
theorem check_pages_eq_skipping {Op : Type} (cap : Nat) (a : mmio) :
    ∀ (m : List (Nat × element Op)),
      (elements_type.keys m).Pairwise (· < ·) →
      verify.check_pages cap a m = verify.check_pages_skipping cap a m := by
  intro m
  induction m with
  | nil => intro _; rfl
  | cons el rest ih =>
    intro hs
    have hs2 : (el.1 :: elements_type.keys rest).Pairwise (· < ·) := by
      simpa [elements_type.keys] using hs
    have hrest := (List.pairwise_cons.mp hs2).2
    have hlt := (List.pairwise_cons.mp hs2).1
    by_cases hcap : cap ≤ el.1
    · simp only [verify.check_pages, verify.check_pages_skipping, if_pos hcap]
      symm
      apply check_pages_skipping_above
      intro x hx
      have := hlt x.1 (List.mem_map_of_mem Prod.fst hx)
      omega
    · simp only [verify.check_pages, verify.check_pages_skipping, if_neg hcap, ih hrest]

/-- With a hook that always answers `run`, the comparison loop of
`verify::apply` invokes the comparator of every element, in map order. -/
theorem compare_all_run_evaluated {σ Op : Type} (h : verify_hooks σ Op)
    (hrun : ∀ w b l, (h.expect w b l).1 = control.run) :
    ∀ (m : List (Nat × element Op)) (w : σ) (fail : Bool),
      (verify_event.evaluated (verify.compare_all h m w fail).2.2).map Prod.fst =
        m.map Prod.snd := by
  intro m
  induction m with
  | nil => intro w fail; rfl
  | cons el rest ih =>
    intro w fail
    rw [verify.compare_all]
    cases hc : h.call w el.2 with
    | mk success w1 =>
      simp only
      have hr := hrun w1 success el.2.location
      cases he : h.expect w1 success el.2.location with
      | mk answer w2 =>
        rw [he] at hr
        simp only at hr
        subst hr
        simp only
        have := ih w2 (fail || !success)
        cases hrec : verify.compare_all h rest w2 (fail || !success) with
        | mk fail_ r =>
          obtain ⟨w3, calls⟩ := r
          rw [hrec] at this
          simpa [verify_event.evaluated] using this


/-- C24: on a stub and a verify whose element maps are in ascending key order,
stopping the page scan at the first element keyed at or above the cap gives the
same working list (for `stub::apply`) and the same page check (for
`verify::apply`) as skipping exactly the elements keyed at or above the cap. The
arena, the calls into the operating system and the exception left by
`stub::apply` are those of the stub restricted to its elements below the cap, so
an element above the cap causes no allocation; when all elements are above the
cap nothing is allocated. Yet when `stub::apply` does not throw, the operator
closures of all elements are invoked, and when the page check of `verify::apply`
passes under a hook that answers `run`, the comparators of all elements are
invoked. -/
theorem apply_break_at_cap_eq_skip {σ Op : Type} (s : stub Op) (v : verify Op)
    (cap identity : Nat) (os : pagerange → Bool) (a : mmio)
    (hs : s.elements_.keys.Pairwise (· < ·)) (hv : v.elements_.keys.Pairwise (· < ·)) :
    stub.collect_pages cap s.elements_ [] = stub.collect_pages_skipping cap s.elements_ [] ∧
    verify.check_pages cap a v.elements_ = verify.check_pages_skipping cap a v.elements_ ∧
    (s.apply identity cap os a).arena =
      (stub.apply
        { elements_ := s.elements_.filter (fun el => decide (el.1 < cap)),
          location_ := s.location_ } identity cap os a).arena ∧
    (s.apply identity cap os a).calls =
      (stub.apply
        { elements_ := s.elements_.filter (fun el => decide (el.1 < cap)),
          location_ := s.location_ } identity cap os a).calls ∧
    (s.apply identity cap os a).thrown =
      (stub.apply
        { elements_ := s.elements_.filter (fun el => decide (el.1 < cap)),
          location_ := s.location_ } identity cap os a).thrown ∧
    ((∀ el ∈ s.elements_, cap ≤ el.1) →
      (s.apply identity cap os a).arena = a ∧ (s.apply identity cap os a).calls = [] ∧
      (s.apply identity cap os a).thrown = none) ∧
    ((s.apply identity cap os a).thrown = none →
      (s.apply identity cap os a).invoked = s.elements_.map Prod.snd) ∧
    (∀ (h : verify_hooks σ Op) (w : σ),
      verify.check_pages cap a v.elements_ = none →
      (∀ w_ b l, (h.expect w_ b l).1 = control.run) →
      (verify_event.evaluated (v.apply cap a h w).2.2).map Prod.fst =
        v.elements_.map Prod.snd) := by
  have hfilter : stub.collect_pages cap s.elements_ [] =
      stub.collect_pages cap (s.elements_.filter (fun el => decide (el.1 < cap))) [] := by
    rw [collect_pages_eq_skipping cap _ _ hs, collect_pages_skipping_filter]
  refine ⟨collect_pages_eq_skipping cap _ _ hs, check_pages_eq_skipping cap a _ hv,
    ?_, ?_, ?_, ?_, ?_, ?_⟩
  · simp only [stub.apply, ← hfilter]
    cases mmio.allocate_all os identity s.location_
        (stub.collect_pages cap s.elements_ []) a with
    | mk arena r =>
      obtain ⟨calls, thrown⟩ := r
      cases thrown <;> rfl
  · simp only [stub.apply, ← hfilter]
    cases mmio.allocate_all os identity s.location_
        (stub.collect_pages cap s.elements_ []) a with
    | mk arena r =>
      obtain ⟨calls, thrown⟩ := r
      cases thrown <;> rfl
  · simp only [stub.apply, ← hfilter]
    cases mmio.allocate_all os identity s.location_
        (stub.collect_pages cap s.elements_ []) a with
    | mk arena r =>
      obtain ⟨calls, thrown⟩ := r
      cases thrown <;> rfl
  · intro habove
    have hnil : stub.collect_pages cap s.elements_ [] = [] := by
      rw [collect_pages_eq_skipping cap _ _ hs]
      exact collect_pages_skipping_above cap _ _ habove
    simp only [stub.apply, hnil, mmio.allocate_all]
    exact ⟨trivial, trivial, trivial⟩
  · intro hnone
    unfold stub.apply at hnone ⊢
    cases hall : mmio.allocate_all os identity s.location_
        (stub.collect_pages cap s.elements_ []) a with
    | mk arena r =>
      obtain ⟨calls, thrown⟩ := r
      rw [hall] at hnone
      cases thrown with
      | some e => simp at hnone
      | none => rfl
  · intro h w hcheck hrun
    unfold verify.apply
    rw [hcheck]
    have := compare_all_run_evaluated h hrun v.elements_ w false
    cases hcmp : verify.compare_all h v.elements_ w false with
    | mk fail r =>
      obtain ⟨w_, calls⟩ := r
      rw [hcmp] at this
      exact this

/-- Witness of C24: a stub and a verify over one element at `0x1000` and one
element at `0x200000000`, above the cap `0x100000000`; on the empty arena only
page 1 is allocated and both operator closures are invoked. -/
theorem apply_break_at_cap_eq_skip_witness :
    (@stub.apply Nat
        ⟨[(0x1000, ⟨⟨0x1000, 8⟩, 7, ⟨"low", 1⟩⟩),
          (0x200000000, ⟨⟨0x200000000, 8⟩, 9, ⟨"high", 2⟩⟩)], ⟨"stub", 3⟩⟩
        1 0x100000000 (fun _ => true) mmio.initial).arena.allocations_ =
      [(1, ⟨⟨1, 1⟩, 1, ⟨"stub", 3⟩⟩)] ∧
    (@stub.apply Nat
        ⟨[(0x1000, ⟨⟨0x1000, 8⟩, 7, ⟨"low", 1⟩⟩),
          (0x200000000, ⟨⟨0x200000000, 8⟩, 9, ⟨"high", 2⟩⟩)], ⟨"stub", 3⟩⟩
        1 0x100000000 (fun _ => true) mmio.initial).invoked =
      [⟨⟨0x1000, 8⟩, 7, ⟨"low", 1⟩⟩, ⟨⟨0x200000000, 8⟩, 9, ⟨"high", 2⟩⟩] :=
  ⟨(congrArg mmio.allocations_ (@apply_break_at_cap_eq_skip Unit Nat
      ⟨[(0x1000, ⟨⟨0x1000, 8⟩, 7, ⟨"low", 1⟩⟩),
        (0x200000000, ⟨⟨0x200000000, 8⟩, 9, ⟨"high", 2⟩⟩)], ⟨"stub", 3⟩⟩
      ⟨[(0x1000, ⟨⟨0x1000, 8⟩, 7, ⟨"low", 1⟩⟩),
        (0x200000000, ⟨⟨0x200000000, 8⟩, 9, ⟨"high", 2⟩⟩)], ⟨"verify", 4⟩⟩
      0x100000000 1 (fun _ => true) mmio.initial (by decide) (by decide)).2.2.1).trans rfl,
    (@apply_break_at_cap_eq_skip Unit Nat
      ⟨[(0x1000, ⟨⟨0x1000, 8⟩, 7, ⟨"low", 1⟩⟩),
        (0x200000000, ⟨⟨0x200000000, 8⟩, 9, ⟨"high", 2⟩⟩)], ⟨"stub", 3⟩⟩
      ⟨[(0x1000, ⟨⟨0x1000, 8⟩, 7, ⟨"low", 1⟩⟩),
        (0x200000000, ⟨⟨0x200000000, 8⟩, 9, ⟨"high", 2⟩⟩)], ⟨"verify", 4⟩⟩
      0x100000000 1 (fun _ => true) mmio.initial (by decide) (by decide)).2.2.2.2.2.2.1 rfl⟩


/-- C23 (refuted by evaluation): the stub of the elements `{0x1000, 8}`,
`{0x3000, 8}` and `{0x3FF8, 16}` is accepted by the constructor. The head-only
join of `stub::apply` leaves the working list `[1,2)`, `[3,4)`, `[3,5)`, and the
third `allocate` on the empty arena throws `conflicting_allocation`; with join at
any position the working list is `[1,2)`, `[3,5)` and `apply` succeeds. -/
theorem stub_apply_head_join_differs :
    ∃ s : stub Nat,
      stub.of_list
        [⟨⟨0x1000, 8⟩, 1, ⟨"a", 1⟩⟩, ⟨⟨0x3000, 8⟩, 2, ⟨"b", 2⟩⟩, ⟨⟨0x3FF8, 16⟩, 3, ⟨"c", 3⟩⟩]
        ⟨"stub", 4⟩ = Except.ok s ∧
      stub.collect_pages 0x100000000 s.elements_ [] = [⟨1, 1⟩, ⟨3, 1⟩, ⟨3, 2⟩] ∧
      stub.collect_pages_any_position 0x100000000 s.elements_ [] = [⟨1, 1⟩, ⟨3, 2⟩] ∧
      (s.apply 1 0x100000000 (fun _ => true) mmio.initial).thrown =
        some (exception.conflicting_allocation 0x3000 0x2000 0x3000 0x1000 ⟨"stub", 4⟩ none) ∧
      (s.apply_any_position 1 0x100000000 (fun _ => true) mmio.initial).thrown = none ∧
      (s.apply_any_position 1 0x100000000 (fun _ => true) mmio.initial).arena.allocations_ =
        [(1, ⟨⟨1, 1⟩, 1, ⟨"stub", 4⟩⟩), (3, ⟨⟨3, 2⟩, 1, ⟨"stub", 4⟩⟩)] :=
  ⟨_, rfl, rfl, rfl, rfl, rfl, rfl⟩


/-! ## Theorems: `verify::apply` -/

/-- The comparison loop of `verify::apply`: the comparators invoked are those of
a prefix of the map, every comparator call is followed by one hook call with the
value returned and the location of the element, every hook answer but the last is
`run`, the whole map is evaluated when no answer is `stop`, and the flag `fail`
is set when it was set before or some comparator returned false. -/
theorem compare_all_spec {σ Op : Type} (h : verify_hooks σ Op) :
    ∀ (m : List (Nat × element Op)) (w : σ) (fail : Bool),
      (∃ n, n ≤ m.length ∧ (m = [] ∨ 0 < n) ∧
        (verify_event.evaluated (verify.compare_all h m w fail).2.2).map Prod.fst =
          (m.take n).map Prod.snd) ∧
      (verify_event.hook_calls (verify.compare_all h m w fail).2.2).map
          (fun c => (c.1, c.2.1)) =
        (verify_event.evaluated (verify.compare_all h m w fail).2.2).map
          (fun p => (p.2, p.1.location)) ∧
      (∀ x ∈ ((verify_event.hook_calls (verify.compare_all h m w fail).2.2).map
          (fun c => c.2.2)).dropLast, x = control.run) ∧
      ((∀ x ∈ (verify_event.hook_calls (verify.compare_all h m w fail).2.2).map
          (fun c => c.2.2), x = control.run) →
        (verify_event.evaluated (verify.compare_all h m w fail).2.2).map Prod.fst =
          m.map Prod.snd) ∧
      (verify.compare_all h m w fail).1 =
        (fail || (verify_event.evaluated (verify.compare_all h m w fail).2.2).any
          (fun p => !p.2)) ∧
      (∀ eval : element Op → Bool, (∀ w_ el, (h.call w_ el).1 = eval el) →
        ∀ p ∈ verify_event.evaluated (verify.compare_all h m w fail).2.2, p.2 = eval p.1) := by
  intro m
  induction m with
  | nil =>
    intro w fail
    refine ⟨⟨0, Nat.le_refl _, Or.inl rfl, rfl⟩, rfl, ?_, fun _ => rfl, ?_, ?_⟩
    · intro x hx
      simp [verify.compare_all, verify_event.hook_calls] at hx
    · simp [verify.compare_all, verify_event.evaluated]
    · intro eval _ p hp
      simp [verify.compare_all, verify_event.evaluated] at hp
  | cons el rest ih =>
    intro w fail
    rw [verify.compare_all]
    cases hc : h.call w el.2 with
    | mk success w1 =>
      simp only
      cases he : h.expect w1 success el.2.location with
      | mk answer w2 =>
        cases answer with
        | stop =>
          refine ⟨⟨1, by simp, Or.inr Nat.one_pos, by simp [verify_event.evaluated]⟩,
            by simp [verify_event.evaluated, verify_event.hook_calls], ?_, ?_, ?_, ?_⟩
          · intro x hx
            simp [verify_event.hook_calls] at hx
          · intro hall
            have := hall control.stop (by simp [verify_event.hook_calls])
            cases this
          · simp [verify_event.evaluated]
          · intro eval heval p hp
            simp only [verify_event.evaluated, List.mem_singleton] at hp
            subst hp
            have := heval w el.2
            rw [hc] at this
            exact this
        | run =>
          simp only
          obtain ⟨⟨n, hn, hpos, hpre⟩, hhook, hdrop, hall, hfail, hev⟩ :=
            ih w2 (fail || !success)
          cases hrec : verify.compare_all h rest w2 (fail || !success) with
          | mk fail_ r =>
            obtain ⟨w3, calls⟩ := r
            rw [hrec] at hpre hhook hdrop hall hfail hev
            simp only at hpre hhook hdrop hall hfail hev
            simp only [verify_event.evaluated, verify_event.hook_calls, List.map_cons]
            refine ⟨⟨n + 1, by simp; omega, Or.inr (Nat.succ_pos _), ?_⟩, ?_, ?_, ?_, ?_, ?_⟩
            · simp [List.take_succ_cons, hpre]
            · rw [hhook]
            · intro x hx
              cases hl : (verify_event.hook_calls calls).map (fun c => c.2.2) with
              | nil => rw [hl] at hx; simp at hx
              | cons y ys =>
                rw [hl] at hx hdrop
                rw [List.dropLast_cons₂] at hx
                rcases List.mem_cons.mp hx with hx1 | hx1
                · exact hx1
                · exact hdrop x hx1
            · intro hrun
              rw [hall (fun x hx => hrun x (List.mem_cons_of_mem _ hx))]
            · rw [hfail]
              simp [Bool.or_assoc]
            · intro eval heval p hp
              rcases List.mem_cons.mp hp with hp1 | hp1
              · subst hp1
                have := heval w el.2
                rw [hc] at this
                exact this
              · exact hev eval heval p hp1


/-- No recorded value is false exactly when all recorded values are true. -/
theorem not_any_not_eq_all {α : Type} (l : List (α × Bool)) :
    (!(l.any (fun p => !p.2))) = l.all (fun p => p.2) := by
  induction l with
  | nil => rfl
  | cons p rest ih =>
    simp only [List.any_cons, List.all_cons, Bool.not_or, Bool.not_not, ih]

/-- When every recorded value is the value of `eval` at the recorded element,
the recorded values are all true exactly when `eval` is true at all recorded
elements. -/
theorem all_snd_eq_all_eval {α : Type} (eval : α → Bool) (l : List (α × Bool))
    (h : ∀ p ∈ l, p.2 = eval p.1) :
    l.all (fun p => p.2) = (l.map Prod.fst).all eval := by
  induction l with
  | nil => rfl
  | cons p rest ih =>
    simp only [List.all_cons, List.map_cons]
    rw [h p (List.mem_cons_self _ _), ih (fun q hq => h q (List.mem_cons_of_mem _ hq))]

/-- When the page check passes, `verify::apply` returns the negation of the flag
left by the comparison loop, with the state and the calls of that loop. -/
theorem verify_apply_of_pages_ok {σ Op : Type} (v : verify Op) (cap : Nat) (a : mmio)
    (h : verify_hooks σ Op) (w : σ)
    (hpages : verify.check_pages cap a v.elements_ = none) :
    v.apply cap a h w =
      (Except.ok (!(verify.compare_all h v.elements_ w false).1),
        (verify.compare_all h v.elements_ w false).2.1,
        (verify.compare_all h v.elements_ w false).2.2) := by
  unfold verify.apply
  rw [hpages]

/-- C25: when the page check of `verify::apply` passes on a verify whose map is
in ascending key order and keyed by element address, the comparators invoked are
those of a prefix of the map, so they run in ascending address order; the
`expect` hook is called once after every comparator call, with the value the
comparator returned and the location of the element; every answer of the hook
but the last is `run`, and the whole map is evaluated when no answer is `stop`;
the value returned is true exactly when every evaluated comparator returned
true. With a hook that always answers `run` and comparators that evaluate as
`eval`, the value returned is true exactly when `eval` is true at all elements.
When the first comparator returns false and the hook answers `stop`, the hook is
called exactly once and `apply` returns false, however many elements follow. -/
theorem verify_apply_spec {σ Op : Type} (v : verify Op) (cap : Nat) (a : mmio)
    (h : verify_hooks σ Op) (w : σ)
    (hsorted : v.elements_.keys.Pairwise (· < ·))
    (hkeyed : ∀ p ∈ v.elements_, p.1 = p.2.addr)
    (hpages : verify.check_pages cap a v.elements_ = none) :
    (∃ n, n ≤ v.elements_.length ∧ (v.elements_ = [] ∨ 0 < n) ∧
      (verify_event.evaluated (v.apply cap a h w).2.2).map Prod.fst =
        (v.elements_.take n).map Prod.snd) ∧
    ((verify_event.evaluated (v.apply cap a h w).2.2).map
      (fun p => p.1.addr)).Pairwise (· < ·) ∧
    (verify_event.hook_calls (v.apply cap a h w).2.2).map (fun c => (c.1, c.2.1)) =
      (verify_event.evaluated (v.apply cap a h w).2.2).map (fun p => (p.2, p.1.location)) ∧
    (∀ x ∈ ((verify_event.hook_calls (v.apply cap a h w).2.2).map
      (fun c => c.2.2)).dropLast, x = control.run) ∧
    ((∀ x ∈ (verify_event.hook_calls (v.apply cap a h w).2.2).map (fun c => c.2.2),
        x = control.run) →
      (verify_event.evaluated (v.apply cap a h w).2.2).map Prod.fst =
        v.elements_.map Prod.snd) ∧
    (v.apply cap a h w).1 =
      Except.ok ((verify_event.evaluated (v.apply cap a h w).2.2).all (fun p => p.2)) ∧
    ((∀ w_ b l, (h.expect w_ b l).1 = control.run) →
      ∀ eval : element Op → Bool, (∀ w_ el, (h.call w_ el).1 = eval el) →
      (v.apply cap a h w).1 = Except.ok (v.elements_.all (fun el => eval el.2))) ∧
    (∀ el rest, v.elements_ = el :: rest → (h.call w el.2).1 = false →
      (h.expect (h.call w el.2).2 false el.2.location).1 = control.stop →
      (verify_event.hook_calls (v.apply cap a h w).2.2).length = 1 ∧
      (v.apply cap a h w).1 = Except.ok false) := by
  rw [verify_apply_of_pages_ok v cap a h w hpages]
  simp only
  obtain ⟨⟨n, hn, hpos, hpre⟩, hhook, hdrop, hall, hfail, hev⟩ :=
    compare_all_spec h v.elements_ w false
  have hresult : (!(verify.compare_all h v.elements_ w false).1) =
      (verify_event.evaluated (verify.compare_all h v.elements_ w false).2.2).all
        (fun p => p.2) := by
    rw [hfail, Bool.false_or, not_any_not_eq_all]
  refine ⟨⟨n, hn, hpos, hpre⟩, ?_, hhook, hdrop, hall, by rw [hresult], ?_, ?_⟩
  · have h1 : (verify_event.evaluated (verify.compare_all h v.elements_ w false).2.2).map
        (fun p => p.1.addr) =
        ((verify_event.evaluated (verify.compare_all h v.elements_ w false).2.2).map
          Prod.fst).map element.addr := by
      rw [List.map_map]; rfl
    rw [h1, hpre, List.map_map]
    have h2 : (v.elements_.take n).map (element.addr ∘ Prod.snd) =
        (v.elements_.take n).map Prod.fst := by
      apply List.map_congr_left
      intro p hp
      exact (hkeyed p (List.mem_of_mem_take hp)).symm
    rw [h2]
    have h3 : ((v.elements_.take n).map Prod.fst).Sublist (v.elements_.map Prod.fst) :=
      (List.take_sublist n v.elements_).map Prod.fst
    exact List.Pairwise.sublist h3 hsorted
  · intro hrun eval heval
    rw [hresult, all_snd_eq_all_eval eval _ (hev eval heval),
      compare_all_run_evaluated h hrun v.elements_ w false]
    congr 1
    generalize v.elements_ = l
    induction l with
    | nil => rfl
    | cons p rest ih => simp only [List.map_cons, List.all_cons, ih]
  · intro el rest hel hcall hexpect
    rw [hel, verify.compare_all]
    cases hc : h.call w el.2 with
    | mk success w1 =>
      rw [hc] at hcall hexpect
      simp only at hcall hexpect
      subst hcall
      cases he : h.expect w1 false el.2.location with
      | mk answer w2 =>
        rw [he] at hexpect
        simp only at hexpect
        subst hexpect
        simp [he, verify_event.hook_calls]

/-- Witness of C25: two elements above the cap whose comparators return false,
and a hook that counts its calls and answers `stop`; the hook is called once and
`apply` returns false. -/
theorem verify_apply_spec_witness :
    (verify_event.hook_calls
      (@verify.apply Nat Unit
        ⟨[(0x7ffd00000010, ⟨⟨0x7ffd00000010, 8⟩, (), ⟨"v1", 1⟩⟩),
          (0x7ffd00000018, ⟨⟨0x7ffd00000018, 8⟩, (), ⟨"v2", 2⟩⟩)], ⟨"sut", 3⟩⟩
        0x100000000 mmio.initial
        ⟨fun count _ => (false, count), fun count _ _ => (control.stop, count + 1)⟩
        0).2.2).length = 1 ∧
    (@verify.apply Nat Unit
        ⟨[(0x7ffd00000010, ⟨⟨0x7ffd00000010, 8⟩, (), ⟨"v1", 1⟩⟩),
          (0x7ffd00000018, ⟨⟨0x7ffd00000018, 8⟩, (), ⟨"v2", 2⟩⟩)], ⟨"sut", 3⟩⟩
        0x100000000 mmio.initial
        ⟨fun count _ => (false, count), fun count _ _ => (control.stop, count + 1)⟩
        0).1 = Except.ok false :=
  (verify_apply_spec
    ⟨[(0x7ffd00000010, ⟨⟨0x7ffd00000010, 8⟩, (), ⟨"v1", 1⟩⟩),
      (0x7ffd00000018, ⟨⟨0x7ffd00000018, 8⟩, (), ⟨"v2", 2⟩⟩)], ⟨"sut", 3⟩⟩
    0x100000000 mmio.initial
    ⟨fun count _ => (false, count), fun count _ _ => (control.stop, count + 1)⟩
    0 (by decide) (by decide) rfl).2.2.2.2.2.2.2 _ _ rfl rfl rfl


/-- The page check that skips the keys at or above the cap passes exactly when
the arena contains the page range of every element keyed below the cap; when it
fails, the exception cites the declaration site of such an element. -/
theorem check_pages_skipping_spec {Op : Type} (cap : Nat) (a : mmio) :
    ∀ (m : List (Nat × element Op)),
      (verify.check_pages_skipping cap a m = none ↔
        ∀ el ∈ m, el.1 < cap → a.contains el.2.pages = true) ∧
      (∀ e, verify.check_pages_skipping cap a m = some e →
        ∃ el ∈ m, el.1 < cap ∧ a.contains el.2.pages = false ∧
          e = exception.page_is_not_allocated el.2.location) := by
  intro m
  induction m with
  | nil =>
    refine ⟨⟨fun _ el hel => absurd hel (List.not_mem_nil el), fun _ => rfl⟩, ?_⟩
    intro e he
    simp [verify.check_pages_skipping] at he
  | cons el rest ih =>
    by_cases hcap : cap ≤ el.1
    · simp only [verify.check_pages_skipping, if_pos hcap]
      refine ⟨⟨fun hnone x hx hlt => ?_, fun hall => ?_⟩, fun e he => ?_⟩
      · rcases List.mem_cons.mp hx with hx1 | hx1
        · subst hx1; omega
        · exact ih.1.mp hnone x hx1 hlt
      · exact ih.1.mpr (fun x hx => hall x (List.mem_cons_of_mem _ hx))
      · obtain ⟨x, hx, hrest⟩ := ih.2 e he
        exact ⟨x, List.mem_cons_of_mem _ hx, hrest⟩
    · cases hcon : a.contains el.2.pages with
      | false =>
        simp only [verify.check_pages_skipping, if_neg hcap, hcon, Bool.not_false, if_true]
        refine ⟨⟨fun hnone => by simp at hnone, fun hall => ?_⟩, fun e he => ?_⟩
        · have := hall el (List.mem_cons_self _ _) (by omega)
          rw [hcon] at this
          cases this
        · refine ⟨el, List.mem_cons_self _ _, by omega, hcon, ?_⟩
          simp only [Option.some.injEq] at he
          exact he.symm
      | true =>
        simp only [verify.check_pages_skipping, if_neg hcap, hcon, Bool.not_true]
        refine ⟨⟨fun hnone x hx hlt => ?_, fun hall => ?_⟩, fun e he => ?_⟩
        · rcases List.mem_cons.mp hx with hx1 | hx1
          · subst hx1; exact hcon
          · exact ih.1.mp (by simpa using hnone) x hx1 hlt
        · simpa using ih.1.mpr (fun x hx => hall x (List.mem_cons_of_mem _ hx))
        · obtain ⟨x, hx, hrest⟩ := ih.2 e (by simpa using he)
          exact ⟨x, List.mem_cons_of_mem _ hx, hrest⟩

/-- C26: on a verify whose map is in ascending key order and keyed by element
address, `verify::apply` throws exactly when some element with address below the
cap has a covering page range for which `mmio::contains` is false. What it throws
is `page_is_not_allocated` for the declaration site of such an element, and then
no comparator and no hook has been called and the state is untouched. When the
arena contains the page ranges of all elements below the cap, `apply` returns a
value, whatever the comparators return. -/
theorem verify_apply_throws_iff {σ Op : Type} (v : verify Op) (cap : Nat) (a : mmio)
    (h : verify_hooks σ Op) (w : σ)
    (hsorted : v.elements_.keys.Pairwise (· < ·))
    (hkeyed : ∀ p ∈ v.elements_, p.1 = p.2.addr) :
    ((∃ e, (v.apply cap a h w).1 = Except.error e) ↔
      ∃ el ∈ v.elements_, el.2.addr < cap ∧ a.contains el.2.pages = false) ∧
    (∀ e, (v.apply cap a h w).1 = Except.error e →
      (∃ el ∈ v.elements_, el.2.addr < cap ∧ a.contains el.2.pages = false ∧
        e = exception.page_is_not_allocated el.2.location) ∧
      (v.apply cap a h w).2.2 = [] ∧ (v.apply cap a h w).2.1 = w) ∧
    ((∀ el ∈ v.elements_, el.2.addr < cap → a.contains el.2.pages = true) →
      ∃ result, (v.apply cap a h w).1 = Except.ok result) := by
  have hspec := check_pages_skipping_spec cap a v.elements_
  rw [← check_pages_eq_skipping cap a _ hsorted] at hspec
  cases hcheck : verify.check_pages cap a v.elements_ with
  | none =>
    have hok := verify_apply_of_pages_ok v cap a h w hcheck
    have hall := hspec.1.mp hcheck
    refine ⟨⟨fun ⟨e, he⟩ => ?_, fun ⟨el, hel, hlt, hcon⟩ => ?_⟩, fun e he => ?_, fun _ => ?_⟩
    · rw [hok] at he
      cases he
    · have := hall el hel (by rw [hkeyed el hel]; exact hlt)
      rw [hcon] at this
      cases this
    · rw [hok] at he
      cases he
    · exact ⟨_, by rw [hok]⟩
  | some e0 =>
    have happly : v.apply cap a h w = (Except.error e0, w, []) := by
      unfold verify.apply
      rw [hcheck]
    obtain ⟨el, hel, hlt, hcon, he0⟩ := hspec.2 e0 hcheck
    have hlt2 : el.2.addr < cap := by rw [← hkeyed el hel]; exact hlt
    refine ⟨⟨fun _ => ⟨el, hel, hlt2, hcon⟩, fun _ => ⟨e0, by rw [happly]⟩⟩,
      fun e he => ?_, fun hall => ?_⟩
    · rw [happly] at he ⊢
      simp only [Except.error.injEq] at he
      subst he
      exact ⟨⟨el, hel, hlt2, hcon, he0⟩, rfl, rfl⟩
    · have := hall el hel hlt2
      rw [hcon] at this
      cases this

/-- Witness of C26: a verify over an element at `0x1004` applied while the arena
is empty throws `page_is_not_allocated` for that element, although its
comparator would succeed. -/
theorem verify_apply_throws_iff_witness :
    (@verify.apply Unit Unit
        ⟨[(0x1004, ⟨⟨0x1004, 8⟩, (), ⟨"el", 1⟩⟩)], ⟨"sut", 2⟩⟩
        0x100000000 mmio.initial
        (verify_hooks.default_expect (fun _ => true)) ()).1 =
      Except.error (exception.page_is_not_allocated ⟨"el", 1⟩) ∧
    ((∃ e, (@verify.apply Unit Unit
        ⟨[(0x1004, ⟨⟨0x1004, 8⟩, (), ⟨"el", 1⟩⟩)], ⟨"sut", 2⟩⟩
        0x100000000 mmio.initial
        (verify_hooks.default_expect (fun _ => true)) ()).1 = Except.error e) ↔
      ∃ el ∈ [((0x1004 : Nat), (⟨⟨0x1004, 8⟩, (), ⟨"el", 1⟩⟩ : element Unit))],
        el.2.addr < 0x100000000 ∧ mmio.initial.contains el.2.pages = false) :=
  ⟨rfl,
    (verify_apply_throws_iff
      ⟨[(0x1004, ⟨⟨0x1004, 8⟩, (), ⟨"el", 1⟩⟩)], ⟨"sut", 2⟩⟩
      0x100000000 mmio.initial
      (verify_hooks.default_expect (fun _ => true)) () (by decide) (by decide)).1⟩


/-! ## Theorems: `stub::apply` -/

/-- The covering page range of an element that ends at or below `2^44 - 4096`
does not wrap and holds the page of every byte of the element. -/
theorem element_pages_spec {Op : Type} (e : element Op)
    (hfit : e.region_.address_ + e.region_.size_ ≤ 2 ^ 44 - 4096) :
    e.pages.begin_ + e.pages.size_ < pageid_modulus ∧
    ∀ b, e.region_.has_byte b → e.pages.has_page (b / page_size) := by
  unfold element.pages element.begin element.end_ region.end_ pagerange.of_pointers
    ptrs2size ptr2page
  simp only [pagerange.has_page, region.has_byte, region.addr, region.size, page_size,
    word_modulus, pageid_modulus, if_true, Bool.false_eq_true, if_false]
  constructor
  · omega
  · intro b hb
    omega

/-- A successful `pagerange::join` of two ranges that do not wrap leaves a range
that does not wrap and holds the pages of both; a failed one leaves the receiver
as it was. -/
theorem pagerange_join_covers (self that : pagerange)
    (hs : self.begin_ + self.size_ < pageid_modulus)
    (ht : that.begin_ + that.size_ < pageid_modulus) :
    ((self.join that).1 = false → (self.join that).2 = self) ∧
    ((self.join that).1 = true →
      (self.join that).2.begin_ + (self.join that).2.size_ < pageid_modulus ∧
      ∀ x, self.has_page x ∨ that.has_page x → (self.join that).2.has_page x) := by
  have e1 : self.end_ = self.begin_ + self.size_ := Nat.mod_eq_of_lt hs
  have e2 : that.end_ = that.begin_ + that.size_ := Nat.mod_eq_of_lt ht
  unfold pagerange.join
  cases hov : self.overlapping that with
  | false => simp
  | true =>
    simp only [Bool.not_true, Bool.false_eq_true, if_false]
    rw [e1, e2]
    unfold pagerange.has_page pageid_modulus at *
    simp only
    refine ⟨fun h => absurd h (by simp), fun _ => ⟨?_, fun x hx => ?_⟩⟩
    · omega
    · omega


/-- One turn of the page scan for an element below the cap: the scan goes on
with a working list that does not wrap, still covers what it covered and covers
the page range of the element. -/
theorem collect_pages_skipping_step {Op : Type} (cap : Nat) (el : Nat × element Op)
    (rest : List (Nat × element Op)) (acc : List pagerange)
    (hcap : ¬ cap ≤ el.1)
    (hel : el.2.pages.begin_ + el.2.pages.size_ < pageid_modulus)
    (hacc : ∀ p ∈ acc, p.begin_ + p.size_ < pageid_modulus) :
    ∃ acc_ : List pagerange,
      stub.collect_pages_skipping cap (el :: rest) acc =
        stub.collect_pages_skipping cap rest acc_ ∧
      (∀ p ∈ acc_, p.begin_ + p.size_ < pageid_modulus) ∧
      (∀ x, pages_cover acc x → pages_cover acc_ x) ∧
      (∀ x, el.2.pages.has_page x → pages_cover acc_ x) := by
  cases acc with
  | nil =>
    refine ⟨[el.2.pages], ?_, ?_, ?_, ?_⟩
    · simp only [stub.collect_pages_skipping, if_neg hcap]
    · intro p hp
      rw [List.mem_singleton] at hp
      subst hp
      exact hel
    · intro x ⟨p, hp, _⟩
      exact absurd hp (List.not_mem_nil p)
    · intro x hx
      exact ⟨el.2.pages, List.mem_singleton.mpr rfl, hx⟩
  | cons front tail =>
    have hfront := hacc front (List.mem_cons_self _ _)
    have hjoin := pagerange_join_covers front el.2.pages hfront hel
    cases hj : front.join el.2.pages with
    | mk flag joined =>
      rw [hj] at hjoin
      simp only at hjoin
      cases flag with
      | true =>
        obtain ⟨hwrap, hcover⟩ := hjoin.2 rfl
        refine ⟨joined :: tail, ?_, ?_, ?_, ?_⟩
        · simp only [stub.collect_pages_skipping, if_neg hcap, hj]
        · intro p hp
          rcases List.mem_cons.mp hp with h1 | h1
          · subst h1; exact hwrap
          · exact hacc p (List.mem_cons_of_mem _ h1)
        · intro x ⟨p, hp, hx⟩
          rcases List.mem_cons.mp hp with h1 | h1
          · subst h1
            exact ⟨joined, List.mem_cons_self _ _, hcover x (Or.inl hx)⟩
          · exact ⟨p, List.mem_cons_of_mem _ h1, hx⟩
        · intro x hx
          exact ⟨joined, List.mem_cons_self _ _, hcover x (Or.inr hx)⟩
      | false =>
        refine ⟨front :: tail ++ [el.2.pages], ?_, ?_, ?_, ?_⟩
        · simp only [stub.collect_pages_skipping, if_neg hcap, hj]
        · intro p hp
          rcases List.mem_append.mp hp with h1 | h1
          · exact hacc p h1
          · rw [List.mem_singleton] at h1
            subst h1
            exact hel
        · intro x ⟨p, hp, hx⟩
          exact ⟨p, List.mem_append_left _ hp, hx⟩
        · intro x hx
          exact ⟨el.2.pages, List.mem_append_right _ (List.mem_singleton.mpr rfl), hx⟩

/-- The working list left by the page scan covers what the list covered at the
start and the page range of every element below the cap, when none of these
page ranges wraps. -/
theorem collect_pages_skipping_covers {Op : Type} (cap : Nat) :
    ∀ (m : List (Nat × element Op)) (acc : List pagerange),
      (∀ el ∈ m, el.1 < cap → el.2.pages.begin_ + el.2.pages.size_ < pageid_modulus) →
      (∀ p ∈ acc, p.begin_ + p.size_ < pageid_modulus) →
      (∀ x, pages_cover acc x → pages_cover (stub.collect_pages_skipping cap m acc) x) ∧
      (∀ el ∈ m, el.1 < cap → ∀ x, el.2.pages.has_page x →
        pages_cover (stub.collect_pages_skipping cap m acc) x) := by
  intro m
  induction m with
  | nil =>
    intro acc _ _
    exact ⟨fun x hx => hx, fun el hel => absurd hel (List.not_mem_nil el)⟩
  | cons el rest ih =>
    intro acc hm hacc
    have hrest : ∀ x ∈ rest, x.1 < cap →
        x.2.pages.begin_ + x.2.pages.size_ < pageid_modulus :=
      fun x hx => hm x (List.mem_cons_of_mem _ hx)
    by_cases hcap : cap ≤ el.1
    · have heq : stub.collect_pages_skipping cap (el :: rest) acc =
          stub.collect_pages_skipping cap rest acc := by
        simp only [stub.collect_pages_skipping, if_pos hcap]
      rw [heq]
      obtain ⟨h1, h2⟩ := ih acc hrest hacc
      refine ⟨h1, fun x hx hlt => ?_⟩
      rcases List.mem_cons.mp hx with hx1 | hx1
      · subst hx1; omega
      · exact h2 x hx1 hlt
    · obtain ⟨acc_, heq, hwrap, hkeep, hnew⟩ :=
        collect_pages_skipping_step cap el rest acc hcap
          (hm el (List.mem_cons_self _ _) (by omega)) hacc
      rw [heq]
      obtain ⟨h1, h2⟩ := ih acc_ hrest hwrap
      refine ⟨fun x hx => h1 x (hkeep x hx), fun y hy hlt => ?_⟩
      rcases List.mem_cons.mp hy with hy1 | hy1
      · subst hy1
        exact fun x hx => h1 x (hnew x hx)
      · exact h2 y hy1 hlt


/-- On an arena whose records all belong to the requester and are keyed by their
first page, a request that equals every record starting at its first page passes
`mmio::validate`. -/
theorem validate_same_owner (a : mmio) (p : pagerange) (identity : Nat)
    (location : source_location)
    (hown : ∀ i ∈ a.allocations_, i.2.owner = identity ∧ i.1 = i.2.range.begin_)
    (hsame : ∀ i ∈ a.allocations_, i.2.range.begin_ = p.begin_ → i.2.range = p) :
    a.validate p identity location = none := by
  unfold mmio.validate
  cases hat : a.allocations_at p.begin with
  | some previous =>
    have hmem := (allocations_at_spec a p.begin).1 previous hat
    have ho := (hown _ hmem).1
    have hk := (hown _ hmem).2
    simp only at ho hk
    have hr : previous.range = p := hsame _ hmem (by
      simp only
      rw [← hk]
      rfl)
    simp only [if_pos ho, (pagerange_op_eq_iff previous.range p).mpr hr, if_true]
  | none =>
    simp only
    cases hf : a.allocations_.find? (fun item => p.overlapping item.2.range) with
    | none => rfl
    | some found =>
      have hmem := List.mem_of_find?_eq_some hf
      have ho := (hown _ hmem).1
      simp only [ne_eq, ho, not_true_eq_false, if_false]

/-- One `allocate` of `stub::apply` on an arena whose records all belong to the
stub: it throws `system_error` when the operating system refuses, and otherwise
records the range, keeps the records there were, and leaves an arena of the
same kind. -/
theorem allocate_same_owner (a : mmio) (mmap_ok : Bool) (p : pagerange) (identity : Nat)
    (location : source_location)
    (hwf : (a.allocations_.map Prod.fst).Pairwise (· < ·))
    (hown : ∀ i ∈ a.allocations_, i.2.owner = identity ∧ i.1 = i.2.range.begin_)
    (hsame : ∀ i ∈ a.allocations_, i.2.range.begin_ = p.begin_ → i.2.range = p) :
    (mmap_ok = false →
      a.allocate mmap_ok p identity location =
        (a, [], some (exception.system_error p.pointer p.size_bytes))) ∧
    (mmap_ok = true →
      ∃ a_ calls, a.allocate mmap_ok p identity location = (a_, calls, none) ∧
        (a_.allocations_.map Prod.fst).Pairwise (· < ·) ∧
        (∀ i ∈ a_.allocations_, i.2.owner = identity ∧ i.1 = i.2.range.begin_) ∧
        (∀ i ∈ a.allocations_, i ∈ a_.allocations_) ∧
        (∃ i ∈ a_.allocations_, i.2.range = p ∧ i.2.owner = identity) ∧
        (∀ i ∈ a_.allocations_, i ∈ a.allocations_ ∨ i.2.range = p)) := by
  have hval := validate_same_owner a p identity location hown hsame
  constructor
  · intro hos
    subst hos
    unfold mmio.allocate
    rw [hval]
    rfl
  · intro hos
    subst hos
    unfold mmio.allocate
    rw [hval]
    simp only [if_true]
    refine ⟨_, _, rfl, ?_⟩
    simp only
    have hspec := map_emplace_spec p.begin
      ({ range := p, owner := identity, location := location } : allocation)
      a.allocations_ hwf
    by_cases hkey : p.begin ∈ a.allocations_.map Prod.fst
    · rw [hspec.1 hkey]
      refine ⟨hwf, hown, fun i hi => hi, ?_, fun i hi => Or.inl hi⟩
      obtain ⟨i, hi, hik⟩ := List.mem_map.mp hkey
      refine ⟨i, hi, hsame i hi ?_, (hown i hi).1⟩
      rw [← (hown i hi).2, hik]
      rfl
    · obtain ⟨hsorted, hmem⟩ := hspec.2 hkey
      refine ⟨hsorted, ?_, fun i hi => (hmem i).mpr (Or.inr hi), ?_, ?_⟩
      · intro i hi
        rcases (hmem i).mp hi with h1 | h1
        · subst h1
          exact ⟨rfl, rfl⟩
        · exact hown i h1
      · exact ⟨_, (hmem _).mpr (Or.inl rfl), rfl, rfl⟩
      · intro i hi
        rcases (hmem i).mp hi with h1 | h1
        · subst h1
          exact Or.inr rfl
        · exact Or.inl h1


/-- The allocation loop of `stub::apply` on an arena whose records all belong to
the stub, for a working list in which no two different ranges start at the same
page: the only exception is the `system_error` of a refused `mmap`; without
exception every range of the list is recorded for the stub and the records there
were are kept; and there is no exception when the operating system grants every
range of the list. -/
theorem allocate_all_same_owner (os : pagerange → Bool) (identity : Nat)
    (location : source_location) :
    ∀ (ps : List pagerange) (a : mmio),
      (a.allocations_.map Prod.fst).Pairwise (· < ·) →
      (∀ i ∈ a.allocations_, i.2.owner = identity ∧ i.1 = i.2.range.begin_) →
      (∀ p ∈ ps, ∀ i ∈ a.allocations_, i.2.range.begin_ = p.begin_ → i.2.range = p) →
      pages_distinct_begins ps →
      (∀ e, (mmio.allocate_all os identity location ps a).2.2 = some e →
        ∃ p ∈ ps, os p = false ∧ e = exception.system_error p.pointer p.size_bytes) ∧
      ((mmio.allocate_all os identity location ps a).2.2 = none →
        (∀ i ∈ a.allocations_,
          i ∈ (mmio.allocate_all os identity location ps a).1.allocations_) ∧
        (∀ i ∈ (mmio.allocate_all os identity location ps a).1.allocations_,
          i.2.owner = identity) ∧
        ∀ p ∈ ps, ∃ i ∈ (mmio.allocate_all os identity location ps a).1.allocations_,
          i.2.range = p ∧ i.2.owner = identity) ∧
      ((∀ p ∈ ps, os p = true) →
        (mmio.allocate_all os identity location ps a).2.2 = none) := by
  intro ps
  induction ps with
  | nil =>
    intro a _ hown _ _
    refine ⟨fun e he => ?_, fun _ => ⟨fun i hi => hi, fun i hi => (hown i hi).1, ?_⟩,
      fun _ => rfl⟩
    · simp [mmio.allocate_all] at he
    · intro p hp
      exact absurd hp (List.not_mem_nil p)
  | cons p rest ih =>
    intro a hwf hown hsame hdist
    have hdist2 : (p :: rest).Pairwise (fun p q => p.begin_ = q.begin_ → p = q) := hdist
    obtain ⟨hhead, htail⟩ := List.pairwise_cons.mp hdist2
    obtain ⟨hrefused, hgranted⟩ := allocate_same_owner a (os p) p identity location hwf hown
      (hsame p (List.mem_cons_self _ _))
    rw [mmio.allocate_all]
    cases hos : os p with
    | false =>
      rw [hos] at hrefused
      rw [hrefused rfl]
      simp only
      refine ⟨fun e he => ?_, fun h => by simp at h, fun hall => ?_⟩
      · simp only [Option.some.injEq] at he
        exact ⟨p, List.mem_cons_self _ _, hos, he.symm⟩
      · have := hall p (List.mem_cons_self _ _)
        rw [hos] at this
        cases this
    | true =>
      rw [hos] at hgranted
      obtain ⟨a_, calls, hcall, hwf_, hown_, hkeep, ⟨i0, hi0, hi0r, hi0o⟩, honly⟩ :=
        hgranted rfl
      rw [hcall]
      simp only
      have hsame_ : ∀ q ∈ rest, ∀ i ∈ a_.allocations_,
          i.2.range.begin_ = q.begin_ → i.2.range = q := by
        intro q hq i hi hb
        rcases honly i hi with h1 | h1
        · exact hsame q (List.mem_cons_of_mem _ hq) i h1 hb
        · rw [h1] at hb ⊢
          exact hhead q hq hb
      obtain ⟨hthrow, hnone, hok⟩ := ih a_ hwf_ hown_ hsame_ htail
      cases hrec : mmio.allocate_all os identity location rest a_ with
      | mk arena r =>
        obtain ⟨calls_, thrown⟩ := r
        rw [hrec] at hthrow hnone hok
        simp only at hthrow hnone hok ⊢
        refine ⟨fun e he => ?_, fun h => ?_, fun hall => ?_⟩
        · obtain ⟨q, hq, hq2⟩ := hthrow e he
          exact ⟨q, List.mem_cons_of_mem _ hq, hq2⟩
        · obtain ⟨h1, h2, h3⟩ := hnone h
          refine ⟨fun i hi => h1 i (hkeep i hi), h2, fun q hq => ?_⟩
          rcases List.mem_cons.mp hq with hq1 | hq1
          · subst hq1
            exact ⟨i0, h1 i0 hi0, hi0r, hi0o⟩
          · exact h3 q hq1
        · exact hok (fun q hq => hall q (List.mem_cons_of_mem _ hq))


/-- C22 (as stated, refuted): the stub of the single element `{0x1000, 2^44 + 0x1000}`
is accepted by the constructor and applied to the empty arena without exception,
yet only page 1 is recorded: the page identifiers are 32-bit, so the last page
`2^32 + 2` of the element is taken for page 2, and page 2 of the byte `0x2000`
of the element is covered by no record. The stub of the elements `{0x1000, 8}`,
`{0x3000, 8}`, `{0x3FF8, 16}` is accepted by the constructor as well, and its
`apply` on the empty arena throws `conflicting_allocation`. -/
theorem stub_apply_covers_counterexample :
    (∃ s : stub Nat,
      stub.of_list [⟨⟨0x1000, 2 ^ 44 + 0x1000⟩, 1, ⟨"a", 1⟩⟩] ⟨"stub", 2⟩ = Except.ok s ∧
      (s.apply 1 0x100000000 (fun _ => true) mmio.initial).thrown = none ∧
      (s.apply 1 0x100000000 (fun _ => true) mmio.initial).arena.allocations_ =
        [(1, ⟨⟨1, 1⟩, 1, ⟨"stub", 2⟩⟩)] ∧
      (∃ el ∈ s.elements_, el.2.addr < 0x100000000 ∧ el.2.region_.has_byte 0x2000) ∧
      0x2000 / page_size = 2 ∧
      ∀ i ∈ (s.apply 1 0x100000000 (fun _ => true) mmio.initial).arena.allocations_,
        ¬ i.2.range.has_page 2) ∧
    (∃ s : stub Nat,
      stub.of_list
        [⟨⟨0x1000, 8⟩, 1, ⟨"a", 1⟩⟩, ⟨⟨0x3000, 8⟩, 2, ⟨"b", 2⟩⟩, ⟨⟨0x3FF8, 16⟩, 3, ⟨"c", 3⟩⟩]
        ⟨"stub", 4⟩ = Except.ok s ∧
      s.invariant ∧
      ∃ e, (s.apply 1 0x100000000 (fun _ => true) mmio.initial).thrown = some e ∧
        e.is_conflicting_allocation = true) := by
  refine ⟨⟨_, rfl, rfl, rfl, ?_, by decide, ?_⟩, ⟨_, rfl, ?_, _, rfl, rfl⟩⟩
  · refine ⟨(0x1000, ⟨⟨0x1000, 2 ^ 44 + 0x1000⟩, 1, ⟨"a", 1⟩⟩), List.mem_singleton.mpr rfl,
      by decide, ?_⟩
    unfold region.has_byte region.addr region.size
    exact ⟨by decide, by decide⟩
  · intro i hi
    have hl : (stub.apply (⟨[(0x1000, ⟨⟨0x1000, 2 ^ 44 + 0x1000⟩, 1, ⟨"a", 1⟩⟩)],
        ⟨"stub", 2⟩⟩ : stub Nat) 1 0x100000000 (fun _ => true)
        mmio.initial).arena.allocations_ = [(1, ⟨⟨1, 1⟩, 1, ⟨"stub", 2⟩⟩)] := rfl
    have hi2 : i ∈ [((1 : Nat), (⟨⟨1, 1⟩, 1, ⟨"stub", 2⟩⟩ : allocation))] := hl ▸ hi
    rw [List.mem_singleton] at hi2
    subst hi2
    unfold pagerange.has_page
    simp
  · unfold stub.invariant
    decide

/-- C22 (amended): take a stub whose element map is in ascending key order and
keyed by element address, whose elements below the cap end at or below
`2^44 - 4096`, and for which the working page list of `apply` holds no two
different ranges that start at the same page. Applied to an arena without
records, `stub::apply` throws no `conflicting_allocation` (what it throws, if
anything, is the `system_error` of a refused `mmap`, and then no operator closure
is invoked); when it throws nothing, all operator closures are invoked after the
allocations, and the page of every byte of every element with address below the
cap lies in a recorded allocation owned by this stub; and it throws nothing when
the operating system grants every `mmap`. -/
theorem stub_apply_covers {Op : Type} (s : stub Op) (identity cap : Nat)
    (os : pagerange → Bool) (a : mmio)
    (hempty : a.allocations_ = [])
    (hwf : s.well_formed)
    (hfit : ∀ el ∈ s.elements_, el.1 < cap →
      el.2.region_.address_ + el.2.region_.size_ ≤ 2 ^ 44 - 4096)
    (hkeys : pages_distinct_begins (stub.collect_pages cap s.elements_ [])) :
    (∀ e, (s.apply identity cap os a).thrown = some e →
      e.is_conflicting_allocation = false ∧ (s.apply identity cap os a).invoked = []) ∧
    ((s.apply identity cap os a).thrown = none →
      (s.apply identity cap os a).invoked = s.elements_.map Prod.snd ∧
      ∀ el ∈ s.elements_, el.2.addr < cap → ∀ b, el.2.region_.has_byte b →
        ∃ i ∈ (s.apply identity cap os a).arena.allocations_,
          i.2.owner = identity ∧ i.2.range.has_page (b / page_size)) ∧
    ((∀ p, os p = true) → (s.apply identity cap os a).thrown = none) := by
  obtain ⟨hsorted, hkeyed⟩ := hwf
  have hwrap : ∀ el ∈ s.elements_, el.1 < cap →
      el.2.pages.begin_ + el.2.pages.size_ < pageid_modulus :=
    fun el hel hlt => (element_pages_spec el.2 (hfit el hel hlt)).1
  have hcover := (collect_pages_skipping_covers cap s.elements_ [] hwrap
    (fun p hp => absurd hp (List.not_mem_nil p))).2
  rw [← collect_pages_eq_skipping cap _ _ hsorted] at hcover
  obtain ⟨hthrow, hnone, hok⟩ := allocate_all_same_owner os identity s.location_
    (stub.collect_pages cap s.elements_ []) a
    (by rw [hempty]; exact List.Pairwise.nil)
    (by rw [hempty]; exact fun i hi => absurd hi (List.not_mem_nil i))
    (by rw [hempty]; exact fun p _ i hi => absurd hi (List.not_mem_nil i))
    hkeys
  unfold stub.apply
  cases hall : mmio.allocate_all os identity s.location_
      (stub.collect_pages cap s.elements_ []) a with
  | mk arena r =>
    obtain ⟨calls, thrown⟩ := r
    rw [hall] at hthrow hnone hok
    simp only at hthrow hnone hok
    cases thrown with
    | some e0 =>
      simp only
      refine ⟨fun e he => ?_, fun h => by simp at h, fun hos => ?_⟩
      · simp only [Option.some.injEq] at he
        subst he
        obtain ⟨p, _, _, hp⟩ := hthrow e0 rfl
        rw [hp]
        exact ⟨rfl, trivial⟩
      · have := hok (fun p _ => hos p)
        simp at this
    | none =>
      simp only
      refine ⟨fun e he => by simp at he, fun _ => ⟨trivial, ?_⟩, fun _ => trivial⟩
      intro el hel hlt b hb
      have hkey : el.1 < cap := by rw [hkeyed el hel]; exact hlt
      obtain ⟨p, hp, hx⟩ := hcover el hel hkey (b / page_size)
        ((element_pages_spec el.2 (hfit el hel hkey)).2 b hb)
      obtain ⟨i, hi, hir, hio⟩ := (hnone rfl).2.2 p hp
      exact ⟨i, hi, hio, by rw [hir]; exact hx⟩

/-- Witness of C22 (amended): the stub of the elements `{0x1000, 8}`,
`{0x1FF8, 16}` and `{0x5000, 8}`, applied to the empty arena with every `mmap`
granted, throws nothing, and the pages 1, 2 and 5 of its bytes are recorded. -/
theorem stub_apply_covers_witness :
    (@stub.apply Nat
        ⟨[(0x1000, ⟨⟨0x1000, 8⟩, 1, ⟨"a", 1⟩⟩), (0x1FF8, ⟨⟨0x1FF8, 16⟩, 2, ⟨"b", 2⟩⟩),
          (0x5000, ⟨⟨0x5000, 8⟩, 3, ⟨"c", 3⟩⟩)], ⟨"stub", 4⟩⟩
        1 0x100000000 (fun _ => true) mmio.initial).thrown = none ∧
    (@stub.apply Nat
        ⟨[(0x1000, ⟨⟨0x1000, 8⟩, 1, ⟨"a", 1⟩⟩), (0x1FF8, ⟨⟨0x1FF8, 16⟩, 2, ⟨"b", 2⟩⟩),
          (0x5000, ⟨⟨0x5000, 8⟩, 3, ⟨"c", 3⟩⟩)], ⟨"stub", 4⟩⟩
        1 0x100000000 (fun _ => true) mmio.initial).arena.allocations_ =
      [(1, ⟨⟨1, 2⟩, 1, ⟨"stub", 4⟩⟩), (5, ⟨⟨5, 1⟩, 1, ⟨"stub", 4⟩⟩)] :=
  ⟨(stub_apply_covers
      ⟨[(0x1000, ⟨⟨0x1000, 8⟩, 1, ⟨"a", 1⟩⟩), (0x1FF8, ⟨⟨0x1FF8, 16⟩, 2, ⟨"b", 2⟩⟩),
        (0x5000, ⟨⟨0x5000, 8⟩, 3, ⟨"c", 3⟩⟩)], ⟨"stub", 4⟩⟩
      1 0x100000000 (fun _ => true) mmio.initial rfl ⟨by decide, by decide⟩
      (by decide) (by decide)).2.2 (fun _ => rfl),
    rfl⟩


/-! ## Theorems: operators -/

/-- The bytes below the target of an assignment are not changed. -/
theorem memory_assign_below (v : List Nat) :
    ∀ (m : memory) (b x : Nat), x < b → (m.assign b v) x = m x := by
  induction v with
  | nil => intro m b x _; rfl
  | cons byte rest ih =>
    intro m b x hx
    rw [memory.assign, ih _ _ _ (by omega)]
    unfold memory.write_byte
    rw [if_neg (by omega)]

/-- The memory after an assignment, byte by byte. -/
theorem memory_assign_spec (v : List Nat) :
    ∀ (m : memory) (b x : Nat),
      (m.assign b v) x = if b ≤ x ∧ x < b + v.length then v.getD (x - b) 0 else m x := by
  induction v with
  | nil =>
    intro m b x
    rw [if_neg (by simp)]
    rfl
  | cons byte rest ih =>
    intro m b x
    rw [memory.assign]
    by_cases hxb : x = b
    · subst hxb
      rw [memory_assign_below rest _ _ _ (Nat.lt_succ_self _)]
      simp [memory.write_byte]
    · rw [ih]
      by_cases hin : b ≤ x ∧ x < b + (byte :: rest).length
      · have hin2 : b + 1 ≤ x ∧ x < b + 1 + rest.length := by
          simp only [List.length_cons] at hin
          omega
        rw [if_pos hin, if_pos hin2]
        have hsub : x - b = (x - (b + 1)) + 1 := by omega
        rw [hsub, List.getD_cons_succ]
      · have hin2 : ¬ (b + 1 ≤ x ∧ x < b + 1 + rest.length) := by
          simp only [List.length_cons] at hin
          omega
        rw [if_neg hin, if_neg hin2]
        unfold memory.write_byte
        rw [if_neg hxb]

/-- The bytes loaded from `b` are the bytes `v` exactly when `v` has the length
asked for and every byte of `v` is the one stored at its place. -/
theorem memory_load_eq_iff (m : memory) :
    ∀ (n b : Nat) (v : List Nat),
      m.load b n = v ↔ v.length = n ∧ ∀ i, i < n → m (b + i) = v.getD i 0 := by
  intro n
  induction n with
  | zero =>
    intro b v
    rw [memory.load]
    constructor
    · intro h
      subst h
      exact ⟨rfl, fun i hi => absurd hi (Nat.not_lt_zero i)⟩
    · intro ⟨h, _⟩
      exact (List.length_eq_zero.mp h).symm
  | succ n ih =>
    intro b v
    rw [memory.load]
    cases v with
    | nil =>
      constructor
      · intro h; cases h
      · intro ⟨h, _⟩; cases h
    | cons y ys =>
      constructor
      · intro h
        simp only [List.cons.injEq] at h
        obtain ⟨hy, hys⟩ := h
        obtain ⟨hlen, hbytes⟩ := (ih (b + 1) ys).mp hys
        refine ⟨by simp [hlen], fun i hi => ?_⟩
        cases i with
        | zero => simpa using hy
        | succ j =>
          have := hbytes j (by omega)
          rw [List.getD_cons_succ, ← this]
          congr 1
          omega
      · intro ⟨hlen, hbytes⟩
        have hy := hbytes 0 (Nat.succ_pos _)
        simp only [Nat.add_zero, List.getD_cons_zero] at hy
        rw [hy]
        congr 1
        apply (ih (b + 1) ys).mpr
        refine ⟨by simpa using hlen, fun i hi => ?_⟩
        have := hbytes (i + 1) (by omega)
        rw [List.getD_cons_succ] at this
        rw [← this]
        congr 1
        omega

/-- On byte sequences of the same length `std::memcmp` returns zero exactly when
the sequences are equal. -/
theorem memcmp_eq_zero_iff :
    ∀ (xs ys : List Nat), xs.length = ys.length → (memcmp xs ys = 0 ↔ xs = ys) := by
  intro xs
  induction xs with
  | nil =>
    intro ys h
    cases ys with
    | nil => simp [memcmp]
    | cons y ys => simp at h
  | cons x xs ih =>
    intro ys h
    cases ys with
    | nil => simp at h
    | cons y ys =>
      have hlen : xs.length = ys.length := by simpa using h
      rw [memcmp]
      by_cases h1 : x < y
      · rw [if_pos h1]
        constructor
        · intro h0; cases h0
        · intro heq
          simp only [List.cons.injEq] at heq
          omega
      · rw [if_neg h1]
        by_cases h2 : y < x
        · rw [if_pos h2]
          constructor
          · intro h0; cases h0
          · intro heq
            simp only [List.cons.injEq] at heq
            omega
        · rw [if_neg h2, ih ys hlen]
          have hxy : x = y := by omega
          subst hxy
          simp

/-- The number of bytes loaded is the number asked for. -/
theorem memory_load_length (m : memory) : ∀ (n b : Nat), (m.load b n).length = n := by
  intro n
  induction n with
  | zero => intro b; rfl
  | succ n ih => intro b; rw [memory.load, List.length_cons, ih]

/-- The closure of `comparator::one(v)` returns true exactly when the bytes at
`b` are the bytes of `v`. -/
theorem comparator_one_iff (v : List Nat) (m : memory) (b e : Nat) :
    comparator.one v m b e = true ↔ m.load b v.length = v := by
  unfold comparator.one
  rw [decide_eq_true_eq]
  exact memcmp_eq_zero_iff _ _ (memory_load_length m _ _)

/-- After the assignment of `v` at `b`, the bytes loaded from `b` are `v`. -/
theorem memory_load_assign (v : List Nat) (m : memory) (b : Nat) :
    (m.assign b v).load b v.length = v := by
  apply (memory_load_eq_iff _ _ _ _).mpr
  refine ⟨rfl, fun i hi => ?_⟩
  rw [memory_assign_spec, if_pos (by omega)]
  congr 1
  omega


/-- The loop of `std::fill` over a span of `k` values that ends below `2^64`
returns when given more than `k` turns of fuel; the bytes of the span then hold
`k` copies of `v` and every other byte is as before. -/
theorem std_fill_spec (v : List Nat) (hv : 0 < v.length) :
    ∀ (k fuel : Nat) (m : memory) (b : Nat),
      k < fuel → b + k * v.length < word_modulus →
      ∃ m1, std_fill v fuel m b (b + k * v.length) = some m1 ∧
        ∀ x, m1 x = if b ≤ x ∧ x < b + k * v.length
          then v.getD ((x - b) % v.length) 0 else m x := by
  intro k
  induction k with
  | zero =>
    intro fuel m b hfuel _
    cases fuel with
    | zero => omega
    | succ f =>
      refine ⟨m, ?_, fun x => ?_⟩
      · rw [std_fill, if_pos (by omega)]
      · rw [if_neg (by omega)]
  | succ k ih =>
    intro fuel m b hfuel hend
    cases fuel with
    | zero => omega
    | succ f =>
      have hmul : (k + 1) * v.length = k * v.length + v.length := Nat.succ_mul k v.length
      have hnext : (b + v.length) % word_modulus = b + v.length :=
        Nat.mod_eq_of_lt (by omega)
      have hlast : b + (k + 1) * v.length = (b + v.length) + k * v.length := by omega
      obtain ⟨m1, hfill, hm1⟩ := ih f (m.assign b v) (b + v.length) (by omega) (by omega)
      refine ⟨m1, ?_, fun x => ?_⟩
      · rw [std_fill, if_neg (by omega), hnext, hlast]
        exact hfill
      · rw [hm1 x, memory_assign_spec]
        by_cases h1 : b + v.length ≤ x ∧ x < b + v.length + k * v.length
        · rw [if_pos h1, if_pos (by omega)]
          have hsub : x - b = (x - (b + v.length)) + v.length := by omega
          rw [hsub, Nat.add_mod_right]
        · rw [if_neg h1]
          by_cases h2 : b ≤ x ∧ x < b + v.length
          · rw [if_pos h2, if_pos (by omega), Nat.mod_eq_of_lt (by omega)]
          · rw [if_neg h2, if_neg (by omega)]

/-- The loop of `comparator::all` over a span of `k` values that ends below
`2^64` returns when given more than `k` turns of fuel, and it returns true
exactly when each of the `k` slices holds the bytes of `v`. -/
theorem comparator_all_spec (v : List Nat) (hv : 0 < v.length) :
    ∀ (k fuel : Nat) (m : memory) (b : Nat),
      k < fuel → b + k * v.length < word_modulus →
      ∃ r, comparator.all v fuel m b (b + k * v.length) = some r ∧
        (r = true ↔ ∀ j, j < k → m.load (b + j * v.length) v.length = v) := by
  intro k
  induction k with
  | zero =>
    intro fuel m b hfuel _
    cases fuel with
    | zero => omega
    | succ f =>
      refine ⟨true, ?_, ?_⟩
      · rw [comparator.all, if_pos (by omega)]
      · simp
  | succ k ih =>
    intro fuel m b hfuel hend
    cases fuel with
    | zero => omega
    | succ f =>
      have hmul : (k + 1) * v.length = k * v.length + v.length := Nat.succ_mul k v.length
      have hnext : (b + v.length) % word_modulus = b + v.length :=
        Nat.mod_eq_of_lt (by omega)
      have hlast : b + (k + 1) * v.length = (b + v.length) + k * v.length := by omega
      have hcmp := memcmp_eq_zero_iff (m.load b v.length) v (memory_load_length m _ _)
      by_cases hfirst : m.load b v.length = v
      · obtain ⟨r, hr, hiff⟩ := ih f m (b + v.length) (by omega) (by omega)
        refine ⟨r, ?_, ?_⟩
        · rw [comparator.all, if_neg (by omega), if_neg (by
            rw [ne_eq, not_not]; exact hcmp.mpr hfirst), hnext, hlast]
          exact hr
        · rw [hiff]
          constructor
          · intro h j hj
            cases j with
            | zero => simpa using hfirst
            | succ i =>
              have := h i (by omega)
              have hidx : b + (i + 1) * v.length = b + v.length + i * v.length := by
                rw [Nat.succ_mul]; omega
              rw [hidx]
              exact this
          · intro h j hj
            have := h (j + 1) (by omega)
            have hidx : b + (j + 1) * v.length = b + v.length + j * v.length := by
              rw [Nat.succ_mul]; omega
            rw [hidx] at this
            exact this
      · refine ⟨false, ?_, ?_⟩
        · rw [comparator.all, if_neg (by omega), if_pos (by
            rw [ne_eq]; exact fun h0 => hfirst (hcmp.mp h0))]
        · constructor
          · intro h; cases h
          · intro h
            exact absurd (by simpa using h 0 (Nat.succ_pos _)) hfirst


/-- A memory that holds `v.getD ((x - b) % n) 0` at every byte `x` of a span of
`k` values holds the bytes of `v` in each of the `k` slices. -/
theorem memory_load_slice (v : List Nat) (m1 : memory) (b k : Nat)
    (hm1 : ∀ x, b ≤ x ∧ x < b + k * v.length → m1 x = v.getD ((x - b) % v.length) 0) :
    ∀ j, j < k → m1.load (b + j * v.length) v.length = v := by
  intro j hj
  apply (memory_load_eq_iff _ _ _ _).mpr
  refine ⟨rfl, fun i hi => ?_⟩
  have hle : (j + 1) * v.length ≤ k * v.length := Nat.mul_le_mul_right _ hj
  rw [Nat.succ_mul] at hle
  rw [hm1 _ (by omega)]
  have hsub : b + j * v.length + i - b = i + j * v.length := by omega
  rw [hsub, Nat.add_mul_mod_self_right, Nat.mod_eq_of_lt hi]

/-- C27: for every value with object representation `v` (of `n = v.length`
bytes), every memory and every `b`: after the closure of `generator::one(v)` ran
on a span starting at `b`, the closure of `comparator::one(v)` on a span starting
at `b` returns true; and the closure of `comparator::one(v)` returns true exactly
when the `n` bytes at `b` are the bytes of `v`. Neither closure looks at the end
of its span, so this holds for the span `[b, b + n)` in particular. -/
theorem generator_one_comparator_one (v : List Nat) (m : memory) (b e e_ : Nat) :
    comparator.one v (generator.one v m b e) b e_ = true ∧
    comparator.one v (generator.one v m b (b + v.length)) b (b + v.length) = true ∧
    (comparator.one v m b e = true ↔ m.load b v.length = v) :=
  ⟨(comparator_one_iff v _ b e_).mpr (memory_load_assign v m b),
    (comparator_one_iff v _ b _).mpr (memory_load_assign v m b),
    comparator_one_iff v m b e⟩

/-- C28: for every value with object representation `v` of `n > 0` bytes and
every span of `k * n` bytes that ends below `2^64`, with more than `k` turns of
fuel: the closure of `generator::all(v)` returns, the closure of
`comparator::all(v)` on the memory it leaves returns true, and after any one
aligned slice `j < k` of the span is overwritten with `n` bytes `w` other than
`v`, the closure of `comparator::all(v)` returns false. -/
theorem generator_all_comparator_all (v : List Nat) (m : memory) (b k fuel : Nat)
    (hv : 0 < v.length) (hend : b + k * v.length < word_modulus) (hfuel : k < fuel) :
    ∃ m1, generator.all v fuel m b (b + k * v.length) = some m1 ∧
      comparator.all v fuel m1 b (b + k * v.length) = some true ∧
      ∀ j w, j < k → w.length = v.length → w ≠ v →
        comparator.all v fuel (m1.assign (b + j * v.length) w) b (b + k * v.length) =
          some false := by
  obtain ⟨m1, hfill, hm1⟩ := std_fill_spec v hv k fuel m b hfuel hend
  have hslices := memory_load_slice v m1 b k (fun x hx => by rw [hm1 x, if_pos hx])
  refine ⟨m1, hfill, ?_, ?_⟩
  · obtain ⟨r, hr, hiff⟩ := comparator_all_spec v hv k fuel m1 b hfuel hend
    rw [hr, hiff.mpr hslices]
  · intro j w hj hw hne
    obtain ⟨r, hr, hiff⟩ := comparator_all_spec v hv k fuel
      (m1.assign (b + j * v.length) w) b hfuel hend
    rw [hr]
    cases r with
    | false => rfl
    | true =>
      have hload := hiff.mp rfl j hj
      rw [← hw, memory_load_assign] at hload
      exact absurd hload hne

/-- Witness of C28: the two-byte value `0xF0F0` written twice from `0x1002` into
a memory of bytes `0x0F`, with three turns of fuel. -/
theorem generator_all_comparator_all_witness :
    ∃ m1, generator.all [0xF0, 0xF0] 3 (fun _ => 0x0F) 0x1002
        (0x1002 + 2 * [0xF0, 0xF0].length) = some m1 ∧
      comparator.all [0xF0, 0xF0] 3 m1 0x1002 (0x1002 + 2 * [0xF0, 0xF0].length) =
        some true :=
  match generator_all_comparator_all [0xF0, 0xF0] (fun _ => 0x0F) 0x1002 2 3
    (by decide) (by decide) (by decide) with
  | ⟨m1, h1, h2, _⟩ => ⟨m1, h1, h2⟩

/-- C29: the closure of `generator::one(v)` called with `(b, e)` leaves the bytes
of `v` in the `sizeof(v)` bytes starting at `b`, whatever `e` is, and every other
byte unchanged. The closure of `generator::all(v)` called on a span of `k`
values that ends below `2^64` (for `sizeof(v) > 0` and more than `k` turns of
fuel) returns and leaves `k` copies of `v` in `[b, e)` and every byte outside
`[b, e)` unchanged. -/
theorem generator_frame (v : List Nat) (m : memory) (b k fuel : Nat)
    (hv : 0 < v.length) (hend : b + k * v.length < word_modulus) (hfuel : k < fuel) :
    (∀ e, (generator.one v m b e).load b v.length = v ∧
      ∀ x, ¬ (b ≤ x ∧ x < b + v.length) → (generator.one v m b e) x = m x) ∧
    ∃ m1, generator.all v fuel m b (b + k * v.length) = some m1 ∧
      (∀ j, j < k → m1.load (b + j * v.length) v.length = v) ∧
      (∀ x, b ≤ x ∧ x < b + k * v.length → m1 x = v.getD ((x - b) % v.length) 0) ∧
      (∀ x, ¬ (b ≤ x ∧ x < b + k * v.length) → m1 x = m x) := by
  constructor
  · intro e
    refine ⟨memory_load_assign v m b, fun x hx => ?_⟩
    unfold generator.one
    rw [memory_assign_spec, if_neg hx]
  · obtain ⟨m1, hfill, hm1⟩ := std_fill_spec v hv k fuel m b hfuel hend
    have hin : ∀ x, b ≤ x ∧ x < b + k * v.length →
        m1 x = v.getD ((x - b) % v.length) 0 := fun x hx => by rw [hm1 x, if_pos hx]
    exact ⟨m1, hfill, memory_load_slice v m1 b k hin, hin,
      fun x hx => by rw [hm1 x, if_neg hx]⟩

/-- Witness of C29: the four-byte value `0xF0F0F0F0` written twice from `0x1004`
into a memory of bytes `0x0F`, with three turns of fuel. -/
theorem generator_frame_witness :
    ∃ m1, generator.all [0xF0, 0xF0, 0xF0, 0xF0] 3 (fun _ => 0x0F) 0x1004
        (0x1004 + 2 * [0xF0, 0xF0, 0xF0, 0xF0].length) = some m1 ∧
      m1 0x1003 = 0x0F ∧ m1 0x100C = 0x0F :=
  match (generator_frame [0xF0, 0xF0, 0xF0, 0xF0] (fun _ => 0x0F) 0x1004 2 3
    (by decide) (by decide) (by decide)).2 with
  | ⟨m1, h1, _, _, h4⟩ => ⟨m1, h1, h4 0x1003 (by decide), h4 0x100C (by decide)⟩


/-! ## Theorems: literal operators -/

/-- The loop of `detail::pow` multiplies the result by `base ^ turns` in
`unsigned long long`. -/
theorem pow_loop_spec (base : Nat) :
    ∀ (turns result : Nat), result < word_modulus →
      pow_loop base turns result = (result * base ^ turns) % word_modulus := by
  intro turns
  induction turns with
  | zero =>
    intro result h
    rw [pow_loop, Nat.pow_zero, Nat.mul_one, Nat.mod_eq_of_lt h]
  | succ n ih =>
    intro result _
    rw [pow_loop, ih _ (Nat.mod_lt _ (by unfold word_modulus; omega)), Nat.mod_mul_mod,
      Nat.pow_succ', Nat.mul_assoc]

/-- For an exponent from 1 to `2^32 - 1`, `detail::pow` returns the power in
`unsigned long long`. -/
theorem pow_spec (base exponent : Nat) (hbase : base < word_modulus)
    (h1 : 1 ≤ exponent) (h2 : exponent < unsigned_modulus) :
    pow base exponent = base ^ exponent % word_modulus := by
  unfold pow
  have hturns : (exponent + unsigned_modulus - 1) % unsigned_modulus = exponent - 1 := by
    unfold unsigned_modulus at h2 ⊢
    omega
  rw [hturns, pow_loop_spec base _ _ hbase]
  have he : exponent = (exponent - 1) + 1 := by omega
  conv => rhs; rw [he, Nat.pow_succ']

/-- The expression `First - '0'` gives the value of a decimal digit character. -/
theorem digit_of_spec_digit (c : Char) (d : Nat) (hd : spec_digit_value c = some d)
    (h10 : d < 10) : digit c = d := by
  have h0 : '0'.toNat = 48 := rfl
  unfold spec_digit_value at hd
  unfold digit to_unsigned_long_long word_modulus
  rw [h0]
  by_cases hdec : 48 ≤ c.toNat ∧ c.toNat ≤ 57
  · rw [if_pos hdec] at hd
    simp only [Option.some.injEq] at hd
    omega
  · rw [if_neg hdec] at hd
    by_cases hlow : 97 ≤ c.toNat ∧ c.toNat ≤ 102
    · rw [if_pos hlow] at hd
      simp only [Option.some.injEq] at hd
      omega
    · rw [if_neg hlow] at hd
      by_cases hup : 65 ≤ c.toNat ∧ c.toNat ≤ 70
      · rw [if_pos hup] at hd
        simp only [Option.some.injEq] at hd
        omega
      · rw [if_neg hup] at hd
        cases hd

/-- The variable template `hex_digit` gives the value of a hexadecimal digit
character of either case. -/
theorem hex_digit_of_spec_digit (c : Char) (d : Nat) (hd : spec_digit_value c = some d) :
    hex_digit c = d := by
  have h0 : '0'.toNat = 48 := rfl
  have hA : 'A'.toNat = 65 := rfl
  have hF : 'F'.toNat = 70 := rfl
  have ha : 'a'.toNat = 97 := rfl
  have hf : 'f'.toNat = 102 := rfl
  unfold spec_digit_value at hd
  unfold hex_digit to_unsigned_long_long word_modulus
  rw [h0, hA, hF, ha, hf]
  by_cases hdec : 48 ≤ c.toNat ∧ c.toNat ≤ 57
  · rw [if_pos hdec] at hd
    simp only [Option.some.injEq] at hd
    rw [if_neg (by omega), if_neg (by omega)]
    omega
  · rw [if_neg hdec] at hd
    by_cases hlow : 97 ≤ c.toNat ∧ c.toNat ≤ 102
    · rw [if_pos hlow] at hd
      simp only [Option.some.injEq] at hd
      rw [if_neg (by omega), if_pos hlow]
      omega
    · rw [if_neg hlow] at hd
      by_cases hup : 65 ≤ c.toNat ∧ c.toNat ≤ 70
      · rw [if_pos hup] at hd
        simp only [Option.some.injEq] at hd
        rw [if_pos hup]
        omega
      · rw [if_neg hup] at hd
        cases hd


/-- A digit of the radix has a value below the radix. -/
theorem spec_is_digit_value (radix : Nat) (c : Char) (h : spec_is_digit radix c = true) :
    ∃ d, spec_digit_value c = some d ∧ d < radix := by
  unfold spec_is_digit at h
  cases hd : spec_digit_value c with
  | none => rw [hd] at h; cases h
  | some d =>
    rw [hd] at h
    exact ⟨d, rfl, by simpa using h⟩

/-- A non-zero digit in a place whose weight keeps the value below `2^64` stands
before fewer than 64 digits, so `detail::pow` returns the exact weight. -/
theorem pow_of_weight (radix d len rest : Nat) (h2 : 2 ≤ radix) (hd : d ≠ 0)
    (hlen : 1 ≤ len) (hval : d * radix ^ len + rest < word_modulus) :
    pow radix (len % unsigned_modulus) = radix ^ len ∧ d * radix ^ len < word_modulus := by
  have hpos : 1 ≤ d := Nat.one_le_iff_ne_zero.mpr hd
  have hle : radix ^ len ≤ d * radix ^ len := Nat.le_mul_of_pos_left _ hpos
  have hlt : radix ^ len < word_modulus := by omega
  have h2len : 2 ^ len ≤ radix ^ len := Nat.pow_le_pow_left h2 len
  have hlen64 : len < 64 := by
    apply (Nat.pow_lt_pow_iff_right (by omega : 1 < 2)).mp
    unfold word_modulus at hlt
    omega
  have hradix : radix < word_modulus := by
    have : radix ^ 1 ≤ radix ^ len := Nat.pow_le_pow_right (by omega) hlen
    rw [Nat.pow_one] at this
    omega
  have hmod : len % unsigned_modulus = len :=
    Nat.mod_eq_of_lt (by unfold unsigned_modulus; omega)
  rw [hmod, pow_spec radix len hradix hlen (by unfold unsigned_modulus; omega),
    Nat.mod_eq_of_lt hlt]
  exact ⟨rfl, by omega⟩

/-- On a sequence of digits of a radix from 2 to 10 whose positional value is
below `2^64`, `simple_literal_value` returns the positional value. -/
theorem simple_literal_value_spec (radix : Nat) (h2 : 2 ≤ radix) (h10 : radix ≤ 10) :
    ∀ chars : List Char, (∀ c ∈ chars, spec_is_digit radix c = true) →
      spec_numeric_value radix chars < word_modulus →
      simple_literal_value radix chars = spec_numeric_value radix chars := by
  intro chars
  induction chars with
  | nil => intro _ _; rfl
  | cons c rest ih =>
    intro hall hval
    obtain ⟨d, hd, hdr⟩ := spec_is_digit_value radix c (hall c (List.mem_cons_self _ _))
    have hdig := digit_of_spec_digit c d hd (by omega)
    have hnum : spec_numeric_value radix (c :: rest) =
        d * radix ^ rest.length + spec_numeric_value radix rest := by
      rw [spec_numeric_value, hd]
      rfl
    rw [hnum] at hval ⊢
    have hrest := ih (fun x hx => hall x (List.mem_cons_of_mem _ hx)) (by omega)
    cases rest with
    | nil =>
      rw [simple_literal_value, hdig]
      simp [spec_numeric_value]
    | cons c2 rest2 =>
      rw [simple_literal_value, hrest, hdig]
      · by_cases hd0 : d = 0
        · subst hd0
          simp only [Nat.zero_mul, Nat.zero_mod, Nat.zero_add]
          exact Nat.mod_eq_of_lt (by omega)
        · obtain ⟨hpow, hlt⟩ := pow_of_weight radix d (c2 :: rest2).length
            (spec_numeric_value radix (c2 :: rest2)) h2 hd0 (by simp) hval
          rw [hpow, Nat.mod_eq_of_lt hlt, Nat.mod_eq_of_lt hval]
      · intro h
        cases h

/-- On a non-empty sequence of hexadecimal digits whose positional value is below
`2^64`, `hexadecimal_literal_value` returns the positional value. -/
theorem hexadecimal_literal_value_spec :
    ∀ chars : List Char, chars ≠ [] → (∀ c ∈ chars, spec_is_digit 16 c = true) →
      spec_numeric_value 16 chars < word_modulus →
      hexadecimal_literal_value chars = some (spec_numeric_value 16 chars) := by
  intro chars
  induction chars with
  | nil => intro h; exact absurd rfl h
  | cons c rest ih =>
    intro _ hall hval
    obtain ⟨d, hd, hdr⟩ := spec_is_digit_value 16 c (hall c (List.mem_cons_self _ _))
    have hdig := hex_digit_of_spec_digit c d hd
    have hnum : spec_numeric_value 16 (c :: rest) =
        d * 16 ^ rest.length + spec_numeric_value 16 rest := by
      rw [spec_numeric_value, hd]
      rfl
    rw [hnum] at hval ⊢
    cases rest with
    | nil =>
      rw [hexadecimal_literal_value, hdig]
      simp [spec_numeric_value]
    | cons c2 rest2 =>
      have hrest := ih (List.cons_ne_nil _ _)
        (fun x hx => hall x (List.mem_cons_of_mem _ hx)) (by omega)
      rw [hexadecimal_literal_value, hrest, hdig]
      · simp only [Option.some.injEq]
        by_cases hd0 : d = 0
        · subst hd0
          simp only [Nat.zero_mul, Nat.zero_mod, Nat.zero_add]
          exact Nat.mod_eq_of_lt (by omega)
        · obtain ⟨hpow, hlt⟩ := pow_of_weight 16 d (c2 :: rest2).length
            (spec_numeric_value 16 (c2 :: rest2)) (by omega) hd0 (by simp) hval
          rw [hpow, Nat.mod_eq_of_lt hlt, Nat.mod_eq_of_lt hval]
      · intro h
        cases h


/-- On a valid integer literal whose value is below `2^64`, the member `value`
of `literal_impl` is the numeric value of the literal. -/
theorem literal_impl_spec (chars : List Char) (value : Nat)
    (hvalid : spec_literal_value chars = some value) (hfit : value < word_modulus) :
    literal_impl chars = some value := by
  cases chars with
  | nil => simp [spec_literal_value] at hvalid
  | cons first rest =>
    by_cases h0 : first = '0'
    · subst h0
      cases rest with
      | nil =>
        simp only [spec_literal_value, ne_eq, not_true_eq_false, if_false,
          Option.some.injEq] at hvalid
        subst hvalid
        rfl
      | cons second digits =>
        simp only [spec_literal_value, ne_eq, not_true_eq_false, if_false] at hvalid
        by_cases hx : second = 'x' ∨ second = 'X'
        · rw [if_pos hx] at hvalid
          have hnb : ¬ (second = 'b' ∨ second = 'B') := by
            rcases hx with h | h <;> subst h <;> decide
          by_cases hd : digits ≠ [] ∧ digits.all (spec_is_digit 16) = true
          · rw [if_pos hd] at hvalid
            simp only [Option.some.injEq] at hvalid
            subst hvalid
            rw [literal_impl, if_neg (fun h => hnb h.2), if_pos ⟨rfl, hx⟩]
            exact hexadecimal_literal_value_spec digits hd.1
              (fun c hc => List.all_eq_true.mp hd.2 c hc) hfit
          · rw [if_neg hd] at hvalid
            cases hvalid
        · rw [if_neg hx] at hvalid
          by_cases hb : second = 'b' ∨ second = 'B'
          · rw [if_pos hb] at hvalid
            by_cases hd : digits ≠ [] ∧ digits.all (spec_is_digit 2) = true
            · rw [if_pos hd] at hvalid
              simp only [Option.some.injEq] at hvalid
              subst hvalid
              rw [literal_impl, if_pos ⟨rfl, hb⟩]
              congr 1
              exact simple_literal_value_spec 2 (by omega) (by omega) digits
                (fun c hc => List.all_eq_true.mp hd.2 c hc) hfit
            · rw [if_neg hd] at hvalid
              cases hvalid
          · rw [if_neg hb] at hvalid
            by_cases hd : (second :: digits).all (spec_is_digit 8) = true
            · rw [if_pos hd] at hvalid
              simp only [Option.some.injEq] at hvalid
              subst hvalid
              rw [literal_impl, if_neg (fun h => hb h.2), if_neg (fun h => hx h.2),
                if_pos rfl]
              congr 1
              exact simple_literal_value_spec 8 (by omega) (by omega) (second :: digits)
                (fun c hc => List.all_eq_true.mp hd c hc) hfit
            · rw [if_neg hd] at hvalid
              cases hvalid
    · simp only [spec_literal_value, ne_eq, h0, not_false_eq_true, if_true] at hvalid
      by_cases hd : (first :: rest).all (spec_is_digit 10) = true
      · rw [if_pos hd] at hvalid
        simp only [Option.some.injEq] at hvalid
        subst hvalid
        have hsimple := simple_literal_value_spec 10 (by omega) (by omega) (first :: rest)
          (fun c hc => List.all_eq_true.mp hd c hc) hfit
        cases rest with
        | nil => rw [literal_impl, if_neg h0, hsimple]
        | cons second list =>
          rw [literal_impl, if_neg (fun h => h0 h.1), if_neg (fun h => h0 h.1), if_neg h0,
            hsimple]
      · rw [if_neg hd] at hvalid
        cases hvalid

/-- A valid literal whose value is above the largest value of the return type and
below `2^64` is rejected by the range check. -/
theorem literal_operator_rejects_below_wrap (chars : List Char) (value max : Nat)
    (hvalid : spec_literal_value chars = some value) (hmax : max < value)
    (hfit : value < word_modulus) :
    literal_operator max chars = none := by
  unfold literal_operator
  rw [literal_impl_spec chars value hvalid hfit]
  simp only [if_neg (Nat.not_le.mpr hmax)]

/-- C31 (refuted by evaluation): the characters of `0x10000000000000000` are a
valid hexadecimal literal of value `2^64`, above the largest value of every
return type. The weight `pow(16, 16)` of its first digit is computed in
`unsigned long long` and is 0, so `literal_impl` holds the value 0, the range
check passes and each of `_U8`, `_U16`, `_U32` and `_U` returns 0. -/
theorem literal_operator_accepts_wrapped_value :
    spec_literal_value
      ['0', 'x', '1', '0', '0', '0', '0', '0', '0', '0', '0', '0', '0', '0', '0', '0', '0',
        '0', '0'] = some (2 ^ 64) ∧
    pow 16 16 = 0 ∧
    literal_impl
      ['0', 'x', '1', '0', '0', '0', '0', '0', '0', '0', '0', '0', '0', '0', '0', '0', '0',
        '0', '0'] = some 0 ∧
    operator_U8
      ['0', 'x', '1', '0', '0', '0', '0', '0', '0', '0', '0', '0', '0', '0', '0', '0', '0',
        '0', '0'] = some 0 ∧
    operator_U16
      ['0', 'x', '1', '0', '0', '0', '0', '0', '0', '0', '0', '0', '0', '0', '0', '0', '0',
        '0', '0'] = some 0 ∧
    operator_U32
      ['0', 'x', '1', '0', '0', '0', '0', '0', '0', '0', '0', '0', '0', '0', '0', '0', '0',
        '0', '0'] = some 0 ∧
    operator_U
      ['0', 'x', '1', '0', '0', '0', '0', '0', '0', '0', '0', '0', '0', '0', '0', '0', '0',
        '0', '0'] = some 0 := by
  refine ⟨by decide, by decide, by decide, by decide, by decide, by decide, by decide⟩


/-! ## Theorems: the adjacent-pair scan -/

/-- The algorithm `std::adjacent_find` finds nothing iff no two neighbours
satisfy the predicate. -/
theorem adjacent_find_none_iff_no_neighbours {α : Type} (p : α → α → Bool) :
    ∀ m : List α, adjacent_find p m = none ↔
      ¬ ∃ l1 a b l2, m = l1 ++ a :: b :: l2 ∧ p a b = true := by
  intro m
  induction m with
  | nil =>
    simp only [adjacent_find, true_iff]
    rintro ⟨l1, a, b, l2, h, _⟩
    cases l1 <;> cases h
  | cons x t ih =>
    cases t with
    | nil =>
      simp only [adjacent_find, true_iff]
      rintro ⟨l1, a, b, l2, h, _⟩
      cases l1 with
      | nil => cases h
      | cons y l1 =>
        simp only [List.cons_append, List.cons.injEq] at h
        cases l1 <;> cases h.2
    | cons y t2 =>
      rw [adjacent_find]
      by_cases hxy : p x y = true
      · rw [if_pos hxy]
        constructor
        · intro h; cases h
        · intro h
          exact absurd ⟨[], x, y, t2, rfl, hxy⟩ h
      · rw [if_neg hxy, ih]
        constructor
        · rintro h ⟨l1, a, b, l2, heq, hab⟩
          cases l1 with
          | nil =>
            simp only [List.nil_append, List.cons.injEq] at heq
            obtain ⟨h1, h2, _⟩ := heq
            subst h1 h2
            exact hxy hab
          | cons z l1 =>
            simp only [List.cons_append, List.cons.injEq] at heq
            exact h ⟨l1, a, b, l2, heq.2, hab⟩
        · rintro h ⟨l1, a, b, l2, heq, hab⟩
          exact h ⟨x :: l1, a, b, l2, by rw [heq]; rfl, hab⟩

/-- C39: on an element map whose keys are strictly ascending and are the base
addresses of its elements, some two neighbours overlap iff some two entries,
neighbours or not, overlap; hence `check_overlapping`, which scans neighbours
only, throws exactly on the maps that hold an overlapping pair. The sums
`addr + size` may even wrap: `overlapping` is the function of the code. -/
theorem check_overlapping_neighbours_suffice {Op : Type} (m : elements_type Op)
    (location : source_location)
    (hs : m.keys.Pairwise (· < ·)) (hk : ∀ p ∈ m, p.1 = p.2.addr) :
    (some_neighbours_overlap m ↔ some_entries_overlap m) ∧
    ((∃ e, check_overlapping m location = some e) ↔ some_entries_overlap m) := by
  have hadj := adjacent_find_none_iff_no_neighbours
    (fun (lhs rhs : Nat × element Op) => element.overlapping lhs.2 rhs.2) m
  have hpair := adjacent_find_none_iff_pairwise m hs hk
  have hsub : m.Pairwise (fun p q => element.overlapping p.2 q.2 = false) ↔
      ¬ some_entries_overlap m := by
    rw [List.pairwise_iff_forall_sublist]
    constructor
    · rintro h ⟨a, b, hab, hov⟩
      rw [h hab] at hov
      cases hov
    · intro h a b hab
      cases hov : element.overlapping a.2 b.2 with
      | false => rfl
      | true => exact absurd ⟨a, b, hab, hov⟩ h
  have hfirst : some_neighbours_overlap m ↔ some_entries_overlap m := by
    have h1 : ¬ some_neighbours_overlap m ↔ ¬ some_entries_overlap m := by
      unfold some_neighbours_overlap
      rw [← hadj, hpair, hsub]
    exact not_iff_not.mp h1
  refine ⟨hfirst, ?_⟩
  rw [← hfirst]
  have hnone := check_overlapping_eq_none_iff m location
  constructor
  · rintro ⟨e, he⟩
    by_contra hno
    have : check_overlapping m location = none := hnone.mpr (hadj.mpr hno)
    rw [this] at he
    cases he
  · intro hsome
    cases hc : check_overlapping m location with
    | some e => exact ⟨e, rfl⟩
    | none => exact absurd hsome (hadj.mp (hnone.mp hc))

/-- Witness of C39: the element at `0x1000` of size `0x3000` overlaps the
elements at `0x2000` and at `0x3000`; the scan of neighbours rejects the map. -/
theorem check_overlapping_neighbours_suffice_witness :
    (∃ e, check_overlapping
        [(0x1000, (⟨⟨0x1000, 0x3000⟩, (), ⟨"a", 1⟩⟩ : element Unit)),
          (0x2000, ⟨⟨0x2000, 8⟩, (), ⟨"b", 2⟩⟩), (0x3000, ⟨⟨0x3000, 8⟩, (), ⟨"c", 3⟩⟩)]
        ⟨"stub", 4⟩ = some e) ↔
      some_entries_overlap
        [(0x1000, (⟨⟨0x1000, 0x3000⟩, (), ⟨"a", 1⟩⟩ : element Unit)),
          (0x2000, ⟨⟨0x2000, 8⟩, (), ⟨"b", 2⟩⟩), (0x3000, ⟨⟨0x3000, 8⟩, (), ⟨"c", 3⟩⟩)] :=
  (check_overlapping_neighbours_suffice
    [(0x1000, (⟨⟨0x1000, 0x3000⟩, (), ⟨"a", 1⟩⟩ : element Unit)),
      (0x2000, ⟨⟨0x2000, 8⟩, (), ⟨"b", 2⟩⟩), (0x3000, ⟨⟨0x3000, 8⟩, (), ⟨"c", 3⟩⟩)]
    ⟨"stub", 4⟩ (by decide) (by decide)).2


/-! ## Theorems: the arena façade -/

/-- C38: `arena::check_boundary(n)` returns true exactly when the executable
starts at or above `n`. Then `arena::size(n, onfail)` sets the cap to `n` and
returns normally. Otherwise the cap is left as it was, and the call throws
`arena_is_not_fully_available` for `onfail::throws` and returns normally for
`logs` and `returns`. For a page size `p` that is an `int`,
`arena::check_pagesize(p, onfail)` returns true exactly when `p = 4096`;
otherwise it throws `page_size_mismatch` for `throws` and returns false for
`logs` and `returns`. -/
theorem arena_size_and_checks (self : arena) (executable_start n : Nat) (on_fail : onfail)
    (p : Int) (hp : -2 ^ 31 ≤ p ∧ p < 2 ^ 31) :
    ((arena.check_boundary executable_start n on_fail).outcome = Except.ok true ↔
      n ≤ executable_start) ∧
    (n ≤ executable_start →
      (self.size executable_start n on_fail).1 = { size_ := n } ∧
      (self.size executable_start n on_fail).2.1 = none) ∧
    (executable_start < n →
      (self.size executable_start n on_fail).1 = self ∧
      (self.size executable_start n on_fail).2.1 =
        if on_fail = onfail.throws then
          some (exception.arena_is_not_fully_available n executable_start)
        else none) ∧
    ((arena.check_pagesize p on_fail).outcome = Except.ok true ↔ p = 4096) ∧
    (p ≠ 4096 →
      (arena.check_pagesize p on_fail).outcome =
        if on_fail = onfail.throws then Except.error (exception.page_size_mismatch p)
        else Except.ok false) := by
  have hsize : to_size_type p = page_size ↔ p = 4096 := by
    unfold to_size_type page_size word_modulus
    omega
  refine ⟨?_, ?_, ?_, ?_, ?_⟩
  · unfold arena.check_boundary
    by_cases h : executable_start < n
    · rw [if_pos h]
      cases on_fail <;> simp [failed] <;> omega
    · rw [if_neg h]
      simp only [true_iff]
      omega
  · intro h
    have hb : arena.check_boundary executable_start n on_fail =
        { outcome := Except.ok true, logged := false } := by
      unfold arena.check_boundary
      rw [if_neg (by omega)]
    unfold arena.size
    rw [hb]
    exact ⟨rfl, rfl⟩
  · intro h
    have hb : arena.check_boundary executable_start n on_fail =
        failed on_fail (exception.arena_is_not_fully_available n executable_start) := by
      unfold arena.check_boundary
      rw [if_pos h]
    unfold arena.size
    rw [hb]
    cases on_fail <;> exact ⟨rfl, rfl⟩
  · unfold arena.check_pagesize
    by_cases h : p = 4096
    · rw [if_neg (by rw [ne_eq, not_not]; exact hsize.mpr h)]
      simp only [true_iff]
      exact h
    · rw [if_pos (fun h2 => h (hsize.mp h2))]
      cases on_fail <;> simp [failed, h]
  · intro h
    unfold arena.check_pagesize
    rw [if_pos (fun h2 => h (hsize.mp h2))]
    cases on_fail <;> rfl

/-- Witness of C38: an executable that starts at `0x400000` and a request for a
cap of `0x100000000` with `onfail::logs`; the page size 8192. -/
theorem arena_size_and_checks_witness :
    (arena.initial.size 0x400000 0x100000000 onfail.logs).1 = arena.initial ∧
    (arena.check_pagesize 8192 onfail.logs).outcome = Except.ok false :=
  ⟨((arena_size_and_checks arena.initial 0x400000 0x100000000 onfail.logs 8192
      (by decide)).2.2.1 (by decide)).1,
    (arena_size_and_checks arena.initial 0x400000 0x100000000 onfail.logs 8192
      (by decide)).2.2.2.2 (by decide)⟩


/-! ## Theorems: logging categories -/

/-- Storing the configuration of a category leaves the configuration of every
category that derives from another instance of `configurable` as it was, and
the category itself reads back what was stored. -/
theorem logconfig_store_frame (s : logconfig) (c d : logcategory) (cfg : configuration) :
    c.config (s.store c cfg) = cfg ∧
    (c.configurable ≠ d.configurable → d.config (s.store c cfg) = d.config s) := by
  unfold logcategory.config logconfig.store
  constructor
  · rw [if_pos rfl]
  · intro h
    rw [if_neg (fun h2 => h h2.symm)]

/-- Among the six categories only `mock` and `sigsegv` derive from the same
instance of `configurable`. -/
theorem logcategory_configurable_eq_iff (c d : logcategory) :
    c.configurable = d.configurable ↔
      c = d ∨ (c = logcategory.mock ∧ d = logcategory.sigsegv) ∨
        (c = logcategory.sigsegv ∧ d = logcategory.mock) := by
  cases c <;> cases d <;> decide

/-- The destructor of a `scoped_redirector` puts back the configuration that the
constructor captured, whatever was configured in between. -/
theorem scoped_redirector_restores (c : logcategory) (func value null emergency : Nat)
    (s between : logconfig) :
    c.config ((scoped_redirector.of_writer_level c func value s).1.destroy between) =
      c.config s ∧
    c.config ((scoped_redirector.of_writer c func s).1.destroy between) = c.config s ∧
    c.config ((scoped_redirector.default c null emergency s).1.destroy between) =
      c.config s := by
  unfold scoped_redirector.destroy scoped_redirector.of_writer_level
    scoped_redirector.of_writer scoped_redirector.default logcategory.set_config
  exact ⟨(logconfig_store_frame between c c _).1, (logconfig_store_frame between c c _).1,
    (logconfig_store_frame between c c _).1⟩

/-- C37 (refuted by evaluation): the struct `mock` derives from
`configurable<sigsegv, basic>`, the instance that `sigsegv` derives from, so the
two share one `config_`. From the state at program start, setting the level of
`mock` to 3 sets the level in the own configuration of `sigsegv`, and setting
the writer of `mock` sets the writer of `sigsegv`; the other four categories
keep their configuration. -/
theorem mock_shares_config_with_sigsegv :
    logcategory.mock.configurable = logcategory.sigsegv.configurable ∧
    logcategory.sigsegv.config logconfig.initial = { writer := none, level := none } ∧
    logcategory.sigsegv.config (logcategory.mock.set_level 3 logconfig.initial) =
      { writer := none, level := some 3 } ∧
    logcategory.sigsegv.config (logcategory.mock.set_writer 7 logconfig.initial) =
      { writer := some 7, level := none } ∧
    logcategory.basic.config (logcategory.mock.set_level 3 logconfig.initial) =
      { writer := none, level := none } ∧
    logcategory.arena.config (logcategory.mock.set_level 3 logconfig.initial) =
      { writer := none, level := none } ∧
    logcategory.stimulus.config (logcategory.mock.set_level 3 logconfig.initial) =
      { writer := none, level := none } ∧
    logcategory.verify.config (logcategory.mock.set_level 3 logconfig.initial) =
      { writer := none, level := none } := by
  refine ⟨rfl, rfl, ?_, ?_, ?_, ?_, ?_, ?_⟩ <;> decide


/-! ## Theorems: the stimulus engine -/

/-- The member `adjust_index` changes nothing but the cursor. -/
theorem adjust_index_fields (e : stimulator) (i : Nat) :
    (e.adjust_index i).stimuli_ = e.stimuli_ ∧
    (e.adjust_index i).terminate_ = e.terminate_ ∧
    (e.adjust_index i).ready_ = e.ready_ := by
  unfold stimulator.adjust_index
  split <;> exact ⟨rfl, rfl, rfl⟩

/-- The decrement of the cursor in `adjust_index` is executed only when the
cursor is at least 1, so it does not wrap below zero. -/
theorem adjust_index_no_underflow (e : stimulator) (i : Nat)
    (hc : e.current_index_ < word_modulus) :
    (e.adjust_index i).current_index_ = e.current_index_ ∨
    (1 ≤ e.current_index_ ∧ i < e.current_index_ % e.stimuli_.length ∧
      (e.adjust_index i).current_index_ = e.current_index_ - 1) := by
  unfold stimulator.adjust_index
  by_cases h : (!e.stimuli_.isEmpty && decide (i < e.current_index_ % e.stimuli_.length)) = true
  · rw [if_pos h]
    simp only [Bool.and_eq_true, decide_eq_true_eq] at h
    have hmod : e.current_index_ % e.stimuli_.length ≤ e.current_index_ := Nat.mod_le _ _
    refine Or.inr ⟨by omega, h.2, ?_⟩
    show (e.current_index_ + word_modulus - 1) % word_modulus = e.current_index_ - 1
    unfold word_modulus at hc ⊢
    omega
  · rw [if_neg h]
    exact Or.inl rfl

/-- C34: `stimulator::deactivate(s)` returns true iff `s` is in the active list.
It then removes `s` from the list and keeps the other pointers in their order,
sets the status of `s` to idle unless it was done, leaves every other stimulus
object as it was, and sets `ready_` to whether the list is non-empty. When `s`
is not in the list it returns false and changes nothing. -/
theorem stimulator_deactivate_spec (w : stimulus_state) (s : Nat) :
    ((stimulator.deactivate w s).2 = true ↔ s ∈ w.engine.stimuli_) ∧
    (s ∈ w.engine.stimuli_ →
      (stimulator.deactivate w s).1.engine.stimuli_ =
        w.engine.stimuli_.filter (fun x => decide (x ≠ s)) ∧
      s ∉ (stimulator.deactivate w s).1.engine.stimuli_ ∧
      (∀ x, x ≠ s → (x ∈ (stimulator.deactivate w s).1.engine.stimuli_ ↔
        x ∈ w.engine.stimuli_)) ∧
      ((stimulator.deactivate w s).1.objects s).status_ =
        (if (w.objects s).status_ = status_type.done then status_type.done
          else status_type.idle) ∧
      (∀ x, x ≠ s → (stimulator.deactivate w s).1.objects x = w.objects x) ∧
      ((stimulator.deactivate w s).1.engine.ready_ = true ↔
        (stimulator.deactivate w s).1.engine.stimuli_ ≠ []) ∧
      (stimulator.deactivate w s).1.engine.terminate_ = w.engine.terminate_) ∧
    (s ∉ w.engine.stimuli_ →
      (stimulator.deactivate w s).2 = false ∧ (stimulator.deactivate w s).1 = w) := by
  refine ⟨?_, ?_, ?_⟩
  · unfold stimulator.deactivate
    by_cases h : s ∈ w.engine.stimuli_
    · rw [if_pos h]
      simp [h]
    · rw [if_neg h]
      simp [h]
  · intro h
    unfold stimulator.deactivate
    rw [if_pos h]
    simp only [std_erase]
    refine ⟨trivial, ?_, ?_, ?_, ?_, ?_, ?_⟩
    · simp [List.mem_filter]
    · intro x hx
      simp [List.mem_filter, hx]
    · simp only [stimulus_state.store, if_pos, istimulus.inactive]
      split <;> simp_all
    · intro x hx
      simp only [stimulus_state.store, if_neg hx]
    · cases hf : w.engine.stimuli_.filter (fun x => decide (x ≠ s)) with
      | nil => simp
      | cons y ys => simp
    · exact (adjust_index_fields _ _).2.1
  · intro h
    unfold stimulator.deactivate
    rw [if_neg h]
    exact ⟨rfl, rfl⟩


/-- The loop of `stimulator::unmapping` keeps, in their order, exactly the
pointers none of whose spans satisfies `contains(range, span)`. -/
theorem unmapping_loop_kept (objects : Nat → istimulus) (range : volatile_span) :
    ∀ (l : List Nat) (i : Nat) (e : stimulator),
      (stimulator.unmapping_loop objects range l i e).1 =
        l.filter (fun s => !((objects s).spans.any (fun sp => contains range sp))) := by
  intro l
  induction l with
  | nil => intro i e; rfl
  | cons stimul rest ih =>
    intro i e
    rw [stimulator.unmapping_loop]
    by_cases h : (objects stimul).spans.any (fun sp => contains range sp) = true
    · rw [if_pos h, ih, List.filter_cons_of_neg (by simp [h])]
    · rw [if_neg h]
      have hrec := ih (i + 1) e
      cases hloop : stimulator.unmapping_loop objects range rest (i + 1) e with
      | mk kept e_ =>
        rw [hloop] at hrec
        simp only at hrec ⊢
        rw [hrec, List.filter_cons_of_pos (by simp [h])]

/-- The member `stimulator::unmapping` keeps, in their order, exactly the
stimuli none of whose spans satisfies `contains(range, span)`, and it leaves the
stimulus objects and the flags as they were. -/
theorem stimulator_unmapping_kept (w : stimulus_state) (range : volatile_span) :
    (stimulator.unmapping w range).engine.stimuli_ =
      w.engine.stimuli_.filter
        (fun s => !((w.objects s).spans.any (fun sp => contains range sp))) ∧
    (stimulator.unmapping w range).objects = w.objects := by
  unfold stimulator.unmapping
  by_cases hempty : w.engine.stimuli_.isEmpty = true
  · rw [if_pos hempty]
    have hnil : w.engine.stimuli_ = [] := List.isEmpty_iff.mp hempty
    refine ⟨?_, rfl⟩
    rw [hnil]
    rfl
  · rw [if_neg hempty]
    have hkept := unmapping_loop_kept w.objects range w.engine.stimuli_ 0 w.engine
    cases hloop : stimulator.unmapping_loop w.objects range w.engine.stimuli_ 0 w.engine with
    | mk kept e_ =>
      rw [hloop] at hkept
      exact ⟨hkept, rfl⟩

/-- C36 (refuted by evaluation): the stimulus at `10` watches the four bytes at
`0x2000` and modifies the four bytes at `0x2004`; the bytes `[0x1000, 0x2000)`
are unmapped. Neither span shares a byte with the unmapped range, yet the
stimulus is removed: `contains` compares with `<=` on both sides, and the watch
span begins at the address where the range ends. -/
theorem stimulator_unmapping_evicts_neighbour :
    ¬ volatile_span.share_byte ⟨0x1000, 0x1000⟩ ⟨0x2000, 4⟩ ∧
    ¬ volatile_span.share_byte ⟨0x1000, 0x1000⟩ ⟨0x2004, 4⟩ ∧
    contains ⟨0x1000, 0x1000⟩ ⟨0x2000, 4⟩ = true ∧
    (stimulator.unmapping
      ⟨⟨[10], 0, false, true⟩,
        fun _ => ⟨[⟨0x2000, 4⟩, ⟨0x2004, 4⟩], ⟨"stimulus", 1⟩, status_type.active⟩⟩
      ⟨0x1000, 0x1000⟩).engine.stimuli_ = [] := by
  refine ⟨?_, ?_, by decide, by decide⟩
  · rintro ⟨x, ⟨h1, h2⟩, ⟨h3, h4⟩⟩
    simp only at h1 h2 h3 h4
    omega
  · rintro ⟨x, ⟨h1, h2⟩, ⟨h3, h4⟩⟩
    simp only at h1 h2 h3 h4
    omega


/-- C32 (refuted by evaluation): four stimuli at `10`, `20`, `30`, `40` are
activated on the fresh engine and five turns pass in which no predicate fires,
which leaves the cursor at 5. The next turn selects index `5 % 4 = 1`, the
stimulus `20`, which completes and is erased; the stimulus that followed it is
`30`. The cursor is left at 5, so the turn after that selects index `5 % 3 = 2`
of the list `10, 30, 40`, the stimulus `40`: the entry `30` is skipped. -/
theorem stimulator_run_skips_follower :
    (stimulator.ticks
      [fun _ => run_outcome.returns status_type.idle,
        fun _ => run_outcome.returns status_type.idle,
        fun _ => run_outcome.returns status_type.idle,
        fun _ => run_outcome.returns status_type.idle,
        fun _ => run_outcome.returns status_type.idle]
      (stimulator.activate
        (stimulator.activate
          (stimulator.activate
            (stimulator.activate
              ⟨stimulator.initial, fun _ => ⟨[], ⟨"stimulus", 1⟩, status_type.idle⟩⟩
              mmio.initial arena.max_size 10).1
            mmio.initial arena.max_size 20).1
          mmio.initial arena.max_size 30).1
        mmio.initial arena.max_size 40).1).1.engine =
      ⟨[10, 20, 30, 40], 5, false, true⟩ ∧
    stimulator.selected ⟨[10, 20, 30, 40], 5, false, true⟩ = some 20 ∧
    [10, 20, 30, 40].getD ((5 % 4 + 1) % 4) 0 = 30 ∧
    (stimulator.tick
      ⟨⟨[10, 20, 30, 40], 5, false, true⟩, fun _ => ⟨[], ⟨"stimulus", 1⟩, status_type.idle⟩⟩
      (fun s => if s = 20 then run_outcome.returns status_type.done
        else run_outcome.returns status_type.idle)).2 = some 20 ∧
    (stimulator.tick
      ⟨⟨[10, 20, 30, 40], 5, false, true⟩, fun _ => ⟨[], ⟨"stimulus", 1⟩, status_type.idle⟩⟩
      (fun s => if s = 20 then run_outcome.returns status_type.done
        else run_outcome.returns status_type.idle)).1.engine =
      ⟨[10, 30, 40], 5, false, true⟩ ∧
    stimulator.selected ⟨[10, 30, 40], 5, false, true⟩ = some 40 ∧
    (stimulator.ticks
      [fun s => if s = 20 then run_outcome.returns status_type.done
          else run_outcome.returns status_type.idle,
        fun _ => run_outcome.returns status_type.idle]
      ⟨⟨[10, 20, 30, 40], 5, false, true⟩,
        fun _ => ⟨[], ⟨"stimulus", 1⟩, status_type.idle⟩⟩).2 = [20, 40] := by
  refine ⟨by decide, by decide, by decide, by decide, by decide, by decide, by decide⟩

/-- C40 (refuted by evaluation): three stimuli at `10`, `20`, `30` are activated
on the fresh engine and five turns pass in which no predicate fires, which
leaves the cursor at 5, so the next turn would select index `5 % 3 = 2`, the
stimulus `30`. Deactivating the stimulus `10` decrements the cursor to 4 and
leaves the list `20, 30`; the next turn now selects index `4 % 2 = 0`, the
stimulus `20`. -/
theorem stimulator_deactivate_moves_selection :
    (stimulator.ticks
      [fun _ => run_outcome.returns status_type.idle,
        fun _ => run_outcome.returns status_type.idle,
        fun _ => run_outcome.returns status_type.idle,
        fun _ => run_outcome.returns status_type.idle,
        fun _ => run_outcome.returns status_type.idle]
      (stimulator.activate
        (stimulator.activate
          (stimulator.activate
            ⟨stimulator.initial, fun _ => ⟨[], ⟨"stimulus", 1⟩, status_type.idle⟩⟩
            mmio.initial arena.max_size 10).1
          mmio.initial arena.max_size 20).1
        mmio.initial arena.max_size 30).1).1.engine =
      ⟨[10, 20, 30], 5, false, true⟩ ∧
    stimulator.selected ⟨[10, 20, 30], 5, false, true⟩ = some 30 ∧
    (stimulator.deactivate
      ⟨⟨[10, 20, 30], 5, false, true⟩, fun _ => ⟨[], ⟨"stimulus", 1⟩, status_type.running⟩⟩
      10).2 = true ∧
    (stimulator.deactivate
      ⟨⟨[10, 20, 30], 5, false, true⟩, fun _ => ⟨[], ⟨"stimulus", 1⟩, status_type.running⟩⟩
      10).1.engine = ⟨[20, 30], 4, false, true⟩ ∧
    stimulator.selected ⟨[20, 30], 4, false, true⟩ = some 20 := by
  refine ⟨by decide, by decide, by decide, by decide, by decide⟩


/-- A turn in which the selected stimulus does not complete: that stimulus is
evaluated and only the cursor of the engine changes, by one. -/
theorem stimulator_tick_idle (w : stimulus_state) (run : Nat → run_outcome)
    (hready : w.engine.ready_ = true) (hterm : w.engine.terminate_ = false)
    (hne : w.engine.stimuli_ ≠ [])
    (hidle : ∀ s ∈ w.engine.stimuli_, ∃ status, run s = run_outcome.returns status ∧
      status ≠ status_type.done) :
    (stimulator.tick w run).2 =
      some (w.engine.stimuli_.getD (w.engine.current_index_ % w.engine.stimuli_.length) 0) ∧
    (stimulator.tick w run).1.engine =
      { w.engine with current_index_ := (w.engine.current_index_ + 1) % word_modulus } := by
  have hpos : 0 < w.engine.stimuli_.length := List.length_pos.mpr hne
  have hlt : w.engine.current_index_ % w.engine.stimuli_.length < w.engine.stimuli_.length :=
    Nat.mod_lt _ hpos
  have hmem : w.engine.stimuli_.getD (w.engine.current_index_ % w.engine.stimuli_.length) 0 ∈
      w.engine.stimuli_ := by
    rw [List.getD_eq_getElem _ _ hlt]
    exact List.getElem_mem _
  obtain ⟨status, hrun, hnd⟩ := hidle _ hmem
  have hemp : w.engine.stimuli_.isEmpty = false := by
    cases hl : w.engine.stimuli_ with
    | nil => exact absurd hl hne
    | cons x xs => rfl
  unfold stimulator.tick
  simp only [hready, hterm, hemp, Bool.or_false, Bool.not_true, Bool.false_eq_true, if_false,
    hrun, if_neg hnd]
  exact ⟨trivial, trivial⟩


/-- The turns after the first start from the state left by the first. -/
theorem stimulator_ticks_cons (run : Nat → run_outcome) (rest : List (Nat → run_outcome))
    (w : stimulus_state) :
    (stimulator.ticks (run :: rest) w).2 =
      (stimulator.tick w run).2.toList ++ (stimulator.ticks rest (stimulator.tick w run).1).2 ∧
    (stimulator.ticks (run :: rest) w).1 = (stimulator.ticks rest (stimulator.tick w run).1).1 := by
  rw [stimulator.ticks]
  cases stimulator.tick w run with
  | mk w_ evaluated =>
    simp only
    cases stimulator.ticks rest w_ with
    | mk w__ later => simp

/-- Consecutive turns in which no stimulus completes, while the cursor does not
wrap: the turn number `j` evaluates the stimulus at index `(cursor + j) % size`,
and the list and the flags stay as they were. -/
theorem stimulator_ticks_idle :
    ∀ (runs : List (Nat → run_outcome)) (w : stimulus_state),
      w.engine.ready_ = true → w.engine.terminate_ = false → w.engine.stimuli_ ≠ [] →
      (∀ run ∈ runs, ∀ s ∈ w.engine.stimuli_, ∃ status,
        run s = run_outcome.returns status ∧ status ≠ status_type.done) →
      w.engine.current_index_ + runs.length ≤ word_modulus →
      (stimulator.ticks runs w).2 =
        (List.range runs.length).map (fun j =>
          w.engine.stimuli_.getD ((w.engine.current_index_ + j) % w.engine.stimuli_.length) 0) ∧
      (stimulator.ticks runs w).1.engine.stimuli_ = w.engine.stimuli_ ∧
      (stimulator.ticks runs w).1.engine.ready_ = true ∧
      (stimulator.ticks runs w).1.engine.terminate_ = false := by
  intro runs
  induction runs with
  | nil =>
    intro w hready hterm _ _ _
    exact ⟨rfl, rfl, hready, hterm⟩
  | cons run rest ih =>
    intro w hready hterm hne hidle hwrap
    obtain ⟨hev, heng⟩ := stimulator_tick_idle w run hready hterm hne
      (hidle run (List.mem_cons_self _ _))
    obtain ⟨hcons2, hcons1⟩ := stimulator_ticks_cons run rest w
    rw [hcons2, hcons1, hev]
    have hlist : (stimulator.tick w run).1.engine.stimuli_ = w.engine.stimuli_ := by rw [heng]
    have hready_ : (stimulator.tick w run).1.engine.ready_ = true := by rw [heng]; exact hready
    have hterm_ : (stimulator.tick w run).1.engine.terminate_ = false := by
      rw [heng]; exact hterm
    have hcursor : (stimulator.tick w run).1.engine.current_index_ =
        (w.engine.current_index_ + 1) % word_modulus := by rw [heng]
    cases rest with
    | nil =>
      refine ⟨?_, hlist, hready_, hterm_⟩
      simp [stimulator.ticks, List.range_succ]
    | cons run2 rest2 =>
      simp only [List.length_cons] at hwrap
      have hc2 : (stimulator.tick w run).1.engine.current_index_ =
          w.engine.current_index_ + 1 := by
        rw [hcursor]
        exact Nat.mod_eq_of_lt (by omega)
      obtain ⟨h1, h2, h3, h4⟩ := ih (stimulator.tick w run).1 hready_ hterm_
        (by rw [hlist]; exact hne)
        (fun r hr s hs => hidle r (List.mem_cons_of_mem _ hr) s (by rw [← hlist]; exact hs))
        (by simp only [List.length_cons]; omega)
      refine ⟨?_, by rw [h2, hlist], h3, h4⟩
      rw [h1, hlist, hc2]
      simp only [Option.toList_some, List.singleton_append, List.length_cons]
      rw [List.range_succ_eq_map (rest2.length + 1), List.map_cons, List.map_map]
      simp only [Nat.add_zero, List.cons.injEq, true_and]
      apply List.map_congr_left
      intro j _
      simp only [Function.comp]
      congr 2
      omega

/-- C33 (as stated, refuted): three stimuli none of whose predicates fires, and
the cursor at `2^64 - 1`. Three consecutive turns evaluate the stimuli `10`,
`10`, `20`: the cursor wraps to 0 after the first turn, and `2^64` is not a
multiple of 3, so the stimulus `30` is not evaluated and `10` is evaluated
twice. -/
theorem stimulator_round_robin_wrap_counterexample :
    (stimulator.ticks
      [fun _ => run_outcome.returns status_type.idle,
        fun _ => run_outcome.returns status_type.idle,
        fun _ => run_outcome.returns status_type.idle]
      ⟨⟨[10, 20, 30], 2 ^ 64 - 1, false, true⟩,
        fun _ => ⟨[], ⟨"stimulus", 1⟩, status_type.active⟩⟩).2 = [10, 10, 20] := by
  decide

/-- C33 (amended): for an active list of `N >= 1` stimuli none of whose
predicates fires during `N` consecutive turns (no call of `run()` returns `done`
or throws), with the engine ready and not terminated and the cursor at most
`2^64 - N`: the `N` turns evaluate the stimuli of the list in list order
starting at index `cursor % N` and wrapping around, which is every position of
the list exactly once, and they leave the list as it was. -/
theorem stimulator_round_robin (w : stimulus_state) (runs : List (Nat → run_outcome))
    (hN : 1 ≤ w.engine.stimuli_.length)
    (hlen : runs.length = w.engine.stimuli_.length)
    (hready : w.engine.ready_ = true) (hterm : w.engine.terminate_ = false)
    (hidle : ∀ run ∈ runs, ∀ s ∈ w.engine.stimuli_, ∃ status,
      run s = run_outcome.returns status ∧ status ≠ status_type.done)
    (hwrap : w.engine.current_index_ + w.engine.stimuli_.length ≤ word_modulus) :
    (stimulator.ticks runs w).2 =
      w.engine.stimuli_.rotate (w.engine.current_index_ % w.engine.stimuli_.length) ∧
    (stimulator.ticks runs w).2.Perm w.engine.stimuli_ ∧
    (stimulator.ticks runs w).1.engine.stimuli_ = w.engine.stimuli_ := by
  have hne : w.engine.stimuli_ ≠ [] := List.length_pos.mp (by omega)
  obtain ⟨hev, hlist, _, _⟩ := stimulator_ticks_idle runs w hready hterm hne hidle
    (by rw [hlen]; exact hwrap)
  have hrot : (stimulator.ticks runs w).2 =
      w.engine.stimuli_.rotate (w.engine.current_index_ % w.engine.stimuli_.length) := by
    rw [hev, hlen]
    apply List.ext_getElem
    · simp
    · intro i h1 h2
      simp only [List.length_map, List.length_range] at h1
      rw [List.getElem_map, List.getElem_range, List.getElem_rotate,
        List.getD_eq_getElem _ _ (Nat.mod_lt _ (by omega))]
      congr 1
      rw [Nat.add_comm i, Nat.mod_add_mod]
  refine ⟨hrot, ?_, hlist⟩
  rw [hrot]
  exact List.rotate_perm _ _

/-- Witness of C33 (amended): three stimuli, the cursor at 4, three turns in
which no predicate fires; the stimuli are evaluated in the order `20`, `30`, `10`. -/
theorem stimulator_round_robin_witness :
    (stimulator.ticks
      [fun _ => run_outcome.returns status_type.idle,
        fun _ => run_outcome.returns status_type.idle,
        fun _ => run_outcome.returns status_type.idle]
      ⟨⟨[10, 20, 30], 4, false, true⟩,
        fun _ => ⟨[], ⟨"stimulus", 1⟩, status_type.active⟩⟩).2 = [20, 30, 10] :=
  (stimulator_round_robin
    ⟨⟨[10, 20, 30], 4, false, true⟩, fun _ => ⟨[], ⟨"stimulus", 1⟩, status_type.active⟩⟩
    [fun _ => run_outcome.returns status_type.idle,
      fun _ => run_outcome.returns status_type.idle,
      fun _ => run_outcome.returns status_type.idle]
    (by decide) rfl rfl rfl
    (by
      intro run hrun s _
      simp only [List.mem_cons, List.mem_singleton, List.not_mem_nil, or_false, or_self]
        at hrun
      subst hrun
      exact ⟨status_type.idle, rfl, by decide⟩)
    (by decide)).1.trans (by decide)


/-- The static member `check_pages` throws nothing exactly when the arena
contains every span that starts below the cap; what it throws is
`page_is_not_allocated` for the location of the stimulus. -/
theorem stimulator_check_pages_spec (a : mmio) (cap : Nat) (location : source_location) :
    ∀ spans : List volatile_span,
      (stimulator.check_pages a cap spans location = none ↔
        ∀ sp ∈ spans, sp.front < cap → a.contains_span sp = true) ∧
      (∀ e, stimulator.check_pages a cap spans location = some e →
        e = exception.page_is_not_allocated location) := by
  intro spans
  induction spans with
  | nil =>
    refine ⟨⟨fun _ sp hsp => absurd hsp (List.not_mem_nil sp), fun _ => rfl⟩, ?_⟩
    intro e he
    simp [stimulator.check_pages] at he
  | cons el rest ih =>
    by_cases hthrow : (decide (el.front < cap) && !(a.contains_span el)) = true
    · simp only [stimulator.check_pages, if_pos hthrow]
      simp only [Bool.and_eq_true, decide_eq_true_eq, Bool.not_eq_true'] at hthrow
      refine ⟨⟨fun h => by simp at h, fun hall => ?_⟩, fun e he => ?_⟩
      · have := hall el (List.mem_cons_self _ _) hthrow.1
        rw [hthrow.2] at this
        cases this
      · simp only [Option.some.injEq] at he
        exact he.symm
    · simp only [stimulator.check_pages, if_neg hthrow]
      simp only [Bool.and_eq_true, decide_eq_true_eq, Bool.not_eq_true', not_and,
        Bool.not_eq_false] at hthrow
      refine ⟨⟨fun h sp hsp hlt => ?_, fun hall => ?_⟩, ih.2⟩
      · rcases List.mem_cons.mp hsp with h1 | h1
        · subst h1
          exact hthrow hlt
        · exact ih.1.mp h sp h1 hlt
      · exact ih.1.mpr (fun sp hsp => hall sp (List.mem_cons_of_mem _ hsp))

/-- The turn of the engine leaves a sublist of the active list. -/
theorem stimulator_tick_sublist (w : stimulus_state) (run : Nat → run_outcome) :
    (stimulator.tick w run).1.engine.stimuli_.Sublist w.engine.stimuli_ := by
  unfold stimulator.tick
  split
  · exact List.Sublist.refl _
  · split
    · exact List.Sublist.refl _
    · simp only
      split
      · split
        · exact List.filter_sublist _
        · exact List.Sublist.refl _
      · exact List.filter_sublist _


/-- C35 (as stated, refuted): the owner 1 allocates page `[4, 5)` and then pages
`[3, 6)` from the empty arena. The stimulus at `10` watches the two bytes at
`0x4FFF`, in pages 4 and 5, which begin below the cap and lie in the recorded
allocation `[3, 6)`. Yet `activate` throws `page_is_not_allocated`: the lookup
of `mmio::contains` by first page finds the record `[4, 5)` and asks only that
one. -/
theorem stimulator_activate_counterexample :
    ((mmio.initial.allocate true ⟨4, 1⟩ 1 ⟨"stub", 1⟩).1.allocate
      true ⟨3, 3⟩ 1 ⟨"stub", 1⟩).1.allocations_ =
      [(3, ⟨⟨3, 3⟩, 1, ⟨"stub", 1⟩⟩), (4, ⟨⟨4, 1⟩, 1, ⟨"stub", 1⟩⟩)] ∧
    pagerange.of_span ⟨0x4FFF, 2⟩ = ⟨4, 2⟩ ∧
    mmio.some_record_contains
      ⟨[(3, ⟨⟨3, 3⟩, 1, ⟨"stub", 1⟩⟩), (4, ⟨⟨4, 1⟩, 1, ⟨"stub", 1⟩⟩)], [], none⟩
      (pagerange.of_span ⟨0x4FFF, 2⟩) ∧
    (stimulator.activate
      ⟨stimulator.initial,
        fun _ => ⟨[⟨0x4FFF, 2⟩, ⟨0x4FFF, 2⟩], ⟨"stimulus", 2⟩, status_type.idle⟩⟩
      ⟨[(3, ⟨⟨3, 3⟩, 1, ⟨"stub", 1⟩⟩), (4, ⟨⟨4, 1⟩, 1, ⟨"stub", 1⟩⟩)], [], none⟩
      arena.max_size 10).2 = some (exception.page_is_not_allocated ⟨"stimulus", 2⟩) := by
  refine ⟨by decide, by decide, ?_, by decide⟩
  exact ⟨(3, ⟨⟨3, 3⟩, 1, ⟨"stub", 1⟩⟩), List.mem_cons_self _ _, by decide⟩

/-- C35 (amended): `stimulator::activate(s)` throws iff for some span of `s` that
starts below the arena cap `mmio::contains` is false on the pages of the span;
what it throws is `page_is_not_allocated` for the location of `s`, and the
engine and the stimulus objects are left as they were. Otherwise, when `s` is
listed nothing changes; when it is not, `s` is appended, its status becomes
active, `ready_` becomes true, and the cursor and the other objects stay as
they were. A list without duplicates stays without duplicates under
`activate`, `deactivate`, `unmapping` and the turns of the engine. -/
theorem stimulator_activate_spec (w : stimulus_state) (a : mmio) (cap : Nat) (s : Nat) :
    ((∃ e, (stimulator.activate w a cap s).2 = some e) ↔
      ∃ sp ∈ (w.objects s).spans, sp.front < cap ∧ a.contains_span sp = false) ∧
    (∀ e, (stimulator.activate w a cap s).2 = some e →
      e = exception.page_is_not_allocated (w.objects s).location_ ∧
      (stimulator.activate w a cap s).1 = w) ∧
    ((stimulator.activate w a cap s).2 = none → s ∈ w.engine.stimuli_ →
      (stimulator.activate w a cap s).1 = w) ∧
    ((stimulator.activate w a cap s).2 = none → s ∉ w.engine.stimuli_ →
      (stimulator.activate w a cap s).1.engine.stimuli_ = w.engine.stimuli_ ++ [s] ∧
      ((stimulator.activate w a cap s).1.objects s).status_ = status_type.active ∧
      (stimulator.activate w a cap s).1.engine.ready_ = true ∧
      (stimulator.activate w a cap s).1.engine.current_index_ = w.engine.current_index_ ∧
      (∀ x, x ≠ s → (stimulator.activate w a cap s).1.objects x = w.objects x)) ∧
    (w.engine.stimuli_.Nodup →
      (stimulator.activate w a cap s).1.engine.stimuli_.Nodup ∧
      (stimulator.deactivate w s).1.engine.stimuli_.Nodup ∧
      (∀ range, (stimulator.unmapping w range).engine.stimuli_.Nodup) ∧
      (∀ run, (stimulator.tick w run).1.engine.stimuli_.Nodup)) := by
  obtain ⟨hnone, hsome⟩ :=
    stimulator_check_pages_spec a cap (w.objects s).location_ (w.objects s).spans
  cases hcheck : stimulator.check_pages a cap (w.objects s).spans (w.objects s).location_ with
  | some e0 =>
    have hact : stimulator.activate w a cap s = (w, some e0) := by
      unfold stimulator.activate
      rw [hcheck]
    have hex : ∃ sp ∈ (w.objects s).spans, sp.front < cap ∧ a.contains_span sp = false := by
      by_contra hno
      have hall : ∀ sp ∈ (w.objects s).spans, sp.front < cap → a.contains_span sp = true := by
        intro sp hsp hlt
        cases hc : a.contains_span sp with
        | true => rfl
        | false => exact absurd ⟨sp, hsp, hlt, hc⟩ hno
      rw [hnone.mpr hall] at hcheck
      cases hcheck
    rw [hact]
    refine ⟨⟨fun _ => hex, fun _ => ⟨e0, rfl⟩⟩, ?_, fun h => by simp at h,
      fun h => by simp at h, fun hnd => ⟨hnd, ?_, ?_, ?_⟩⟩
    · intro e he
      simp only [Option.some.injEq] at he
      subst he
      exact ⟨hsome e0 hcheck, rfl⟩
    · unfold stimulator.deactivate
      split
      · exact hnd.filter _
      · exact hnd
    · intro range
      rw [(stimulator_unmapping_kept w range).1]
      exact hnd.filter _
    · intro run
      exact hnd.sublist (stimulator_tick_sublist w run)
  | none =>
    have hall := hnone.mp hcheck
    have hnoex : ¬ ∃ sp ∈ (w.objects s).spans, sp.front < cap ∧ a.contains_span sp = false := by
      rintro ⟨sp, hsp, hlt, hc⟩
      rw [hall sp hsp hlt] at hc
      cases hc
    have hnd_rest : w.engine.stimuli_.Nodup →
        (stimulator.deactivate w s).1.engine.stimuli_.Nodup ∧
        (∀ range, (stimulator.unmapping w range).engine.stimuli_.Nodup) ∧
        (∀ run, (stimulator.tick w run).1.engine.stimuli_.Nodup) := by
      intro hnd
      refine ⟨?_, ?_, ?_⟩
      · unfold stimulator.deactivate
        split
        · exact hnd.filter _
        · exact hnd
      · intro range
        rw [(stimulator_unmapping_kept w range).1]
        exact hnd.filter _
      · intro run
        exact hnd.sublist (stimulator_tick_sublist w run)
    by_cases hin : s ∈ w.engine.stimuli_
    · have hact : stimulator.activate w a cap s = (w, none) := by
        unfold stimulator.activate
        rw [hcheck]
        simp only [if_pos hin]
      rw [hact]
      exact ⟨⟨(fun ⟨e, he⟩ => by cases he), fun h => absurd h hnoex⟩,
        (fun e he => by cases he), fun _ _ => rfl, fun _ h => absurd hin h,
        fun hnd => ⟨hnd, hnd_rest hnd⟩⟩
    · have hact : stimulator.activate w a cap s =
          ({ engine := { w.engine with stimuli_ := w.engine.stimuli_ ++ [s], ready_ := true },
             objects := stimulus_state.store w.objects s (w.objects s).active }, none) := by
        unfold stimulator.activate
        rw [hcheck]
        simp only [if_neg hin]
      rw [hact]
      refine ⟨⟨(fun ⟨e, he⟩ => by cases he), fun h => absurd h hnoex⟩,
        (fun e he => by cases he), fun _ h => absurd h hin,
        fun _ _ => ⟨rfl, ?_, rfl, rfl, ?_⟩, fun hnd => ⟨?_, hnd_rest hnd⟩⟩
      · simp [stimulus_state.store, istimulus.active]
      · intro x hx
        simp [stimulus_state.store, hx]
      · exact List.Nodup.append hnd (List.nodup_singleton s) (by
          intro x hx1 hx2
          rw [List.mem_singleton] at hx2
          subst hx2
          exact hin hx1)

/-- Witness of C35 (amended): a stimulus on the bytes at 2000 and 2004 is
activated while the arena is empty; `activate` throws and the engine is left
without stimuli. -/
theorem stimulator_activate_spec_witness :
    (stimulator.activate
      ⟨stimulator.initial, fun _ => ⟨[⟨2000, 4⟩, ⟨2004, 4⟩], ⟨"sut", 1⟩, status_type.idle⟩⟩
      mmio.initial arena.max_size 10).2 = some (exception.page_is_not_allocated ⟨"sut", 1⟩) ∧
    (stimulator.activate
      ⟨stimulator.initial, fun _ => ⟨[⟨2000, 4⟩, ⟨2004, 4⟩], ⟨"sut", 1⟩, status_type.idle⟩⟩
      mmio.initial arena.max_size 10).1.engine.stimuli_ = [] :=
  ⟨by decide,
    congrArg (fun v : stimulus_state => v.engine.stimuli_)
      ((stimulator_activate_spec
        ⟨stimulator.initial, fun _ => ⟨[⟨2000, 4⟩, ⟨2004, 4⟩], ⟨"sut", 1⟩, status_type.idle⟩⟩
        mmio.initial arena.max_size 10).2.1
        (exception.page_is_not_allocated ⟨"sut", 1⟩) (by decide)).2⟩


/-- On a list without duplicates, `std::erase` of the pointer at an index
removes that one position. -/
theorem std_erase_eq_eraseIdx (l : List Nat) (hnd : l.Nodup) (i : Nat) (h : i < l.length) :
    std_erase l (l.getD i 0) = l.eraseIdx i := by
  rw [List.getD_eq_getElem _ _ h, ← hnd.erase_getElem i h, hnd.erase_eq_filter]
  unfold std_erase
  congr 1
  funext x
  simp [bne, beq_eq_decide]

/-- While the cursor is below the size of a list without duplicates, the turn
after a stimulus completed selects the stimulus that followed it. -/
theorem stimulator_tick_done_selects_follower (w : stimulus_state) (run : Nat → run_outcome)
    (hnd : w.engine.stimuli_.Nodup)
    (hready : w.engine.ready_ = true) (hterm : w.engine.terminate_ = false)
    (hc : w.engine.current_index_ < w.engine.stimuli_.length)
    (hdone : run (w.engine.stimuli_.getD w.engine.current_index_ 0) =
      run_outcome.returns status_type.done) :
    (stimulator.tick w run).2 = some (w.engine.stimuli_.getD w.engine.current_index_ 0) ∧
    (stimulator.tick w run).1.engine.selected =
      if w.engine.stimuli_.length = 1 then none
      else some (w.engine.stimuli_.getD
        ((w.engine.current_index_ + 1) % w.engine.stimuli_.length) 0) := by
  have hmod : w.engine.current_index_ % w.engine.stimuli_.length = w.engine.current_index_ :=
    Nat.mod_eq_of_lt hc
  have hemp : w.engine.stimuli_.isEmpty = false := by
    cases hl : w.engine.stimuli_ with
    | nil => rw [hl] at hc; simp at hc
    | cons x xs => rfl
  have herase := std_erase_eq_eraseIdx w.engine.stimuli_ hnd w.engine.current_index_ hc
  unfold stimulator.tick
  simp only [hready, hterm, hemp, Bool.or_false, Bool.not_true, Bool.false_eq_true, if_false,
    hmod, hdone, if_true, herase, true_and]
  unfold stimulator.selected
  simp only
  have hlen : (w.engine.stimuli_.eraseIdx w.engine.current_index_).length =
      w.engine.stimuli_.length - 1 := List.length_eraseIdx_of_lt hc
  by_cases h1 : w.engine.stimuli_.length = 1
  · rw [if_pos h1]
    have hnil : w.engine.stimuli_.eraseIdx w.engine.current_index_ = [] :=
      List.length_eq_zero.mp (by omega)
    rw [hnil]
    rfl
  · rw [if_neg h1]
    have hne : (w.engine.stimuli_.eraseIdx w.engine.current_index_).isEmpty = false := by
      cases hl : w.engine.stimuli_.eraseIdx w.engine.current_index_ with
      | nil => rw [hl] at hlen; simp at hlen; omega
      | cons x xs => rfl
    rw [hne]
    simp only [Bool.false_eq_true, if_false, Option.some.injEq, hlen,
      List.getD_eq_getElem?_getD, List.getElem?_eraseIdx]
    by_cases h2 : w.engine.current_index_ + 1 < w.engine.stimuli_.length
    · have e1 : w.engine.current_index_ % (w.engine.stimuli_.length - 1) =
          w.engine.current_index_ := Nat.mod_eq_of_lt (by omega)
      have e2 : (w.engine.current_index_ + 1) % w.engine.stimuli_.length =
          w.engine.current_index_ + 1 := Nat.mod_eq_of_lt h2
      rw [e1, e2, if_neg (by omega)]
    · have hceq : w.engine.current_index_ = w.engine.stimuli_.length - 1 := by omega
      have e1 : w.engine.current_index_ % (w.engine.stimuli_.length - 1) = 0 := by
        rw [hceq]; exact Nat.mod_self _
      have e2 : (w.engine.current_index_ + 1) % w.engine.stimuli_.length = 0 := by
        have : w.engine.current_index_ + 1 = w.engine.stimuli_.length := by omega
        rw [this]; exact Nat.mod_self _
      rw [e1, e2, if_pos (by omega)]


/-- While the cursor is below the size of a list without duplicates,
deactivating a stimulus other than the selected one leaves the selection on the
same stimulus. -/
theorem stimulator_deactivate_keeps_selection (w : stimulus_state) (s : Nat)
    (hnd : w.engine.stimuli_.Nodup)
    (hc : w.engine.current_index_ < w.engine.stimuli_.length)
    (hcw : w.engine.current_index_ < word_modulus)
    (hs : s ∈ w.engine.stimuli_)
    (hne : s ≠ w.engine.stimuli_.getD w.engine.current_index_ 0) :
    (stimulator.deactivate w s).1.engine.selected =
      some (w.engine.stimuli_.getD w.engine.current_index_ 0) := by
  have hmod : w.engine.current_index_ % w.engine.stimuli_.length = w.engine.current_index_ :=
    Nat.mod_eq_of_lt hc
  have hj : w.engine.stimuli_.indexOf s < w.engine.stimuli_.length :=
    List.indexOf_lt_length.mpr hs
  have hsj : w.engine.stimuli_.getD (w.engine.stimuli_.indexOf s) 0 = s := by
    rw [List.getD_eq_getElem _ _ hj]
    exact List.getElem_indexOf hj
  have hjc : w.engine.stimuli_.indexOf s ≠ w.engine.current_index_ := by
    intro h
    rw [h] at hsj
    exact hne hsj.symm
  have herase : std_erase w.engine.stimuli_ s =
      w.engine.stimuli_.eraseIdx (w.engine.stimuli_.indexOf s) := by
    have := std_erase_eq_eraseIdx w.engine.stimuli_ hnd _ hj
    rw [hsj] at this
    exact this
  have hlen : (w.engine.stimuli_.eraseIdx (w.engine.stimuli_.indexOf s)).length =
      w.engine.stimuli_.length - 1 := List.length_eraseIdx_of_lt hj
  have hemp : (w.engine.stimuli_.eraseIdx (w.engine.stimuli_.indexOf s)).isEmpty = false := by
    cases hl : w.engine.stimuli_.eraseIdx (w.engine.stimuli_.indexOf s) with
    | nil => rw [hl] at hlen; simp at hlen; omega
    | cons x xs => rfl
  have hlist : (stimulator.deactivate w s).1.engine.stimuli_ =
      w.engine.stimuli_.eraseIdx (w.engine.stimuli_.indexOf s) := by
    unfold stimulator.deactivate
    rw [if_pos hs]
    exact herase
  have hcursor : (stimulator.deactivate w s).1.engine.current_index_ =
      (w.engine.adjust_index (w.engine.stimuli_.indexOf s)).current_index_ := by
    unfold stimulator.deactivate
    rw [if_pos hs]
  have hnonempty : w.engine.stimuli_.isEmpty = false := by
    cases hl : w.engine.stimuli_ with
    | nil => rw [hl] at hc; simp at hc
    | cons x xs => rfl
  have hadj : (w.engine.adjust_index (w.engine.stimuli_.indexOf s)).current_index_ =
      if w.engine.stimuli_.indexOf s < w.engine.current_index_ then
        w.engine.current_index_ - 1
      else w.engine.current_index_ := by
    unfold stimulator.adjust_index
    by_cases hlt : w.engine.stimuli_.indexOf s < w.engine.current_index_
    · rw [if_pos (by simp [hnonempty, hmod, hlt]), if_pos hlt]
      show (w.engine.current_index_ + word_modulus - 1) % word_modulus =
        w.engine.current_index_ - 1
      unfold word_modulus at hcw ⊢
      omega
    · rw [if_neg (by simp [hnonempty, hmod, hlt]), if_neg hlt]
  unfold stimulator.selected
  rw [hlist, hcursor, hemp, hadj]
  simp only [Bool.false_eq_true, if_false, Option.some.injEq, hlen,
    List.getD_eq_getElem?_getD, List.getElem?_eraseIdx]
  by_cases hlt : w.engine.stimuli_.indexOf s < w.engine.current_index_
  · have e1 : (w.engine.current_index_ - 1) % (w.engine.stimuli_.length - 1) =
        w.engine.current_index_ - 1 := Nat.mod_eq_of_lt (by omega)
    rw [if_pos hlt, e1, if_neg (by omega)]
    congr 2
    omega
  · have e1 : w.engine.current_index_ % (w.engine.stimuli_.length - 1) =
        w.engine.current_index_ := Nat.mod_eq_of_lt (by omega)
    rw [if_neg hlt, e1, if_pos (by omega)]

end stubmmio
